import Mathlib

/-!
Verification of the nginx-conf-language core (lexer, parser, generator)
against its natural-language specification.

The definitions below are a shallow embedding of the TypeScript sources:
`src/parser/tokenizer.ts`, the parser (`Parser` class), the AST node types
(`ast.ts`) and the generator (`src/generator/generator.ts`).  JavaScript
strings are modelled as `List Char` scanned left to right, the mutable
cursor state (position, line, column) is passed explicitly, thrown
exceptions become `Except String`, and the generator's mutable instance
fields become an explicit state record threaded through every call.
Loops that are not structurally recursive take a fuel parameter; every
entry point supplies fuel large enough that exhaustion is unreachable for
the inputs considered.  JavaScript's `/\s/` character class is modelled by
its ASCII fragment, which is exact for all inputs appearing here.
-/

namespace Ncl

/-- The newline character. -/
def nlChar : Char := '\n'

/-- The backslash character. -/
def bsChar : Char := '\\'

/-- The double-quote character. -/
def dqChar : Char := '"'

/-- The single-quote character (written via its code point to keep the
source free of quote literals). -/
def sqChar : Char := Char.ofNat 39

/-- ASCII fragment of JavaScript's `/\s/` class (space, tab, newline,
carriage return, vertical tab, form feed). -/
def jsWs (c : Char) : Bool :=
  c = ' ' || c = '\t' || c = nlChar || c = '\r' || c = Char.ofNat 11 || c = Char.ofNat 12

/-- JavaScript `/\d/`. -/
def isDigitCh (c : Char) : Bool :=
  '0' ≤ c && c ≤ '9'

/-- `Tokenizer.isIdentifierStart`: `/[a-zA-Z_]/`. -/
def isIdentStartCh (c : Char) : Bool :=
  ('a' ≤ c && c ≤ 'z') || ('A' ≤ c && c ≤ 'Z') || c = '_'

/-- `Tokenizer.isIdentifierPart`: `/[a-zA-Z0-9_]/`. -/
def isIdentPartCh (c : Char) : Bool :=
  isIdentStartCh c || isDigitCh c

/-- The break set of `Tokenizer.readIdentifier`: whitespace plus
`{ } [ ] ; , = " ' ( )`. -/
def identStop (c : Char) : Bool :=
  jsWs c || c = '{' || c = '}' || c = '[' || c = ']' || c = ';' || c = ',' ||
    c = '=' || c = dqChar || c = sqChar || c = '(' || c = ')'

/-- Token kinds of `tokenizer.ts` (`TokenType`).  The `envVar` and
`importKw` kinds are declared by the parser and its tests; the tokenizer
file in `src/` predates them (see `readImportKeyword` below). -/
inductive TokenType where
  | identifier
  | number
  | string
  | location
  | inKeyword
  | variable
  | inlineKw
  | locationModifier
  | leftBrace
  | rightBrace
  | leftBracket
  | rightBracket
  | leftParen
  | rightParen
  | semicolon
  | comma
  | equals
  | eof
  | envVar
  | importKw
deriving DecidableEq, Repr

/-- A lexical token: kind, raw value, and the 1-based source position of
its first character (for strings, the position recorded is the opening
quote's column but the line reached at the string's end, exactly as in
`readString`). -/
structure Token where
  type : TokenType
  value : String
  line : Nat
  column : Nat
deriving DecidableEq, Repr

/-- The message of the unterminated-string error thrown by
`Tokenizer.readString`. -/
def untermMsg (line col : Nat) : String :=
  "Unterminated string at line " ++ toString line ++ ", column " ++ toString col

/-- The scanning loop of `Tokenizer.readString`, entered just after the
opening quote.  `startCol` is the opening quote's column; `line`/`col`
are the current cursor position.  An escape (`\` followed by any
character) appends the escaped character; a newline — escaped or not —
advances the line counter and resets the column.  Reaching the end of
input throws the unterminated-string error built from the *current*
line and the opening quote's column. -/
def readStrLoop (q : Char) (startCol : Nat) :
    List Char → Nat → Nat → String → Except String (String × List Char × Nat × Nat)
  | [], line, _col, _acc => .error (untermMsg line startCol)
  | c :: rest, line, col, acc =>
    if c = q then .ok (acc, rest, line, col + 1)
    else if c = bsChar then
      match rest with
      | [] =>
        -- position+1 = length: no escape; the literal backslash is
        -- consumed and the loop then hits end of input.
        .error (untermMsg line startCol)
      | e :: rest2 =>
        if e = nlChar then readStrLoop q startCol rest2 (line + 1) 1 (acc.push e)
        else readStrLoop q startCol rest2 line (col + 2) (acc.push e)
    else if c = nlChar then readStrLoop q startCol rest (line + 1) 1 (acc.push c)
    else readStrLoop q startCol rest line (col + 1) (acc.push c)

/-- `Tokenizer.readString`: consume the opening quote, run the loop, and
build the string token (value without the delimiting quotes; token line
is the line at the string's end, token column the opening quote's). -/
def readString (q : Char) (cs : List Char) (line col : Nat) :
    Except String (Token × List Char × Nat × Nat) :=
  match readStrLoop q col cs line (col + 1) "" with
  | .error e => .error e
  | .ok (value, rest, line2, col2) =>
    .ok ({ type := .string, value := value, line := line2, column := col }, rest, line2, col2)

/-- `Tokenizer.readVariable`: `$` followed by identifier-part characters. -/
def readVariable (cs : List Char) (line col : Nat) : Token × List Char × Nat × Nat :=
  let body := cs.takeWhile isIdentPartCh
  ({ type := .variable, value := "$" ++ String.mk body, line := line, column := col },
    cs.dropWhile isIdentPartCh, line, col + 1 + body.length)

/-- `Tokenizer.readIdentifier`: read until whitespace or a delimiter;
tag the keywords `location` and `in` with their own token kinds. -/
def readIdentifier (cs : List Char) (line col : Nat) : Token × List Char × Nat × Nat :=
  let body := cs.takeWhile (fun c => !identStop c)
  let value := String.mk body
  let ty : TokenType :=
    if value = "location" then .location
    else if value = "in" then .inKeyword
    else .identifier
  ({ type := ty, value := value, line := line, column := col },
    cs.dropWhile (fun c => !identStop c), line, col + body.length)

/-- `Tokenizer.readInline`: at `@`, emit the inline keyword token when the
next seven characters spell `@inline`, otherwise fall back to an
identifier containing the `@`. -/
def readInlineKeyword (cs : List Char) (line col : Nat) : Token × List Char × Nat × Nat :=
  if cs.take 7 = "@inline".toList then
    ({ type := .inlineKw, value := "@inline", line := line, column := col },
      cs.drop 7, line, col + 7)
  else readIdentifier cs line col

/-- Modelled from the spec: the import keyword token.  The tokenizer file
under `src/` predates the import feature — its `TokenType` has no import
kind — while the parser's tests (`tests/imports.test.ts`) require
`%import` to lex as a single import keyword token.  Following §4.1 of the
spec ("the sigil characters that introduce variable/template/env/import
keyword tokens (disambiguated by matching the immediately following
literal keyword text)"), at `%` the next seven characters are compared
with `%import`; on a mismatch the `%` falls into the identifier fallback
exactly like `@`. -/
def readImportKeyword (cs : List Char) (line col : Nat) : Token × List Char × Nat × Nat :=
  if cs.take 7 = "%import".toList then
    ({ type := .importKw, value := "%import", line := line, column := col },
      cs.drop 7, line, col + 7)
  else readIdentifier cs line col

/-- `Tokenizer.isLocationModifier`: `~` (optionally `~*`) or `^~` start a
location-modifier token; a bare `=` or `^` does not. -/
def isLocationModifierAt (cs : List Char) : Bool :=
  match cs with
  | '~' :: _ => true
  | '^' :: '~' :: _ => true
  | _ => false

/-- `Tokenizer.readLocationModifier`: longest match among `~*`, `~`, `^~`. -/
def readLocationModifier (cs : List Char) (line col : Nat) : Token × List Char × Nat × Nat :=
  match cs with
  | '~' :: '*' :: rest =>
    ({ type := .locationModifier, value := "~*", line := line, column := col }, rest, line, col + 2)
  | '~' :: rest =>
    ({ type := .locationModifier, value := "~", line := line, column := col }, rest, line, col + 1)
  | '^' :: '~' :: rest =>
    ({ type := .locationModifier, value := "^~", line := line, column := col }, rest, line, col + 2)
  | _ =>
    ({ type := .locationModifier, value := "", line := line, column := col }, cs, line, col)

/-- `Tokenizer.readNumber`: a run of digits. -/
def readNumber (cs : List Char) (line col : Nat) : Token × List Char × Nat × Nat :=
  let body := cs.takeWhile isDigitCh
  ({ type := .number, value := String.mk body, line := line, column := col },
    cs.dropWhile isDigitCh, line, col + body.length)

/-- `Tokenizer.readToken`: one token from a non-empty, non-whitespace,
non-comment position, via the dispatch order of the source: single-char
punctuation, quoted strings, `$`, `@`, (modelled) `%`, location-modifier
sigils, digits, identifier start, and an identifier fallback for any
other character. -/
def readToken (cs : List Char) (line col : Nat) :
    Except String (Token × List Char × Nat × Nat) :=
  match cs with
  | [] => .error "readToken on empty input"
  | c :: rest =>
    if c = '{' then .ok ({ type := .leftBrace, value := "\x7b", line := line, column := col }, rest, line, col + 1)
    else if c = '}' then .ok ({ type := .rightBrace, value := "\x7d", line := line, column := col }, rest, line, col + 1)
    else if c = '[' then .ok ({ type := .leftBracket, value := "[", line := line, column := col }, rest, line, col + 1)
    else if c = ']' then .ok ({ type := .rightBracket, value := "]", line := line, column := col }, rest, line, col + 1)
    else if c = ';' then .ok ({ type := .semicolon, value := ";", line := line, column := col }, rest, line, col + 1)
    else if c = ',' then .ok ({ type := .comma, value := ",", line := line, column := col }, rest, line, col + 1)
    else if c = '=' then .ok ({ type := .equals, value := "=", line := line, column := col }, rest, line, col + 1)
    else if c = '(' then .ok ({ type := .leftParen, value := "(", line := line, column := col }, rest, line, col + 1)
    else if c = ')' then .ok ({ type := .rightParen, value := ")", line := line, column := col }, rest, line, col + 1)
    else if c = dqChar || c = sqChar then readString c rest line col
    else if c = '$' then .ok (readVariable rest line col)
    else if c = '@' then .ok (readInlineKeyword cs line col)
    else if c = '%' then .ok (readImportKeyword cs line col)
    else if isLocationModifierAt cs then .ok (readLocationModifier cs line col)
    else if isDigitCh c then .ok (readNumber cs line col)
    else .ok (readIdentifier cs line col)

/-- `Tokenizer.skipWhitespaceAndComments`: consume whitespace (tracking
line/column; a newline resets the column to 1) and `#` line comments
(whose characters advance the position but — as in the source — not the
column counter). -/
def skipWsComments : Nat → List Char → Nat → Nat → List Char × Nat × Nat
  | 0, cs, line, col => (cs, line, col)
  | _fuel + 1, [], line, col => ([], line, col)
  | fuel + 1, c :: rest, line, col =>
    if jsWs c then
      if c = nlChar then skipWsComments fuel rest (line + 1) 1
      else skipWsComments fuel rest line (col + 1)
    else if c = '#' then
      skipWsComments fuel (rest.dropWhile (fun x => x != nlChar)) line col
    else (c :: rest, line, col)

/-- The `Tokenizer.tokenize` loop: skip whitespace/comments, read one
token, repeat; append the end-of-input token at the final position. -/
def tokenizeLoop : Nat → List Char → Nat → Nat → List Token → Except String (List Token)
  | 0, _, _, _, _ => .error "tokenizer fuel exhausted"
  | fuel + 1, cs, line, col, acc =>
    match skipWsComments (cs.length + 1) cs line col with
    | (cs2, line2, col2) =>
      match cs2 with
      | [] => .ok (acc ++ [{ type := .eof, value := "", line := line2, column := col2 }])
      | _ :: _ =>
        match readToken cs2 line2 col2 with
        | .error e => .error e
        | .ok (t, rest, line3, col3) => tokenizeLoop fuel rest line3 col3 (acc ++ [t])

/-- `tokenize`: lex a whole input, starting at line 1, column 1. -/
def tokenize (input : String) : Except String (List Token) :=
  tokenizeLoop (input.length + 1) input.toList 1 1 []

/-! ## AST (`ast.ts`) -/

/-- Source position carried by every AST node. -/
structure Position where
  line : Nat
  column : Nat
deriving DecidableEq, Repr

/-- `LocationModifier` from `ast.ts`; the enum's string values are
recovered by `LocationModifier.str`. -/
inductive LocationModifier where
  | none
  | exact
  | regex
  | regexCaseInsensitive
  | priorityPrefix
deriving DecidableEq, Repr

/-- The string value of each `LocationModifier` enum member
(`''`, `'='`, `'~'`, `'~*'`, `'^~'`). -/
def LocationModifier.str : LocationModifier → String
  | .none => ""
  | .exact => "="
  | .regex => "~"
  | .regexCaseInsensitive => "~*"
  | .priorityPrefix => "^~"

/-- The AST node union of `ast.ts`.  `variableAssignment`'s value is a
`BlockNode` in the source; here it is an `ASTNode` that the parser only
ever instantiates with a `block`. -/
inductive ASTNode where
  | config (children : List ASTNode) (position : Position)
  | directive (name : String) (args : List String) (position : Position)
  | block (name : String) (args : List String) (children : List ASTNode) (position : Position)
  | location (modifier : LocationModifier) (paths : List String)
      (children : List ASTNode) (position : Position)
  | variableAssignment (name : String) (value : ASTNode) (position : Position)
  | inlineDirective (variableName : String) (position : Position)
  | envVar (variableName : String) (defaultValue : Option String) (position : Position)
  | importRef (path : String) (position : Position)
deriving Repr

/-- The `children` field of the node kinds that have one (used by
`collectVariables`'s `'children' in node` test and by the generator). -/
def ASTNode.childrenOf : ASTNode → List ASTNode
  | .config cs _ => cs
  | .block _ _ cs _ => cs
  | .location _ _ cs _ => cs
  | _ => []

/-- Discriminates `variable_assignment` nodes (`child.type !== 'variable_assignment'`). -/
def ASTNode.isVarAssign : ASTNode → Bool
  | .variableAssignment _ _ _ => true
  | _ => false

/-! ## Parser (the `Parser` class)

Modelled as functions from the not-yet-consumed token suffix; the class's
`current` index becomes the dropped prefix.  `process.env` reads during
parsing become an explicit lookup `envm : String → Option String`.  All
mutually recursive functions take a fuel parameter, decremented at every
call; the entry point supplies fuel that is never exhausted on inputs
whose parse terminates. -/

/-- `Parser.peek` (with a defensive end-of-file token for the empty list,
which `tokenize` output never produces since it always ends in `eof`). -/
def peekTok (ts : List Token) : Token :=
  ts.headD { type := .eof, value := "", line := 0, column := 0 }

/-- `Parser.peekNext`. -/
def peekNextTok (ts : List Token) : Option Token :=
  ts[1]?

/-- `Parser.check`. -/
def checkTok (ty : TokenType) (ts : List Token) : Bool :=
  (peekTok ts).type = ty

/-- `Parser.isAtEnd`. -/
def atEnd (ts : List Token) : Bool :=
  checkTok .eof ts

/-- `Parser.error`: prefix the message with the current token's position. -/
def perr (msg : String) (ts : List Token) : String :=
  msg ++ " at line " ++ toString (peekTok ts).line ++ ", column " ++
    toString (peekTok ts).column

/-- `Parser.getCurrentPosition`. -/
def tokPos (ts : List Token) : Position :=
  { line := (peekTok ts).line, column := (peekTok ts).column }

/-- `Parser.hasLeftBraceAhead`: scan the tokens after the current one for
a `{` before any `;` or end of input. -/
def hasLeftBraceAhead (ts : List Token) : Bool :=
  go (ts.drop 1)
where
  go : List Token → Bool
  | [] => false
  | t :: r =>
    if t.type = .leftBrace then true
    else if t.type = .semicolon || t.type = .eof then false
    else go r

/-- `Parser.parseLocationModifier`. -/
def parseLocationModifierStr (value : String) : LocationModifier :=
  if value = "=" then .exact
  else if value = "~" then .regex
  else if value = "~*" then .regexCaseInsensitive
  else if value = "^~" then .priorityPrefix
  else .none

/-- `Parser.resolveEnvironmentVariable`: the process environment value,
else the default, else a thrown resolution error (positioned at the
current token). -/
def resolveEnvValue (envm : String → Option String) (name : String)
    (deflt : Option String) (ts : List Token) : Except String String :=
  match envm name with
  | some v => .ok v
  | Option.none =>
    match deflt with
    | some d => .ok d
    | Option.none =>
      .error (perr ("Environment variable " ++ name ++
        " is not set and no default value provided") ts)

/-- `Parser.parseEnvironmentVariable`: `%env ( "NAME" [, "default"] )`
(no trailing semicolon consumed here).  Returns the node and the
remaining tokens.  Not recursive, so it sits outside the mutual block. -/
def parseEnvVarNode (ts : List Token) : Except String (ASTNode × List Token) :=
  let startPos := tokPos ts
  let ts := ts.drop 1
  if !(checkTok .leftParen ts) then .error (perr "Expected ( after %env" ts)
  else
    let ts := ts.drop 1
    if !(checkTok .string ts) then
      .error (perr "Expected string literal for environment variable name" ts)
    else
      let name := (peekTok ts).value
      let ts := ts.drop 1
      if checkTok .comma ts then
        let ts := ts.drop 1
        if !(checkTok .string ts) then
          .error (perr "Expected string literal for default value" ts)
        else
          let d := (peekTok ts).value
          let ts := ts.drop 1
          if !(checkTok .rightParen ts) then
            .error (perr "Expected ) after environment variable" ts)
          else .ok (.envVar name (some d) startPos, ts.drop 1)
      else
        if !(checkTok .rightParen ts) then
          .error (perr "Expected ) after environment variable" ts)
        else .ok (.envVar name Option.none startPos, ts.drop 1)

/-- Parse an `%env` reference and resolve it to a literal string at once
(the `parseEnvironmentVariable`/`resolveEnvironmentVariable` pairing used
for arguments and paths). -/
def parseResolveEnv (envm : String → Option String) (ts : List Token) :
    Except String (String × List Token) :=
  match parseEnvVarNode ts with
  | .error e => .error e
  | .ok (node, ts2) =>
    match node with
    | .envVar name d _ =>
      match resolveEnvValue envm name d ts2 with
      | .error e => .error e
      | .ok v => .ok (v, ts2)
    | _ => .error "parseEnvVarNode returned a non-env node"

mutual

/-- `Parser.parseStatement`: dispatch on the current token.  The import
branch is modelled from the spec (§4.2 item 5) and the import tests: the
parser file in `src/` predates the import feature. -/
def parseStatement (envm : String → Option String) :
    Nat → List Token → Except String (Option ASTNode × List Token)
  | 0, _ => .error "parser fuel exhausted"
  | fuel + 1, ts =>
    if checkTok .eof ts then .ok (Option.none, ts)
    else if checkTok .variable ts then
      match peekNextTok ts with
      | some t =>
        if t.type = .equals then
          match parseVariableAssignment envm fuel ts with
          | .error e => .error e
          | .ok (n, ts2) => .ok (some n, ts2)
        else
          match parseDirective envm fuel ts with
          | .error e => .error e
          | .ok (n, ts2) => .ok (some n, ts2)
      | Option.none =>
        match parseDirective envm fuel ts with
        | .error e => .error e
        | .ok (n, ts2) => .ok (some n, ts2)
    else if checkTok .inlineKw ts then
      match parseInlineDirective fuel ts with
      | .error e => .error e
      | .ok (n, ts2) => .ok (some n, ts2)
    else if checkTok .envVar ts then
      match parseEnvVarNode ts with
      | .error e => .error e
      | .ok (n, ts2) => .ok (some n, ts2)
    else if checkTok .importKw ts then
      -- Modelled from the spec: "import keyword → parse ImportReference:
      -- parenthesized string path, terminating semicolon" (§4.2), absent
      -- from the parser file in src/ but exercised by tests/imports.test.ts.
      match parseImportStatement ts with
      | .error e => .error e
      | .ok (n, ts2) => .ok (some n, ts2)
    else if checkTok .location ts then
      match parseLocation envm fuel ts with
      | .error e => .error e
      | .ok (n, ts2) => .ok (some n, ts2)
    else if checkTok .identifier ts then
      if (peekTok ts).value = "if" then
        match parseIfBlock envm fuel ts with
        | .error e => .error e
        | .ok (n, ts2) => .ok (some n, ts2)
      else if hasLeftBraceAhead ts then
        match parseBlock envm fuel ts with
        | .error e => .error e
        | .ok (n, ts2) => .ok (some n, ts2)
      else
        match parseDirective envm fuel ts with
        | .error e => .error e
        | .ok (n, ts2) => .ok (some n, ts2)
    else .error (perr ("Unexpected token: " ++ (peekTok ts).value) ts)

/-- `Parser.parseVariableAssignment`: `$name = { ... };`. -/
def parseVariableAssignment (envm : String → Option String) :
    Nat → List Token → Except String (ASTNode × List Token)
  | 0, _ => .error "parser fuel exhausted"
  | fuel + 1, ts =>
    let startPos := tokPos ts
    let name := (peekTok ts).value
    let ts := ts.drop 1
    if !(checkTok .equals ts) then .error (perr "Expected = after variable" ts)
    else
      let ts := ts.drop 1
      if !(checkTok .leftBrace ts) then
        .error (perr "Expected \x7b after variable assignment" ts)
      else
        match parseBlockBody envm fuel "" ts with
        | .error e => .error e
        | .ok (value, ts2) =>
          if !(checkTok .semicolon ts2) then
            .error (perr "Expected ; after variable assignment" ts2)
          else .ok (.variableAssignment name value startPos, ts2.drop 1)

/-- `Parser.parseInlineDirective`: `%inline($name);`. -/
def parseInlineDirective :
    Nat → List Token → Except String (ASTNode × List Token)
  | 0, _ => .error "parser fuel exhausted"
  | _fuel + 1, ts =>
    let startPos := tokPos ts
    let ts := ts.drop 1
    if !(checkTok .leftParen ts) then .error (perr "Expected ( after %inline" ts)
    else
      let ts := ts.drop 1
      if !(checkTok .variable ts) then
        .error (perr "Expected variable inside %inline()" ts)
      else
        let v := (peekTok ts).value
        let ts := ts.drop 1
        if !(checkTok .rightParen ts) then .error (perr "Expected ) after variable" ts)
        else
          let ts := ts.drop 1
          if !(checkTok .semicolon ts) then .error (perr "Expected ; after %inline()" ts)
          else .ok (.inlineDirective v startPos, ts.drop 1)

/-- Modelled from the spec: `%import("path");` as a statement.  See
`parseStatement`. -/
def parseImportStatement (ts : List Token) : Except String (ASTNode × List Token) :=
  let startPos := tokPos ts
  let ts := ts.drop 1
  if !(checkTok .leftParen ts) then .error (perr "Expected ( after %import" ts)
  else
    let ts := ts.drop 1
    if !(checkTok .string ts) then .error (perr "Expected string path for %import" ts)
    else
      let p := (peekTok ts).value
      let ts := ts.drop 1
      if !(checkTok .rightParen ts) then .error (perr "Expected ) after import path" ts)
      else
        let ts := ts.drop 1
        if !(checkTok .semicolon ts) then .error (perr "Expected ; after %import()" ts)
        else .ok (.importRef p startPos, ts.drop 1)

/-- `Parser.parseLocation`: either the multi-path form
`location in [ p1, p2, ... ] { ... }` or the single-path form
`location [modifier] path { ... }`. -/
def parseLocation (envm : String → Option String) :
    Nat → List Token → Except String (ASTNode × List Token)
  | 0, _ => .error "parser fuel exhausted"
  | fuel + 1, ts =>
    let startPos := tokPos ts
    let ts := ts.drop 1
    if checkTok .inKeyword ts then
      let ts := ts.drop 1
      if !(checkTok .leftBracket ts) then
        .error (perr "Expected [ after location in" ts)
      else
        match parseLocationPathList envm fuel (ts.drop 1) [] with
        | .error e => .error e
        | .ok (paths, ts2) =>
          if !(checkTok .rightBracket ts2) then
            .error (perr "Expected ] after location paths" ts2)
          else
            let ts3 := ts2.drop 1
            if !(checkTok .leftBrace ts3) then
              .error (perr "Expected \x7b after location" ts3)
            else
              match parseBlockChildren envm fuel ts3 with
              | .error e => .error e
              | .ok (children, ts4) =>
                .ok (.location LocationModifier.none paths children startPos, ts4)
    else
      let (modifier, ts1) :=
        if checkTok .locationModifier ts then
          (parseLocationModifierStr (peekTok ts).value, ts.drop 1)
        else if checkTok .equals ts then
          (LocationModifier.exact, ts.drop 1)
        else (LocationModifier.none, ts)
      if !(checkTok .identifier ts1) && !(checkTok .string ts1) &&
          !(checkTok .envVar ts1) then
        .error (perr "Expected path after location" ts1)
      else
        let pathStep : Except String (String × List Token) :=
          if checkTok .envVar ts1 then parseResolveEnv envm ts1
          else .ok ((peekTok ts1).value, ts1.drop 1)
        match pathStep with
        | .error e => .error e
        | .ok (p, ts2) =>
          if !(checkTok .leftBrace ts2) then
            .error (perr "Expected \x7b after location" ts2)
          else
            match parseBlockChildren envm fuel ts2 with
            | .error e => .error e
            | .ok (children, ts3) =>
              .ok (.location modifier [p] children startPos, ts3)

/-- The path-list loop inside `parseLocation`: comma-separated strings or
environment references, up to `]`. -/
def parseLocationPathList (envm : String → Option String) :
    Nat → List Token → List String → Except String (List String × List Token)
  | 0, _, _ => .error "parser fuel exhausted"
  | fuel + 1, ts, acc =>
    if checkTok .rightBracket ts || atEnd ts then .ok (acc, ts)
    else if !(checkTok .string ts) && !(checkTok .envVar ts) then
      .error (perr "Expected string or environment variable in location path list" ts)
    else
      let pathStep : Except String (String × List Token) :=
        if checkTok .envVar ts then parseResolveEnv envm ts
        else .ok ((peekTok ts).value, ts.drop 1)
      match pathStep with
      | .error e => .error e
      | .ok (p, ts2) =>
        if checkTok .comma ts2 then
          parseLocationPathList envm fuel (ts2.drop 1) (acc ++ [p])
        else if !(checkTok .rightBracket ts2) then
          .error (perr "Expected , or ] in location path list" ts2)
        else parseLocationPathList envm fuel ts2 (acc ++ [p])

/-- `Parser.parseBlock`: name, argument loop, then `{`-delimited children. -/
def parseBlock (envm : String → Option String) :
    Nat → List Token → Except String (ASTNode × List Token)
  | 0, _ => .error "parser fuel exhausted"
  | fuel + 1, ts =>
    let startPos := tokPos ts
    let name := (peekTok ts).value
    match parseBlockArgs envm fuel (ts.drop 1) [] with
    | .error e => .error e
    | .ok (args, ts2) =>
      if !(checkTok .leftBrace ts2) then
        .error (perr "Expected \x7b after block name" ts2)
      else
        match parseBlockChildren envm fuel ts2 with
        | .error e => .error e
        | .ok (children, ts3) => .ok (.block name args children startPos, ts3)

/-- The argument loop of `parseBlock`: identifiers, strings, numbers,
variables and resolved environment references until `{` (or a token that
breaks the loop). -/
def parseBlockArgs (envm : String → Option String) :
    Nat → List Token → List String → Except String (List String × List Token)
  | 0, _, _ => .error "parser fuel exhausted"
  | fuel + 1, ts, acc =>
    if !(checkTok .leftBrace ts) && !(atEnd ts) then
      if checkTok .identifier ts || checkTok .string ts || checkTok .number ts ||
          checkTok .variable ts then
        parseBlockArgs envm fuel (ts.drop 1) (acc ++ [(peekTok ts).value])
      else if checkTok .envVar ts then
        match parseResolveEnv envm ts with
        | .error e => .error e
        | .ok (v, ts2) => parseBlockArgs envm fuel ts2 (acc ++ [v])
      else .ok (acc, ts)
    else .ok (acc, ts)

/-- `Parser.parseBlockBody`: a braced child list wrapped in a `block`
node with the given name and no arguments. -/
def parseBlockBody (envm : String → Option String) :
    Nat → String → List Token → Except String (ASTNode × List Token)
  | 0, _, _ => .error "parser fuel exhausted"
  | fuel + 1, name, ts =>
    let startPos := tokPos ts
    match parseBlockChildren envm fuel ts with
    | .error e => .error e
    | .ok (children, ts2) => .ok (.block name [] children startPos, ts2)

/-- `Parser.parseBlockChildren`: `{`, statements until `}`, `}`. -/
def parseBlockChildren (envm : String → Option String) :
    Nat → List Token → Except String (List ASTNode × List Token)
  | 0, _ => .error "parser fuel exhausted"
  | fuel + 1, ts =>
    if !(checkTok .leftBrace ts) then .error (perr "Expected \x7b" ts)
    else
      match parseBlockChildrenLoop envm fuel (ts.drop 1) [] with
      | .error e => .error e
      | .ok (children, ts2) =>
        if !(checkTok .rightBrace ts2) then .error (perr "Expected \x7d" ts2)
        else .ok (children, ts2.drop 1)

/-- The statement loop inside `parseBlockChildren`. -/
def parseBlockChildrenLoop (envm : String → Option String) :
    Nat → List Token → List ASTNode → Except String (List ASTNode × List Token)
  | 0, _, _ => .error "parser fuel exhausted"
  | fuel + 1, ts, acc =>
    if !(checkTok .rightBrace ts) && !(atEnd ts) then
      match parseStatement envm fuel ts with
      | .error e => .error e
      | .ok (some n, ts2) => parseBlockChildrenLoop envm fuel ts2 (acc ++ [n])
      | .ok (Option.none, ts2) => parseBlockChildrenLoop envm fuel ts2 acc
    else .ok (acc, ts)

/-- `Parser.parseIfBlock`: an `if` statement parsed as a block named
`if` whose arguments are the raw condition tokens. -/
def parseIfBlock (envm : String → Option String) :
    Nat → List Token → Except String (ASTNode × List Token)
  | 0, _ => .error "parser fuel exhausted"
  | fuel + 1, ts =>
    let startPos := tokPos ts
    let ts := ts.drop 1
    let (inParens, ts1) :=
      if checkTok .leftParen ts then (true, ts.drop 1) else (false, ts)
    match parseIfArgs fuel inParens ts1 [] with
    | .error e => .error e
    | .ok (args, ts2) =>
      match parseBlockChildren envm fuel ts2 with
      | .error e => .error e
      | .ok (children, ts3) => .ok (.block "if" args children startPos, ts3)

/-- The condition-token loop of `parseIfBlock`: collect raw token values
until `{`, consuming a closing `)` when the condition was parenthesized. -/
def parseIfArgs :
    Nat → Bool → List Token → List String → Except String (List String × List Token)
  | 0, _, _, _ => .error "parser fuel exhausted"
  | fuel + 1, inParens, ts, acc =>
    if !(checkTok .leftBrace ts) && !(atEnd ts) then
      if inParens && checkTok .rightParen ts then .ok (acc, ts.drop 1)
      else parseIfArgs fuel inParens (ts.drop 1) (acc ++ [(peekTok ts).value])
    else .ok (acc, ts)

/-- `Parser.parseDirective`: a name token, the argument loop, then a
required semicolon. -/
def parseDirective (envm : String → Option String) :
    Nat → List Token → Except String (ASTNode × List Token)
  | 0, _ => .error "parser fuel exhausted"
  | fuel + 1, ts =>
    let startPos := tokPos ts
    let name := (peekTok ts).value
    match parseDirectiveArgs envm fuel startPos.line (ts.drop 1) [] with
    | .error e => .error e
    | .ok (args, ts2) =>
      if !(checkTok .semicolon ts2) then
        .error (perr "Expected ; after directive" ts2)
      else .ok (.directive name args startPos, ts2.drop 1)

/-- The argument loop of `parseDirective`, including the line-based
statement-boundary heuristic (an identifier on a later line than the
directive's start ends the argument list) and the coalescing of `=`
with a following number or identifier into one argument. -/
def parseDirectiveArgs (envm : String → Option String) :
    Nat → Nat → List Token → List String → Except String (List String × List Token)
  | 0, _, _, _ => .error "parser fuel exhausted"
  | fuel + 1, directiveLine, ts, acc =>
    if !(checkTok .semicolon ts) && !(atEnd ts) then
      if directiveLine < (peekTok ts).line && checkTok .identifier ts then
        .ok (acc, ts)
      else if checkTok .identifier ts || checkTok .string ts ||
          checkTok .number ts || checkTok .variable ts then
        parseDirectiveArgs envm fuel directiveLine (ts.drop 1) (acc ++ [(peekTok ts).value])
      else if checkTok .envVar ts then
        match parseResolveEnv envm ts with
        | .error e => .error e
        | .ok (v, ts2) => parseDirectiveArgs envm fuel directiveLine ts2 (acc ++ [v])
      else if checkTok .equals ts then
        let eqv := (peekTok ts).value
        let ts2 := ts.drop 1
        if checkTok .number ts2 || checkTok .identifier ts2 then
          parseDirectiveArgs envm fuel directiveLine (ts2.drop 1)
            (acc ++ [eqv ++ (peekTok ts2).value])
        else parseDirectiveArgs envm fuel directiveLine ts2 (acc ++ [eqv])
      else if checkTok .leftBrace ts || checkTok .rightBrace ts then
        .error (perr "Expected ; after directive" ts)
      else .ok (acc, ts)
    else .ok (acc, ts)

end

/-- The statement loop of `Parser.parse`. -/
def parseTopLoop (envm : String → Option String) :
    Nat → List Token → List ASTNode → Except String (List ASTNode)
  | 0, _, _ => .error "parser fuel exhausted"
  | fuel + 1, ts, acc =>
    if !(atEnd ts) then
      match parseStatement envm fuel ts with
      | .error e => .error e
      | .ok (some n, ts2) => parseTopLoop envm fuel ts2 (acc ++ [n])
      | .ok (Option.none, ts2) => parseTopLoop envm fuel ts2 acc
    else .ok acc

/-- Fuel that is more than sufficient for any terminating parse of the
given token list (every mutual call either consumes a token first or is
one of a bounded number of administrative steps per token). -/
def parserFuel (ts : List Token) : Nat :=
  16 * (ts.length + 2)

/-- `Parser.parse`: the config root holding the top-level statements. -/
def parseTokens (envm : String → Option String) (ts : List Token) :
    Except String ASTNode :=
  match parseTopLoop envm (parserFuel ts) ts [] with
  | .error e => .error e
  | .ok children => .ok (.config children (tokPos ts))

/-- The module-level `parse(input)`: tokenize then parse. -/
def parse (envm : String → Option String) (input : String) : Except String ASTNode :=
  match tokenize input with
  | .error e => .error e
  | .ok ts => parseTokens envm ts

/-- Environment lookup that resolves nothing (used where no `%env`
construct can occur). -/
def noEnv : String → Option String := fun _ => Option.none

/-! ## String helpers

Kernel-computable counterparts of `String.prototype.startsWith`,
`endsWith`, `substring(n)` and a split on `/`. -/

/-- JavaScript `s.startsWith(p)`. -/
def strStartsWith (s p : String) : Bool :=
  p.toList.isPrefixOf s.toList

/-- JavaScript `s.endsWith(p)`. -/
def strEndsWith (s p : String) : Bool :=
  p.toList.isSuffixOf s.toList

/-- JavaScript `s.substring(n)`. -/
def strDrop (s : String) (n : Nat) : String :=
  String.mk (s.toList.drop n)

/-- Split on `/` (the behaviour of `"...".split("/")`). -/
def splitSlash : List Char → List Char → List String
  | [], cur => [String.mk cur.reverse]
  | c :: rest, cur =>
    if c = '/' then String.mk cur.reverse :: splitSlash rest []
    else splitSlash rest (c :: cur)

/-- JavaScript `Array.prototype.join(sep)`. -/
def joinSep (sep : String) : List String → String
  | [] => ""
  | [a] => a
  | a :: rest => a ++ sep ++ joinSep sep rest

/-! ## Node `path` module (external collaborator)

POSIX behaviour of the three functions the generator uses, for paths
without trailing slashes (the only shape occurring here). -/

/-- `path.isAbsolute` (POSIX). -/
def isAbsolutePath (p : String) : Bool :=
  strStartsWith p "/"

/-- Normalisation core of `path.resolve`: process `.`/`..`/empty
segments over an accumulator of kept segments. -/
def normParts : List String → List String → List String
  | [], acc => acc.reverse
  | "" :: rest, acc => normParts rest acc
  | "." :: rest, acc => normParts rest acc
  | ".." :: rest, acc => normParts rest (acc.drop 1)
  | s :: rest, acc => normParts rest (s :: acc)

/-- `path.resolve(base, p)` for an absolute `base` (the generator only
calls it that way: either `path.dirname(currentFile)` of an absolute
current file, or the process working directory). -/
def pathResolve (base p : String) : String :=
  "/" ++ joinSep "/" (normParts (splitSlash base.toList [] ++ splitSlash p.toList []) [])

/-- `path.dirname` (POSIX, no trailing slash). -/
def dirname (p : String) : String :=
  let parts := splitSlash p.toList []
  if parts.length ≤ 1 then "."
  else
    let front := parts.dropLast
    if front.all (fun s => s = "") then "/"
    else joinSep "/" front

/-! ## Generator (`generator.ts`)

The `Generator` class instance becomes an explicit state record.  Thrown
errors become `Except.error`; since a JavaScript throw leaves the
instance's fields as they were at the throw site, every generator
function returns the state alongside the result in both the success and
the error case.  `fs.existsSync`/`fs.readFileSync` are modelled as one
partial map `fs` (absent path = does not exist), `process.env` as `envm`,
and the working directory baked into `path.resolve` as `cwd`. -/

/-- `GeneratorOptions` (both fields optional). -/
structure GeneratorOptions where
  indent : Option String := Option.none
  expandInline : Option Bool := Option.none

/-- `Required<GeneratorOptions>`. -/
structure ReqOptions where
  indent : String
  expandInline : Bool
deriving DecidableEq, Repr

/-- The constructor's defaulting: `options.indent || "  "` (so the empty
string is also replaced, `||` being falsy on it) and
`options.expandInline || false`. -/
def mkOptions (o : GeneratorOptions) : ReqOptions :=
  { indent :=
      match o.indent with
      | some s => if s = "" then "  " else s
      | Option.none => "  "
    expandInline :=
      match o.expandInline with
      | some b => b || false
      | Option.none => false }

/-- External world of a render: imported files, process environment,
working directory. -/
structure GenEnv where
  fs : String → Option String
  envm : String → Option String
  cwd : String

/-- The `Generator` instance fields. -/
structure GenState where
  options : ReqOptions
  indentLevel : Nat
  vars : String → Option ASTNode
  importStack : List String
  processedFiles : String → Option ASTNode
  currentFile : String

/-- A fresh `Generator` (constructor). -/
def initState (opts : GeneratorOptions) : GenState :=
  { options := mkOptions opts
    indentLevel := 0
    vars := fun _ => Option.none
    importStack := []
    processedFiles := fun _ => Option.none
    currentFile := "" }

/-- `Generator.getIndent`: `indent.repeat(indentLevel)`. -/
def repeatStr (s : String) : Nat → String
  | 0 => ""
  | n + 1 => repeatStr s n ++ s

/-- `Generator.getIndent`. -/
def getIndentStr (st : GenState) : String :=
  repeatStr st.options.indent st.indentLevel

/-- The test `/\s|[{}();,]/.test(value)` of `quoteIfNeeded`. -/
def needsQuote (value : String) : Bool :=
  value.toList.any (fun c =>
    jsWs c || c = '{' || c = '}' || c = '(' || c = ')' || c = ';' || c = ',')

/-- The single-quote character as a string. -/
def sqStr : String := String.mk [sqChar]

/-- `Generator.quoteIfNeeded`: keep values already wrapped in matching
double or single quotes; wrap values containing whitespace or one of
`{}();,` in double quotes; return everything else unchanged. -/
def quoteIfNeeded (value : String) : String :=
  if (strStartsWith value "\"" && strEndsWith value "\"") ||
      (strStartsWith value sqStr && strEndsWith value sqStr) then value
  else if needsQuote value then "\"" ++ value ++ "\""
  else value

mutual

/-- `Generator.collectVariables` (pass 1): record every
`variable_assignment`, recurse into any node with a `children` field. -/
def collectVariables : ASTNode → (String → Option ASTNode) → String → Option ASTNode
  | .variableAssignment name value _, m => fun k => if k = name then some value else m k
  | .config cs _, m => collectVariablesList cs m
  | .block _ _ cs _, m => collectVariablesList cs m
  | .location _ _ cs _, m => collectVariablesList cs m
  | _, m => m

/-- The `for (const child of node.children)` loop of `collectVariables`. -/
def collectVariablesList : List ASTNode → (String → Option ASTNode) → String → Option ASTNode
  | [], m => m
  | c :: cs, m => collectVariablesList cs (collectVariables c m)

end

/-- `Generator.generateDirective` (pure in the state): indentation, name,
space-joined quoted arguments when the joined string is non-empty (the
source tests the joined string's truthiness), semicolon. -/
def genDirectiveStr (st : GenState) (name : String) (args : List String) : String :=
  let argsStr := joinSep " " (args.map quoteIfNeeded)
  getIndentStr st ++ name ++ (if argsStr = "" then "" else " " ++ argsStr) ++ ";"

/-- `Generator.generateEnvironmentVariable`: environment value, else
default, else a thrown error. -/
def genEnvVarStr (env : GenEnv) (v : String) (d : Option String) : Except String String :=
  match env.envm v with
  | some val => .ok val
  | Option.none =>
    match d with
    | some dv => .ok dv
    | Option.none =>
      .error ("Environment variable " ++ v ++ " is not set and no default value provided")

/-- The modifier-sigil extraction at the head of
`generateSingleLocation` (lines 151–167): `=`, `~*`, `~`, `^~` checked in
that order, overriding the node's modifier and stripping the sigil. -/
def extractPathModifier (m : LocationModifier) (p : String) : LocationModifier × String :=
  if strStartsWith p "=" then (.exact, strDrop p 1)
  else if strStartsWith p "~*" then (.regexCaseInsensitive, strDrop p 2)
  else if strStartsWith p "~" then (.regex, strDrop p 1)
  else if strStartsWith p "^~" then (.priorityPrefix, strDrop p 2)
  else (m, p)

/-- `Generator.resolveImportPath`: absolute paths as-is; relative paths
against the directory of `currentFile` when set, else against the
working directory. -/
def resolveImportPath (env : GenEnv) (st : GenState) (p : String) : String :=
  if isAbsolutePath p then p
  else if st.currentFile ≠ "" then pathResolve (dirname st.currentFile) p
  else pathResolve env.cwd p

mutual

/-- `Generator.generateNode`: dispatch on the node kind. -/
def generateNode (env : GenEnv) :
    Nat → GenState → ASTNode → Except String String × GenState
  | 0, st, _ => (.error "generator fuel exhausted", st)
  | fuel + 1, st, node =>
    match node with
    | .config children _ => generateConfig env fuel st children
    | .directive name args _ => (.ok (genDirectiveStr st name args), st)
    | .block name args children _ => generateBlock env fuel st name args children
    | .location m paths children p => generateLocation env fuel st m paths children p
    | .variableAssignment _ _ _ => (.ok "", st)
    | .inlineDirective v _ => generateInline env fuel st v
    | .envVar v d _ => (genEnvVarStr env v d, st)
    | .importRef p _ => generateImport env fuel st p

/-- `Generator.generateConfig`: render children, keep the truthy
(non-empty) results, join with newlines. -/
def generateConfig (env : GenEnv) :
    Nat → GenState → List ASTNode → Except String String × GenState
  | 0, st, _ => (.error "generator fuel exhausted", st)
  | fuel + 1, st, children =>
    match genChildLines env fuel st children [] with
    | (.error e, st2) => (.error e, st2)
    | (.ok lines, st2) => (.ok (joinSep "\n" lines), st2)

/-- The shared child loop of `generateConfig`, `generateBlock`,
`generateSingleLocation` and `generateInline`: render each child in
order, pushing only non-empty results. -/
def genChildLines (env : GenEnv) :
    Nat → GenState → List ASTNode → List String → Except String (List String) × GenState
  | 0, st, _, _ => (.error "generator fuel exhausted", st)
  | _fuel + 1, st, [], acc => (.ok acc, st)
  | fuel + 1, st, c :: cs, acc =>
    match generateNode env fuel st c with
    | (.error e, st2) => (.error e, st2)
    | (.ok g, st2) => genChildLines env fuel st2 cs (if g = "" then acc else acc ++ [g])

/-- `Generator.generateBlock`: header at the current indentation,
children one level deeper, footer.  The depth counter is incremented
before and decremented after the child loop with no protection against a
thrown error, exactly as in the source (the decrement is skipped when a
child throws). -/
def generateBlock (env : GenEnv) :
    Nat → GenState → String → List String → List ASTNode →
      Except String String × GenState
  | 0, st, _, _, _ => (.error "generator fuel exhausted", st)
  | fuel + 1, st, name, args, children =>
    let indent := getIndentStr st
    let argsStr := joinSep " " (args.map quoteIfNeeded)
    let header := indent ++ name ++ (if argsStr = "" then "" else " " ++ argsStr) ++ " \x7b"
    let st1 := { st with indentLevel := st.indentLevel + 1 }
    match genChildLines env fuel st1 children [] with
    | (.error e, st2) => (.error e, st2)
    | (.ok lines, st2) =>
      let st3 := { st2 with indentLevel := st2.indentLevel - 1 }
      (.ok (joinSep "\n" (header :: (lines ++ [indent ++ "\x7d"]))), st3)

/-- `Generator.generateLocation`: more than one path expands into one
single-path block per path (a node copy with that path), joined with
newlines; otherwise render the single-path node directly. -/
def generateLocation (env : GenEnv) :
    Nat → GenState → LocationModifier → List String → List ASTNode → Position →
      Except String String × GenState
  | 0, st, _, _, _, _ => (.error "generator fuel exhausted", st)
  | fuel + 1, st, m, paths, children, pos =>
    if 1 < paths.length then
      match genLocBlocks env fuel st m paths children pos [] with
      | (.error e, st2) => (.error e, st2)
      | (.ok blocks, st2) => (.ok (joinSep "\n" blocks), st2)
    else generateSingleLocation env fuel st m paths children pos

/-- The `for (const path of node.paths)` loop of `generateLocation`. -/
def genLocBlocks (env : GenEnv) :
    Nat → GenState → LocationModifier → List String → List ASTNode → Position →
      List String → Except String (List String) × GenState
  | 0, st, _, _, _, _, _ => (.error "generator fuel exhausted", st)
  | _fuel + 1, st, _, [], _, _, acc => (.ok acc, st)
  | fuel + 1, st, m, p :: ps, children, pos, acc =>
    match generateSingleLocation env fuel st m [p] children pos with
    | (.error e, st2) => (.error e, st2)
    | (.ok b, st2) => genLocBlocks env fuel st2 m ps children pos (acc ++ [b])

/-- `Generator.generateSingleLocation`: extract a modifier sigil from the
first path, render the header (`location`, modifier plus trailing space
when non-default, quoted-if-needed path, `{`), children one level
deeper, footer.  On an empty path list the source dereferences
`undefined` and crashes with a TypeError, modelled as an error. -/
def generateSingleLocation (env : GenEnv) :
    Nat → GenState → LocationModifier → List String → List ASTNode → Position →
      Except String String × GenState
  | 0, st, _, _, _, _ => (.error "generator fuel exhausted", st)
  | fuel + 1, st, m, paths, children, _pos =>
    match paths with
    | [] =>
      (.error "TypeError: Cannot read properties of undefined (reading startsWith)", st)
    | p :: _ =>
      let indent := getIndentStr st
      let (modifier, path) := extractPathModifier m p
      let modifierStr := if modifier.str = "" then "" else modifier.str ++ " "
      let header := indent ++ "location " ++ modifierStr ++ quoteIfNeeded path ++ " \x7b"
      let st1 := { st with indentLevel := st.indentLevel + 1 }
      match genChildLines env fuel st1 children [] with
      | (.error e, st2) => (.error e, st2)
      | (.ok lines, st2) =>
        let st3 := { st2 with indentLevel := st2.indentLevel - 1 }
        (.ok (joinSep "\n" (header :: (lines ++ [indent ++ "\x7d"]))), st3)

/-- `Generator.generateInline`: with expansion disabled, re-emit the
reference verbatim; with it enabled, look the name up (failing on an
undefined variable) and render the template body's children at the
current indentation. -/
def generateInline (env : GenEnv) :
    Nat → GenState → String → Except String String × GenState
  | 0, st, _ => (.error "generator fuel exhausted", st)
  | fuel + 1, st, v =>
    if !st.options.expandInline then
      (.ok (getIndentStr st ++ "%inline(" ++ v ++ ");"), st)
    else
      match st.vars v with
      | Option.none => (.error ("Undefined variable: " ++ v), st)
      | some blk =>
        match genChildLines env fuel st blk.childrenOf [] with
        | (.error e, st2) => (.error e, st2)
        | (.ok lines, st2) => (.ok (joinSep "\n" lines), st2)

/-- `Generator.generateImport`: resolve the path; fail on a path already
on the import stack (cycle); reuse the parse cache; otherwise read,
tokenize, parse and cache the file; then render the imported tree. -/
def generateImport (env : GenEnv) :
    Nat → GenState → String → Except String String × GenState
  | 0, st, _ => (.error "generator fuel exhausted", st)
  | fuel + 1, st, p =>
    let ip := resolveImportPath env st p
    if st.importStack.contains ip then
      (.error ("Circular dependency detected: " ++
        joinSep " -> " (st.importStack ++ [ip])), st)
    else
      match st.processedFiles ip with
      | some cached => generateImportedContent env fuel st cached ip
      | Option.none =>
        match env.fs ip with
        | Option.none => (.error ("Import file not found: " ++ ip), st)
        | some content =>
          match tokenize content with
          | .error e => (.error e, st)
          | .ok toks =>
            match parseTokens env.envm toks with
            | .error e => (.error e, st)
            | .ok ast =>
              let st2 := { st with processedFiles :=
                fun k => if k = ip then some ast else st.processedFiles k }
              generateImportedContent env fuel st2 ast ip

/-- `Generator.generateImportedContent`: push the file onto the import
stack, collect its variables, render its top-level children (skipping
`variable_assignment` nodes, keeping non-empty renders), and pop the
stack on every exit path (`finally`). -/
def generateImportedContent (env : GenEnv) :
    Nat → GenState → ASTNode → String → Except String String × GenState
  | 0, st, _, _ => (.error "generator fuel exhausted", st)
  | fuel + 1, st, ast, ip =>
    -- `importStack.push(filePath)` followed by `collectVariables(ast)`,
    -- written as one record update of the two fields they touch.
    let st2 := { st with importStack := st.importStack ++ [ip],
                         vars := collectVariables ast st.vars }
    match genImportedLines env fuel st2 ast.childrenOf [] with
    | (.error e, st3) => (.error e, { st3 with importStack := st3.importStack.dropLast })
    | (.ok lines, st3) =>
      (.ok (joinSep "\n" lines),
        { st3 with importStack := st3.importStack.dropLast })

/-- The child loop of `generateImportedContent`. -/
def genImportedLines (env : GenEnv) :
    Nat → GenState → List ASTNode → List String → Except String (List String) × GenState
  | 0, st, _, _ => (.error "generator fuel exhausted", st)
  | _fuel + 1, st, [], acc => (.ok acc, st)
  | fuel + 1, st, c :: cs, acc =>
    if c.isVarAssign then genImportedLines env fuel st cs acc
    else
      match generateNode env fuel st c with
      | (.error e, st2) => (.error e, st2)
      | (.ok g, st2) => genImportedLines env fuel st2 cs (if g = "" then acc else acc ++ [g])

end

/-- JavaScript `String.prototype.trim` (ASCII fragment, matching `jsWs`). -/
def jsTrim (s : String) : String :=
  String.mk (((s.toList.dropWhile jsWs).reverse.dropWhile jsWs).reverse)

/-- The exported `generate(ast, options?, filePath?)`: construct a fresh
`Generator`, set `currentFile`, collect variables (pass 1), render
(pass 2), trim. -/
def generate (env : GenEnv) (fuel : Nat) (ast : ASTNode)
    (opts : GeneratorOptions) (filePath : String) :
    Except String String × GenState :=
  let st0 := { initState opts with currentFile := filePath }
  let st1 := { st0 with vars := collectVariables ast st0.vars }
  match generateNode env fuel st1 ast with
  | (.error e, st2) => (.error e, st2)
  | (.ok s, st2) => (.ok (jsTrim s), st2)

/-- Result string of a render, discarding the final generator state. -/
def generateStr (env : GenEnv) (fuel : Nat) (ast : ASTNode)
    (opts : GeneratorOptions) (filePath : String) : Except String String :=
  (generate env fuel ast opts filePath).1

/-- A world with no files, no environment variables, and root as the
working directory. -/
def emptyEnv : GenEnv :=
  { fs := fun _ => Option.none, envm := fun _ => Option.none, cwd := "/" }

/-! ## State-preservation across generator calls

`currentFile` and `options` are never written by any generator function,
and `indentLevel` is restored by every call that returns normally (it is
*not* restored when a child throws — see the treatment of the
frame-effect claim). -/

/-- The preservation contract of one generator call starting from `st`:
the final state keeps `currentFile` and `options` unconditionally, and
keeps `indentLevel` whenever the call returns normally. -/
def StPres {β : Type} (st : GenState) (r : Except String β × GenState) : Prop :=
  r.2.currentFile = st.currentFile ∧ r.2.options = st.options ∧
    ∀ b st', r = (.ok b, st') → st'.indentLevel = st.indentLevel

/-! ## Sequential-rendering relations used in claim statements -/

/-- `RendersAll env fuel st cs gs st'`: rendering the children `cs` in
order from state `st` yields exactly the strings `gs` (one per child,
empty or not) and final state `st'`. -/
inductive RendersAll (env : GenEnv) (fuel : Nat) :
    GenState → List ASTNode → List String → GenState → Prop where
  | nil (st : GenState) : RendersAll env fuel st [] [] st
  | cons {st st1 st2 : GenState} {c : ASTNode} {cs : List ASTNode} {g : String}
      {gs : List String} :
      generateNode env fuel st c = (.ok g, st1) →
      RendersAll env fuel st1 cs gs st2 →
      RendersAll env fuel st (c :: cs) (g :: gs) st2

/-- `RendersEach env fuel m children pos st ps bs st'`: rendering, in
order, a single-path location copy (same modifier, same children) for
each path in `ps` yields the blocks `bs` and final state `st'`. -/
inductive RendersEach (env : GenEnv) (fuel : Nat) (m : LocationModifier)
    (children : List ASTNode) (pos : Position) :
    GenState → List String → List String → GenState → Prop where
  | nil (st : GenState) : RendersEach env fuel m children pos st [] [] st
  | cons {st st1 st2 : GenState} {p : String} {ps : List String} {b : String}
      {bs : List String} :
      generateSingleLocation env fuel st m [p] children pos = (.ok b, st1) →
      RendersEach env fuel m children pos st1 ps bs st2 →
      RendersEach env fuel m children pos st (p :: ps) (b :: bs) st2

/-! ## Concrete inputs used by counterexamples and witnesses -/

/-- A template definition for `$h` followed by a reference to it. -/
def c1tree : ASTNode :=
  .config [.variableAssignment "$h"
      (.block "" [] [.directive "add_header" ["X", "1"] ⟨1, 8⟩] ⟨1, 6⟩) ⟨1, 1⟩,
    .inlineDirective "$h" ⟨2, 1⟩] ⟨1, 1⟩

/-- A file system where `/a/sub/b.ncl` imports `c.ncl` relative to
itself, and `/a/sub/c.ncl` exists while `/a/c.ncl` does not. -/
def c2env : GenEnv :=
  { fs := fun p =>
      if p = "/a/sub/b.ncl" then
        some ("%import(" ++ String.mk [dqChar] ++ "c.ncl" ++ String.mk [dqChar] ++ ");")
      else if p = "/a/sub/c.ncl" then some "x y;"
      else Option.none
    envm := fun _ => Option.none
    cwd := "/" }

/-- The top-level file `/a/main.ncl` importing `sub/b.ncl`. -/
def c2tree : ASTNode := .config [.importRef "sub/b.ncl" ⟨1, 1⟩] ⟨1, 1⟩

/-- A generator state whose import stack already holds `/b.ncl`. -/
def c5st : GenState := { initState {} with importStack := ["/b.ncl"] }

/-- An unterminated double-quoted string whose content spans a newline:
`"a<newline>b` with the opening quote at line 1, column 1. -/
def c7input : String := String.mk (dqChar :: 'a' :: nlChar :: ['b'])

/-- A directive whose single argument is wrapped in single quotes. -/
def c6tree : ASTNode := .config [.directive "foo" [sqStr ++ "a b" ++ sqStr] ⟨1, 1⟩] ⟨1, 1⟩

/-- The first render of `c6tree`: `foo 'a b';`. -/
def c6text : String := "foo " ++ sqStr ++ "a b" ++ sqStr ++ ";"

/-- Re-lex, re-parse and re-render a rendered text with the same
(default) options, as in the round-trip claim. -/
def renderAgain (fuel : Nat) (s : String) : Except String String :=
  match parse noEnv s with
  | .ok t => generateStr emptyEnv fuel t {} ""
  | .error e => .error e

/-! ## C6 (amended): the plain fragment and its round trip

The amended round-trip statement is proved for rendered texts of trees
built from plain directives and blocks whose names and arguments are
"simple words": words that re-lex as one identifier or number token and
that `quoteIfNeeded` emits unquoted.  The single-quote counterexample
above shows the restriction to unquoted output is necessary. -/

/-- A character that may start a simple word: it must not be a token
delimiter, must not start a comment, a string, a variable, an `@`/`%`
keyword, or a location-modifier sigil, and must not be a digit (a digit
run is handled by the all-digits alternative). -/
def goodHeadChar (c : Char) : Bool :=
  !identStop c && !(c = '#') && !(c = '$') && !(c = '@') && !(c = '%') &&
    !(c = '~') && !(c = Char.ofNat 94) && !isDigitCh c

/-- A simple word: non-empty, either all digits (one number token) or a
good head followed by non-delimiter characters (one identifier token),
and not one of the keywords `location`/`in`. -/
def simpleWordB (w : String) : Bool :=
  (match w.toList with
    | [] => false
    | c :: rest =>
      (goodHeadChar c && rest.all (fun x => !identStop x)) ||
        (c :: rest).all isDigitCh) &&
    !(w = "location") && !(w = "in")

/-- A simple directive/block name: additionally not all digits (it must
lex as an identifier) and not the special-cased `if`. -/
def simpleNameB (w : String) : Bool :=
  simpleWordB w && !(w.toList.all isDigitCh) && !(w = "if")

/-- The plain fragment: directives and (non-`if`) blocks over simple
words. -/
inductive Plain : ASTNode → Prop where
  | directive (name : String) (args : List String) (pos : Position) :
      simpleNameB name = true → (∀ a ∈ args, simpleWordB a = true) →
      Plain (.directive name args pos)
  | block (name : String) (args : List String) (children : List ASTNode) (pos : Position) :
      simpleNameB name = true → (∀ a ∈ args, simpleWordB a = true) →
      (∀ c ∈ children, Plain c) →
      Plain (.block name args children pos)

/-- The atoms a plain render is made of. -/
inductive Atom where
  | word (w : String)
  | semi
  | lbrace
  | rbrace
  | ws (c : Char)
deriving Repr

/-- The characters of an atom sequence. -/
def renderAtoms : List Atom → List Char
  | [] => []
  | .word w :: rest => w.toList ++ renderAtoms rest
  | .semi :: rest => ';' :: renderAtoms rest
  | .lbrace :: rest => '{' :: renderAtoms rest
  | .rbrace :: rest => '}' :: renderAtoms rest
  | .ws c :: rest => c :: renderAtoms rest

/-- Two indentation spaces per level (the default indent unit). -/
def indentAtoms (lvl : Nat) : List Atom :=
  List.replicate (2 * lvl) (.ws ' ')

/-- A space before each argument. -/
def argAtoms : List String → List Atom
  | [] => []
  | a :: as => .ws ' ' :: .word a :: argAtoms as

mutual

/-- The atoms of one plain node rendered at a given depth. -/
def atomsOfNode (lvl : Nat) : ASTNode → List Atom
  | .directive name args _ =>
    indentAtoms lvl ++ (.word name :: argAtoms args) ++ [.semi]
  | .block name args children _ =>
    indentAtoms lvl ++ (.word name :: argAtoms args) ++ [.ws ' ', .lbrace] ++
      atomsOfChildren (lvl + 1) children ++ [.ws nlChar] ++ indentAtoms lvl ++ [.rbrace]
  | _ => []

/-- The atoms of a block's children: a newline before each child. -/
def atomsOfChildren (lvl : Nat) : List ASTNode → List Atom
  | [] => []
  | c :: cs => (.ws nlChar :: atomsOfNode lvl c) ++ atomsOfChildren lvl cs

end

/-- The atoms of the top-level statement list: newline separators
between statements. -/
def atomsOfTop : List ASTNode → List Atom
  | [] => []
  | [c] => atomsOfNode 0 c
  | c :: cs => atomsOfNode 0 c ++ (.ws nlChar :: atomsOfTop cs)

/-- The token list (with positions) that lexing an atom sequence from a
given position produces, together with the final position. -/
def atomLex : List Atom → Nat → Nat → List Token × Nat × Nat
  | [], line, col => ([], line, col)
  | .word w :: rest, line, col =>
    let t : Token :=
      ⟨if w.toList.all isDigitCh then .number else .identifier, w, line, col⟩
    let r := atomLex rest line (col + w.length)
    (t :: r.1, r.2)
  | .semi :: rest, line, col =>
    let r := atomLex rest line (col + 1)
    (⟨.semicolon, ";", line, col⟩ :: r.1, r.2)
  | .lbrace :: rest, line, col =>
    let r := atomLex rest line (col + 1)
    (⟨.leftBrace, "\x7b", line, col⟩ :: r.1, r.2)
  | .rbrace :: rest, line, col =>
    let r := atomLex rest line (col + 1)
    (⟨.rightBrace, "\x7d", line, col⟩ :: r.1, r.2)
  | .ws c :: rest, line, col =>
    if c = nlChar then atomLex rest (line + 1) 1 else atomLex rest line (col + 1)

/-- The number of tokens an atom sequence lexes to. -/
def tokenCountAtoms : List Atom → Nat
  | [] => 0
  | .ws _ :: rest => tokenCountAtoms rest
  | _ :: rest => tokenCountAtoms rest + 1

/-- True when the list does not begin with a word atom (so that a word
before it lexes as a maximal token). -/
def headNotWord : List Atom → Prop
  | .word _ :: _ => False
  | _ => True

/-- Well-formed atom sequences: every word is simple and never directly
followed by another word, and every whitespace atom is a space or
newline. -/
def WFAtoms : List Atom → Prop
  | [] => True
  | .word w :: rest => simpleWordB w = true ∧ headNotWord rest ∧ WFAtoms rest
  | .ws c :: rest => (c = ' ' ∨ c = nlChar) ∧ WFAtoms rest
  | _ :: rest => WFAtoms rest

/-- A stopping suffix for word reads: empty, or a delimiter head that is
not a digit. -/
def WordStop (tail : List Char) : Prop :=
  tail = [] ∨ ∃ d t2, tail = d :: t2 ∧ identStop d = true ∧ isDigitCh d = false

/-- The shape of the tokens an argument list lexes to: identifier or
number tokens carrying the argument values, all on the given line. -/
def argToksP (line : Nat) : List String → List Token → Prop
  | [], [] => True
  | a :: as, t :: ts =>
      (t.type = TokenType.identifier ∨ t.type = TokenType.number) ∧ t.value = a ∧
        t.line = line ∧ argToksP line as ts
  | _, _ => False

mutual

/-- Token counts of plain nodes: name, arguments and one (directive) or
two (block) punctuation tokens, plus the children's counts. -/
def tcount : ASTNode → Nat
  | .directive _ args _ => args.length + 2
  | .block _ args children _ => args.length + 3 + tcountList children
  | _ => 1

/-- Token count of a statement list. -/
def tcountList : List ASTNode → Nat
  | [] => 0
  | c :: cs => tcount c + tcountList cs

end

example :
    tokenize "worker_processes auto;" =
      .ok [⟨.identifier, "worker_processes", 1, 1⟩, ⟨.identifier, "auto", 1, 18⟩,
        ⟨.semicolon, ";", 1, 22⟩, ⟨.eof, "", 1, 23⟩] := rfl

example :
    tokenize "# This is a comment\nworker_processes 1; # inline comment" =
      .ok [⟨.identifier, "worker_processes", 2, 1⟩, ⟨.number, "1", 2, 18⟩,
        ⟨.semicolon, ";", 2, 19⟩, ⟨.eof, "", 2, 21⟩] := rfl

example :
    tokenize "location ~ /api \x7b \x7d" =
      .ok [⟨.location, "location", 1, 1⟩, ⟨.locationModifier, "~", 1, 10⟩,
        ⟨.identifier, "/api", 1, 12⟩, ⟨.leftBrace, "\x7b", 1, 17⟩,
        ⟨.rightBrace, "\x7d", 1, 19⟩, ⟨.eof, "", 1, 20⟩] := rfl

example :
    parse noEnv "worker_processes auto;" =
      .ok (.config [.directive "worker_processes" ["auto"] ⟨1, 1⟩] ⟨1, 1⟩) := rfl

example :
    parse noEnv "http \x7b server_name example.com; \x7d" =
      .ok (.config [.block "http" []
        [.directive "server_name" ["example.com"] ⟨1, 8⟩] ⟨1, 1⟩] ⟨1, 1⟩) := rfl

example :
    parse noEnv "location in [\"/api\", \"/v1\"] \x7b return 200; \x7d" =
      .ok (.config [.location LocationModifier.none ["/api", "/v1"]
        [.directive "return" ["200"] ⟨1, 31⟩] ⟨1, 1⟩] ⟨1, 1⟩) := rfl

example : dirname "/a/main.ncl" = "/a" := rfl

example : dirname "/main.ncl" = "/" := rfl

example : pathResolve "/a" "sub/b.ncl" = "/a/sub/b.ncl" := rfl

example : pathResolve "/a/sub" "./c.ncl" = "/a/sub/c.ncl" := rfl

example :
    generateStr emptyEnv 100
      (.config [.directive "worker_processes" ["auto"] ⟨1, 1⟩] ⟨1, 1⟩) {} "" =
      .ok "worker_processes auto;" := rfl

example :
    generateStr emptyEnv 100
      (.config [.location LocationModifier.none ["/api", "=/exact"]
        [.directive "return" ["200"] ⟨1, 1⟩] ⟨1, 1⟩] ⟨1, 1⟩) {} "" =
      .ok "location /api \x7b\n  return 200;\n\x7d\nlocation = /exact \x7b\n  return 200;\n\x7d" := rfl

theorem stPres_same {β : Type} (st : GenState) (x : Except String β) : StPres st (x, st) := by
  refine ⟨rfl, rfl, ?_⟩
  intro b st' h
  cases h
  rfl

theorem stPres_proj {β : Type} {st : GenState} {r : Except String β × GenState}
    (h : StPres st r) : r.2.currentFile = st.currentFile ∧ r.2.options = st.options :=
  ⟨h.1, h.2.1⟩

/-- Every generator function preserves `currentFile` and `options`
unconditionally and `indentLevel` on normal return, at every fuel. -/
theorem genPreserveAll : ∀ fuel : Nat,
    (∀ env (st : GenState) node, StPres st (generateNode env fuel st node)) ∧
    (∀ env (st : GenState) children, StPres st (generateConfig env fuel st children)) ∧
    (∀ env (st : GenState) children acc, StPres st (genChildLines env fuel st children acc)) ∧
    (∀ env (st : GenState) name args children,
      StPres st (generateBlock env fuel st name args children)) ∧
    (∀ env (st : GenState) m paths children pos,
      StPres st (generateLocation env fuel st m paths children pos)) ∧
    (∀ env (st : GenState) m paths children pos acc,
      StPres st (genLocBlocks env fuel st m paths children pos acc)) ∧
    (∀ env (st : GenState) m paths children pos,
      StPres st (generateSingleLocation env fuel st m paths children pos)) ∧
    (∀ env (st : GenState) v, StPres st (generateInline env fuel st v)) ∧
    (∀ env (st : GenState) p, StPres st (generateImport env fuel st p)) ∧
    (∀ env (st : GenState) ast ip, StPres st (generateImportedContent env fuel st ast ip)) ∧
    (∀ env (st : GenState) cs acc, StPres st (genImportedLines env fuel st cs acc)) := by
  intro fuel
  induction fuel with
  | zero =>
    exact ⟨fun env st node => stPres_same st _, fun env st children => stPres_same st _,
      fun env st children acc => stPres_same st _,
      fun env st name args children => stPres_same st _,
      fun env st m paths children pos => stPres_same st _,
      fun env st m paths children pos acc => stPres_same st _,
      fun env st m paths children pos => stPres_same st _,
      fun env st v => stPres_same st _, fun env st p => stPres_same st _,
      fun env st ast ip => stPres_same st _, fun env st cs acc => stPres_same st _⟩
  | succ fuel ih =>
    obtain ⟨ihN, ihC, ihL, ihB, ihLoc, ihLB, ihS, ihI, ihImp, ihIC, ihIL⟩ := ih
    refine ⟨?_, ?_, ?_, ?_, ?_, ?_, ?_, ?_, ?_, ?_, ?_⟩
    -- generateNode
    · intro env st node
      cases node with
      | config cs p => exact ihC env st cs
      | directive n a p => exact stPres_same st _
      | block n a cs p => exact ihB env st n a cs
      | location m paths cs p => exact ihLoc env st m paths cs p
      | variableAssignment n v p => exact stPres_same st _
      | inlineDirective v p => exact ihI env st v
      | envVar v d p => exact stPres_same st _
      | importRef p pos => exact ihImp env st p
    -- generateConfig
    · intro env st children
      have h := ihL env st children []
      rcases hg : genChildLines env fuel st children [] with ⟨exc, st2⟩
      rw [hg] at h
      cases exc with
      | error e =>
        simp only [generateConfig, hg]
        exact ⟨h.1, h.2.1, fun b st' hh => by simp at hh⟩
      | ok lines =>
        simp only [generateConfig, hg]
        refine ⟨h.1, h.2.1, fun b st' hh => ?_⟩
        injection hh with h1 h2
        subst h2
        exact h.2.2 lines st2 rfl
    -- genChildLines
    · intro env st children acc
      cases children with
      | nil => exact stPres_same st _
      | cons c cs =>
        have h := ihN env st c
        rcases hg : generateNode env fuel st c with ⟨exc, st2⟩
        rw [hg] at h
        cases exc with
        | error e =>
          simp only [genChildLines, hg]
          exact ⟨h.1, h.2.1, fun b st' hh => by simp at hh⟩
        | ok g =>
          simp only [genChildLines, hg]
          obtain ⟨hcf, hop, hind⟩ := ihL env st2 cs (if g = "" then acc else acc ++ [g])
          exact ⟨hcf.trans h.1, hop.trans h.2.1,
            fun b st' hh => (hind b st' hh).trans (h.2.2 g st2 rfl)⟩
    -- generateBlock
    · intro env st name args children
      have h := ihL env { st with indentLevel := st.indentLevel + 1 } children []
      rcases hg : genChildLines env fuel { st with indentLevel := st.indentLevel + 1 }
          children [] with ⟨exc, st2⟩
      rw [hg] at h
      cases exc with
      | error e =>
        simp only [generateBlock, hg]
        exact ⟨h.1, h.2.1, fun b st' hh => by simp at hh⟩
      | ok lines =>
        simp only [generateBlock, hg]
        refine ⟨h.1, h.2.1, fun b st' hh => ?_⟩
        injection hh with h1 h2
        subst h2
        have hi : st2.indentLevel = st.indentLevel + 1 := by simpa using h.2.2 lines st2 rfl
        simp [hi]
    -- generateLocation
    · intro env st m paths children pos
      by_cases hp : 1 < paths.length
      · have h := ihLB env st m paths children pos []
        rcases hg : genLocBlocks env fuel st m paths children pos [] with ⟨exc, st2⟩
        rw [hg] at h
        cases exc with
        | error e =>
          simp only [generateLocation, hp, if_true, hg]
          exact ⟨h.1, h.2.1, fun b st' hh => by simp at hh⟩
        | ok blocks =>
          simp only [generateLocation, hp, if_true, hg]
          refine ⟨h.1, h.2.1, fun b st' hh => ?_⟩
          injection hh with h1 h2
          subst h2
          exact h.2.2 blocks st2 rfl
      · simp only [generateLocation, hp, if_false]
        exact ihS env st m paths children pos
    -- genLocBlocks
    · intro env st m paths children pos acc
      cases paths with
      | nil => exact stPres_same st _
      | cons p ps =>
        have h := ihS env st m [p] children pos
        rcases hg : generateSingleLocation env fuel st m [p] children pos with ⟨exc, st2⟩
        rw [hg] at h
        cases exc with
        | error e =>
          simp only [genLocBlocks, hg]
          exact ⟨h.1, h.2.1, fun b st' hh => by simp at hh⟩
        | ok blk =>
          simp only [genLocBlocks, hg]
          obtain ⟨hcf, hop, hind⟩ := ihLB env st2 m ps children pos (acc ++ [blk])
          exact ⟨hcf.trans h.1, hop.trans h.2.1,
            fun b st' hh => (hind b st' hh).trans (h.2.2 blk st2 rfl)⟩
    -- generateSingleLocation
    · intro env st m paths children pos
      cases paths with
      | nil => exact stPres_same st _
      | cons p rest =>
        have h := ihL env { st with indentLevel := st.indentLevel + 1 } children []
        rcases hm : extractPathModifier m p with ⟨modifier, path⟩
        rcases hg : genChildLines env fuel { st with indentLevel := st.indentLevel + 1 }
            children [] with ⟨exc, st2⟩
        rw [hg] at h
        cases exc with
        | error e =>
          simp only [generateSingleLocation, hm, hg]
          exact ⟨h.1, h.2.1, fun b st' hh => by simp at hh⟩
        | ok lines =>
          simp only [generateSingleLocation, hm, hg]
          refine ⟨h.1, h.2.1, fun b st' hh => ?_⟩
          injection hh with h1 h2
          subst h2
          have hi : st2.indentLevel = st.indentLevel + 1 := by simpa using h.2.2 lines st2 rfl
          simp [hi]
    -- generateInline
    · intro env st v
      cases hb : st.options.expandInline with
      | false => simp only [generateInline, hb]; exact stPres_same st _
      | true =>
        cases hv : st.vars v with
        | none => simp only [generateInline, hb, hv]; exact stPres_same st _
        | some blk =>
          have h := ihL env st blk.childrenOf []
          rcases hg : genChildLines env fuel st blk.childrenOf [] with ⟨exc, st2⟩
          rw [hg] at h
          cases exc with
          | error e =>
            simp only [generateInline, hb, hv, hg]
            exact ⟨h.1, h.2.1, fun b st' hh => by simp at hh⟩
          | ok lines =>
            simp only [generateInline, hb, hv, hg]
            refine ⟨h.1, h.2.1, fun b st' hh => ?_⟩
            injection hh with h1 h2
            subst h2
            exact h.2.2 lines st2 rfl
    -- generateImport
    · intro env st p
      by_cases hc : st.importStack.contains (resolveImportPath env st p)
      · simp only [generateImport, hc, if_true]
        exact stPres_same st _
      · cases hpf : st.processedFiles (resolveImportPath env st p) with
        | some cached =>
          simp only [generateImport, hc, if_false, hpf]
          exact ihIC env st cached (resolveImportPath env st p)
        | none =>
          cases hfs : env.fs (resolveImportPath env st p) with
          | none =>
            simp only [generateImport, hc, if_false, hpf, hfs]
            exact stPres_same st _
          | some content =>
            cases ht : tokenize content with
            | error e =>
              simp only [generateImport, hc, if_false, hpf, hfs, ht]
              exact stPres_same st _
            | ok toks =>
              cases hp2 : parseTokens env.envm toks with
              | error e =>
                simp only [generateImport, hc, if_false, hpf, hfs, ht, hp2]
                exact stPres_same st _
              | ok ast =>
                simp only [generateImport, hc, if_false, hpf, hfs, ht, hp2]
                exact ihIC env
                  { st with processedFiles := fun k =>
                      if k = resolveImportPath env st p then some ast
                      else st.processedFiles k }
                  ast (resolveImportPath env st p)
    -- generateImportedContent
    · intro env st ast ip
      have h := ihIL env { st with importStack := st.importStack ++ [ip], vars := collectVariables ast st.vars } ast.childrenOf []
      rcases hg : genImportedLines env fuel { st with importStack := st.importStack ++ [ip], vars := collectVariables ast st.vars } ast.childrenOf [] with ⟨exc, st3⟩
      rw [hg] at h
      cases exc with
      | error e =>
        simp only [generateImportedContent, hg]
        exact ⟨h.1, h.2.1, fun b st' hh => by simp at hh⟩
      | ok lines =>
        simp only [generateImportedContent, hg]
        refine ⟨h.1, h.2.1, fun b st' hh => ?_⟩
        injection hh with h1 h2
        subst h2
        exact h.2.2 lines st3 rfl
    -- genImportedLines
    · intro env st cs acc
      cases cs with
      | nil => exact stPres_same st _
      | cons c cs =>
        cases hv : c.isVarAssign with
        | true =>
          simp only [genImportedLines, hv, if_true]
          exact ihIL env st cs acc
        | false =>
          have h := ihN env st c
          rcases hg : generateNode env fuel st c with ⟨exc, st2⟩
          rw [hg] at h
          cases exc with
          | error e =>
            simp only [genImportedLines, hv, if_false, hg]
            exact ⟨h.1, h.2.1, fun b st' hh => by simp at hh⟩
          | ok g =>
            simp only [genImportedLines, hv, if_false, hg]
            obtain ⟨hcf, hop, hind⟩ := ihIL env st2 cs (if g = "" then acc else acc ++ [g])
            exact ⟨hcf.trans h.1, hop.trans h.2.1,
              fun b st' hh => (hind b st' hh).trans (h.2.2 g st2 rfl)⟩

/-- Fuel monotonicity: a generator call that returns normally returns
the same answer with one more unit of fuel (fuel only ever causes
premature failure, never changes a successful run). -/
theorem genMonoAll : ∀ fuel : Nat,
    (∀ env (st : GenState) node out st', generateNode env fuel st node = (.ok out, st') →
      generateNode env (fuel + 1) st node = (.ok out, st')) ∧
    (∀ env (st : GenState) children out st',
      generateConfig env fuel st children = (.ok out, st') →
      generateConfig env (fuel + 1) st children = (.ok out, st')) ∧
    (∀ env (st : GenState) children acc out st',
      genChildLines env fuel st children acc = (.ok out, st') →
      genChildLines env (fuel + 1) st children acc = (.ok out, st')) ∧
    (∀ env (st : GenState) name args children out st',
      generateBlock env fuel st name args children = (.ok out, st') →
      generateBlock env (fuel + 1) st name args children = (.ok out, st')) ∧
    (∀ env (st : GenState) m paths children pos out st',
      generateLocation env fuel st m paths children pos = (.ok out, st') →
      generateLocation env (fuel + 1) st m paths children pos = (.ok out, st')) ∧
    (∀ env (st : GenState) m paths children pos acc out st',
      genLocBlocks env fuel st m paths children pos acc = (.ok out, st') →
      genLocBlocks env (fuel + 1) st m paths children pos acc = (.ok out, st')) ∧
    (∀ env (st : GenState) m paths children pos out st',
      generateSingleLocation env fuel st m paths children pos = (.ok out, st') →
      generateSingleLocation env (fuel + 1) st m paths children pos = (.ok out, st')) ∧
    (∀ env (st : GenState) v out st', generateInline env fuel st v = (.ok out, st') →
      generateInline env (fuel + 1) st v = (.ok out, st')) ∧
    (∀ env (st : GenState) p out st', generateImport env fuel st p = (.ok out, st') →
      generateImport env (fuel + 1) st p = (.ok out, st')) ∧
    (∀ env (st : GenState) ast ip out st',
      generateImportedContent env fuel st ast ip = (.ok out, st') →
      generateImportedContent env (fuel + 1) st ast ip = (.ok out, st')) ∧
    (∀ env (st : GenState) cs acc out st',
      genImportedLines env fuel st cs acc = (.ok out, st') →
      genImportedLines env (fuel + 1) st cs acc = (.ok out, st')) := by
  intro fuel
  induction fuel with
  | zero =>
    refine ⟨?_, ?_, ?_, ?_, ?_, ?_, ?_, ?_, ?_, ?_, ?_⟩ <;>
      · intro env st
        intros
        simp_all [generateNode, generateConfig, genChildLines, generateBlock,
          generateLocation, genLocBlocks, generateSingleLocation, generateInline,
          generateImport, generateImportedContent, genImportedLines]
  | succ fuel ih =>
    obtain ⟨ihN, ihC, ihL, ihB, ihLoc, ihLB, ihS, ihI, ihImp, ihIC, ihIL⟩ := ih
    refine ⟨?_, ?_, ?_, ?_, ?_, ?_, ?_, ?_, ?_, ?_, ?_⟩
    -- generateNode
    · intro env st node out st' h
      cases node with
      | config cs p => exact ihC env st cs out st' h
      | directive n a p => exact h
      | block n a cs p => exact ihB env st n a cs out st' h
      | location m paths cs p => exact ihLoc env st m paths cs p out st' h
      | variableAssignment n v p => exact h
      | inlineDirective v p => exact ihI env st v out st' h
      | envVar v d p => exact h
      | importRef p pos => exact ihImp env st p out st' h
    -- generateConfig
    · intro env st children out st' h
      rcases hg : genChildLines env fuel st children [] with ⟨exc, st2⟩
      simp only [generateConfig, hg] at h
      cases exc with
      | error e => simp at h
      | ok lines =>
        have hg2 := ihL env st children [] lines st2 hg
        simp only [generateConfig, hg2]
        exact h
    -- genChildLines
    · intro env st children acc out st' h
      cases children with
      | nil => exact h
      | cons c cs =>
        rcases hg : generateNode env fuel st c with ⟨exc, st2⟩
        simp only [genChildLines, hg] at h
        cases exc with
        | error e => simp at h
        | ok g =>
          have hg2 := ihN env st c g st2 hg
          simp only [genChildLines, hg2]
          exact ihL env st2 cs (if g = "" then acc else acc ++ [g]) out st' h
    -- generateBlock
    · intro env st name args children out st' h
      rcases hg : genChildLines env fuel { st with indentLevel := st.indentLevel + 1 }
          children [] with ⟨exc, st2⟩
      simp only [generateBlock, hg] at h
      cases exc with
      | error e => simp at h
      | ok lines =>
        have hg2 := ihL env { st with indentLevel := st.indentLevel + 1 } children []
          lines st2 hg
        simp only [generateBlock, hg2]
        exact h
    -- generateLocation
    · intro env st m paths children pos out st' h
      by_cases hp : 1 < paths.length
      · rcases hg : genLocBlocks env fuel st m paths children pos [] with ⟨exc, st2⟩
        simp only [generateLocation, hp, if_true, hg] at h
        cases exc with
        | error e => simp at h
        | ok blocks =>
          have hg2 := ihLB env st m paths children pos [] blocks st2 hg
          simp only [generateLocation, hp, if_true, hg2]
          exact h
      · simp only [generateLocation, hp, if_false] at h ⊢
        exact ihS env st m paths children pos out st' h
    -- genLocBlocks
    · intro env st m paths children pos acc out st' h
      cases paths with
      | nil => exact h
      | cons p ps =>
        rcases hg : generateSingleLocation env fuel st m [p] children pos with ⟨exc, st2⟩
        simp only [genLocBlocks, hg] at h
        cases exc with
        | error e => simp at h
        | ok blk =>
          have hg2 := ihS env st m [p] children pos blk st2 hg
          simp only [genLocBlocks, hg2]
          exact ihLB env st2 m ps children pos (acc ++ [blk]) out st' h
    -- generateSingleLocation
    · intro env st m paths children pos out st' h
      cases paths with
      | nil => simp [generateSingleLocation] at h
      | cons p rest =>
        rcases hm : extractPathModifier m p with ⟨modifier, path⟩
        rcases hg : genChildLines env fuel { st with indentLevel := st.indentLevel + 1 }
            children [] with ⟨exc, st2⟩
        simp only [generateSingleLocation, hm, hg] at h
        cases exc with
        | error e => simp at h
        | ok lines =>
          have hg2 := ihL env { st with indentLevel := st.indentLevel + 1 } children []
            lines st2 hg
          simp only [generateSingleLocation, hm, hg2]
          exact h
    -- generateInline
    · intro env st v out st' h
      cases hb : st.options.expandInline with
      | false => simp only [generateInline, hb] at h ⊢; exact h
      | true =>
        cases hv : st.vars v with
        | none => simp only [generateInline, hb, hv] at h; simp at h
        | some blk =>
          rcases hg : genChildLines env fuel st blk.childrenOf [] with ⟨exc, st2⟩
          simp only [generateInline, hb, hv, hg] at h
          cases exc with
          | error e => simp at h
          | ok lines =>
            have hg2 := ihL env st blk.childrenOf [] lines st2 hg
            simp only [generateInline, hb, hv, hg2]
            exact h
    -- generateImport
    · intro env st p out st' h
      by_cases hc : st.importStack.contains (resolveImportPath env st p)
      · simp only [generateImport, hc, if_true] at h
        simp at h
      · cases hpf : st.processedFiles (resolveImportPath env st p) with
        | some cached =>
          simp only [generateImport, hc, if_false, hpf] at h ⊢
          exact ihIC env st cached (resolveImportPath env st p) out st' h
        | none =>
          cases hfs : env.fs (resolveImportPath env st p) with
          | none =>
            simp only [generateImport, hc, if_false, hpf, hfs] at h
            simp at h
          | some content =>
            cases ht : tokenize content with
            | error e =>
              simp only [generateImport, hc, if_false, hpf, hfs, ht] at h
              simp at h
            | ok toks =>
              cases hp2 : parseTokens env.envm toks with
              | error e =>
                simp only [generateImport, hc, if_false, hpf, hfs, ht, hp2] at h
                simp at h
              | ok ast =>
                simp only [generateImport, hc, if_false, hpf, hfs, ht, hp2] at h ⊢
                exact ihIC env
                  { st with processedFiles := fun k =>
                      if k = resolveImportPath env st p then some ast
                      else st.processedFiles k }
                  ast (resolveImportPath env st p) out st' h
    -- generateImportedContent
    · intro env st ast ip out st' h
      rcases hg : genImportedLines env fuel { st with importStack := st.importStack ++ [ip], vars := collectVariables ast st.vars } ast.childrenOf [] with ⟨exc, st3⟩
      simp only [generateImportedContent, hg] at h
      cases exc with
      | error e => simp at h
      | ok lines =>
        have hg2 := ihIL env { st with importStack := st.importStack ++ [ip], vars := collectVariables ast st.vars } ast.childrenOf [] lines st3 hg
        simp only [generateImportedContent, hg2]
        exact h
    -- genImportedLines
    · intro env st cs acc out st' h
      cases cs with
      | nil => exact h
      | cons c cs =>
        cases hv : c.isVarAssign with
        | true =>
          simp only [genImportedLines, hv, if_true] at h ⊢
          exact ihIL env st cs acc out st' h
        | false =>
          rcases hg : generateNode env fuel st c with ⟨exc, st2⟩
          simp only [genImportedLines, hv, if_false, hg] at h
          cases exc with
          | error e => simp at h
          | ok g =>
            have hg2 := ihN env st c g st2 hg
            simp only [genImportedLines, hv, if_false, hg2]
            exact ihIL env st2 cs (if g = "" then acc else acc ++ [g]) out st' h

/-- Fuel monotonicity for `generateNode`, stated for any larger fuel. -/
theorem generateNode_mono {env : GenEnv} {st : GenState} {node out st'} {f1 f2 : Nat}
    (hle : f1 ≤ f2) (h : generateNode env f1 st node = (.ok out, st')) :
    generateNode env f2 st node = (.ok out, st') := by
  induction f2 with
  | zero =>
    have : f1 = 0 := Nat.le_zero.mp hle
    exact this ▸ h
  | succ f2 ih =>
    rcases Nat.lt_or_ge f1 (f2 + 1) with hlt | hge
    · exact (genMonoAll f2).1 env st node out st' (ih (Nat.lt_succ_iff.mp hlt))
    · have : f1 = f2 + 1 := Nat.le_antisymm hle hge
      exact this ▸ h

/-- Fuel monotonicity for `generateSingleLocation`, for any larger fuel. -/
theorem generateSingleLocation_mono {env : GenEnv} {st : GenState}
    {m paths children pos out st'} {f1 f2 : Nat}
    (hle : f1 ≤ f2)
    (h : generateSingleLocation env f1 st m paths children pos = (.ok out, st')) :
    generateSingleLocation env f2 st m paths children pos = (.ok out, st') := by
  induction f2 with
  | zero =>
    have : f1 = 0 := Nat.le_zero.mp hle
    exact this ▸ h
  | succ f2 ih =>
    rcases Nat.lt_or_ge f1 (f2 + 1) with hlt | hge
    · exact (genMonoAll f2).2.2.2.2.2.2.1 env st m paths children pos out st'
        (ih (Nat.lt_succ_iff.mp hlt))
    · have : f1 = f2 + 1 := Nat.le_antisymm hle hge
      exact this ▸ h

theorem RendersAll_mono {env : GenEnv} {f1 f2 : Nat} (hle : f1 ≤ f2)
    {st : GenState} {cs gs st'} (h : RendersAll env f1 st cs gs st') :
    RendersAll env f2 st cs gs st' := by
  induction h with
  | nil st => exact .nil st
  | cons hg _ ih => exact .cons (generateNode_mono hle hg) ih

theorem RendersEach_mono {env : GenEnv} {f1 f2 : Nat} (hle : f1 ≤ f2)
    {m children pos} {st : GenState} {ps bs st'}
    (h : RendersEach env f1 m children pos st ps bs st') :
    RendersEach env f2 m children pos st ps bs st' := by
  induction h with
  | nil st => exact .nil st
  | cons hg _ ih => exact .cons (generateSingleLocation_mono hle hg) ih

theorem RendersEach_length {env : GenEnv} {fuel : Nat} {m children pos}
    {st : GenState} {ps bs st'} (h : RendersEach env fuel m children pos st ps bs st') :
    bs.length = ps.length := by
  induction h with
  | nil st => rfl
  | cons _ _ ih => simpa using ih

/-- The child loop pushes exactly the non-empty renders, in order. -/
theorem genChildLines_ok (env : GenEnv) : ∀ (fuel : Nat) (st : GenState) children acc out st',
    genChildLines env fuel st children acc = (.ok out, st') →
    ∃ gs, RendersAll env fuel st children gs st' ∧
      out = acc ++ gs.filter (fun g => g ≠ "") := by
  intro fuel
  induction fuel with
  | zero =>
    intro st children acc out st' h
    simp [genChildLines] at h
  | succ fuel ih =>
    intro st children acc out st' h
    cases children with
    | nil =>
      simp only [genChildLines] at h
      injection h with h1 h2
      injection h1 with h1
      subst h1; subst h2
      exact ⟨[], .nil st, by simp⟩
    | cons c cs =>
      rcases hg : generateNode env fuel st c with ⟨exc, st2⟩
      simp only [genChildLines, hg] at h
      cases exc with
      | error e => simp at h
      | ok g =>
        obtain ⟨gs, hr, hout⟩ := ih st2 cs (if g = "" then acc else acc ++ [g]) out st' h
        refine ⟨g :: gs, .cons (generateNode_mono (Nat.le_succ fuel) hg)
          (RendersAll_mono (Nat.le_succ fuel) hr), ?_⟩
        by_cases hge : g = ""
        · simp [hge] at hout ⊢
          exact hout
        · simp [hge] at hout ⊢
          simpa [List.append_assoc] using hout

/-- The multi-path loop renders one single-path block per path, in order. -/
theorem genLocBlocks_ok (env : GenEnv) (m : LocationModifier) (children : List ASTNode)
    (pos : Position) : ∀ (fuel : Nat) (st : GenState) paths acc out st',
    genLocBlocks env fuel st m paths children pos acc = (.ok out, st') →
    ∃ bs, RendersEach env fuel m children pos st paths bs st' ∧ out = acc ++ bs := by
  intro fuel
  induction fuel with
  | zero =>
    intro st paths acc out st' h
    simp [genLocBlocks] at h
  | succ fuel ih =>
    intro st paths acc out st' h
    cases paths with
    | nil =>
      simp only [genLocBlocks] at h
      injection h with h1 h2
      injection h1 with h1
      subst h1; subst h2
      exact ⟨[], .nil st, by simp⟩
    | cons p ps =>
      rcases hg : generateSingleLocation env fuel st m [p] children pos with ⟨exc, st2⟩
      simp only [genLocBlocks, hg] at h
      cases exc with
      | error e => simp at h
      | ok b =>
        obtain ⟨bs, hr, hout⟩ := ih st2 ps (acc ++ [b]) out st' h
        refine ⟨b :: bs, .cons (generateSingleLocation_mono (Nat.le_succ fuel) hg)
          (RendersEach_mono (Nat.le_succ fuel) hr), ?_⟩
        simpa [List.append_assoc] using hout

/-! ## Helper lemmas on `joinSep` -/

theorem joinSep_cons_exists (sep a : String) (l : List String) :
    ∃ t, joinSep sep (a :: l) = a ++ t := by
  cases l with
  | nil => exact ⟨"", by simp [joinSep]⟩
  | cons b l2 => exact ⟨sep ++ joinSep sep (b :: l2), by simp [joinSep, String.append_assoc]⟩

theorem joinSep_mem_split (sep : String) : ∀ (l : List String) (q : String), q ∈ l →
    ∃ pre post, joinSep sep l = pre ++ (q ++ post) := by
  intro l
  induction l with
  | nil =>
    intro q hq
    cases hq
  | cons a t ih =>
    intro q hq
    rcases List.mem_cons.mp hq with rfl | hq2
    · cases t with
      | nil => exact ⟨"", "", by simp [joinSep]⟩
      | cons b t2 =>
        exact ⟨"", sep ++ joinSep sep (b :: t2), by simp [joinSep, String.append_assoc]⟩
    · obtain ⟨pre, post, hp⟩ := ih q hq2
      cases t with
      | nil => cases hq2
      | cons b t2 =>
        refine ⟨a ++ sep ++ pre, post, ?_⟩
        simp only [joinSep, hp, String.append_assoc]

/-! ## C1 -/

/-- C1 counterexample: with no explicit options the template reference is
re-emitted verbatim, while with `expandInline: true` it is expanded — so
the default does *not* behave like `expandTemplates = true` (the
constructor defaults `expandInline` to `false`, `generator.ts` line 38). -/
theorem c1_counterexample :
    generateStr emptyEnv 10 c1tree {} "" = .ok "%inline($h);" ∧
    generateStr emptyEnv 10 c1tree { expandInline := some true } "" = .ok "add_header X 1;" ∧
    ("%inline($h);" : String) ≠ "add_header X 1;" :=
  ⟨rfl, rfl, by decide⟩

/-- C1 (amended): the library default of `expandInline` is `false`; a
`Generator` built without the option re-emits every `%inline` reference
verbatim, performing no lookup (this holds even for undefined names). -/
theorem c1_amended (o : GeneratorOptions) (ho : o.expandInline = Option.none)
    (env : GenEnv) (fuel : Nat) (st : GenState) (v : String)
    (hst : st.options.expandInline = false) :
    (mkOptions o).expandInline = false ∧
    generateInline env (fuel + 1) st v =
      (.ok (getIndentStr st ++ "%inline(" ++ v ++ ");"), st) := by
  constructor
  · simp [mkOptions, ho]
  · simp [generateInline, hst]

/-- C1 witness: the amended statement at the empty option record and a
fresh generator state. -/
theorem c1_witness :
    (mkOptions {}).expandInline = false ∧
    generateInline emptyEnv 1 (initState {}) "$h" =
      (.ok (getIndentStr (initState {}) ++ "%inline(" ++ "$h" ++ ");"), initState {}) :=
  c1_amended {} rfl emptyEnv 0 (initState {}) "$h" rfl

/-! ## C2 -/

/-- C2 counterexample: the claim resolves the nested reference `c.ncl`
(inside `/a/sub/b.ncl`) against `/a/sub`, where the file exists; the
code instead resolves it against the origin's directory `/a` and fails
with `Import file not found: /a/c.ncl`. -/
theorem c2_counterexample :
    c2env.fs "/a/sub/c.ncl" = some "x y;" ∧
    generateStr c2env 20 c2tree {} "/a/main.ncl" = .error "Import file not found: /a/c.ncl" :=
  ⟨rfl, rfl⟩

/-- C2 (amended): `currentFile` is assigned once per render and never
updated by any generator call — so every relative import path, at any
nesting depth, resolves against the directory of the origin path. -/
theorem c2_amended :
    (∀ env fuel (st : GenState) node,
      ((generateNode env fuel st node).2).currentFile = st.currentFile) ∧
    (∀ env (st : GenState) p, isAbsolutePath p = false → st.currentFile ≠ "" →
      resolveImportPath env st p = pathResolve (dirname st.currentFile) p) := by
  constructor
  · intro env fuel st node
    exact ((genPreserveAll fuel).1 env st node).1
  · intro env st p h1 h2
    simp [resolveImportPath, h1, h2]

/-- C2 witness: the resolve rule at a concrete relative path and a state
whose current file is `/a/main.ncl`. -/
theorem c2_witness :
    resolveImportPath c2env { initState {} with currentFile := "/a/main.ncl" } "sub/b.ncl" =
      pathResolve (dirname ({ initState {} with currentFile := "/a/main.ncl" } :
        GenState).currentFile) "sub/b.ncl" :=
  c2_amended.2 c2env { initState {} with currentFile := "/a/main.ncl" } "sub/b.ncl"
    (by decide) (by decide)

/-! ## C3 -/

/-- C3: a location node with `n > 1` paths renders as exactly `n`
single-path location blocks — one per path, in the original order, each
a render of the copy carrying the same modifier, children and position —
joined with newlines and nothing else. -/
theorem c3_theorem (env : GenEnv) (fuel : Nat) (st : GenState) (m : LocationModifier)
    (paths : List String) (children : List ASTNode) (pos : Position) (out : String)
    (st' : GenState) (hmulti : 1 < paths.length)
    (hok : generateLocation env fuel st m paths children pos = (.ok out, st')) :
    ∃ blocks : List String, blocks.length = paths.length ∧
      out = joinSep "\n" blocks ∧
      RendersEach env fuel m children pos st paths blocks st' := by
  cases fuel with
  | zero => simp [generateLocation] at hok
  | succ fuel =>
    rcases hg : genLocBlocks env fuel st m paths children pos [] with ⟨exc, st2⟩
    simp only [generateLocation, if_pos hmulti, hg] at hok
    cases exc with
    | error e => simp at hok
    | ok blocks =>
      injection hok with h1 h2
      injection h1 with h1
      subst h1; subst h2
      obtain ⟨bs, hr, hout⟩ := genLocBlocks_ok env m children pos fuel st paths [] blocks st2 hg
      simp only [List.nil_append] at hout
      refine ⟨blocks, ?_, rfl, ?_⟩
      · rw [hout]
        exact RendersEach_length (RendersEach_mono (Nat.le_succ fuel) hr)
      · rw [hout]
        exact RendersEach_mono (Nat.le_succ fuel) hr

/-- C3 witness: the theorem at the two-path node
`location in ["/a", "/b"] {}`. -/
theorem c3_witness :
    ∃ blocks : List String, blocks.length = (["/a", "/b"] : List String).length ∧
      "location /a \x7b\n\x7d\nlocation /b \x7b\n\x7d" = joinSep "\n" blocks ∧
      RendersEach emptyEnv 10 LocationModifier.none [] ⟨1, 1⟩ (initState {})
        ["/a", "/b"] blocks (initState {}) :=
  c3_theorem emptyEnv 10 (initState {}) LocationModifier.none ["/a", "/b"] [] ⟨1, 1⟩
    "location /a \x7b\n\x7d\nlocation /b \x7b\n\x7d" (initState {}) (by decide) rfl

/-! ## C4 -/

theorem strStartsWith_cons {p pre : String} (h : strStartsWith p pre = true) :
    ∃ t, p.toList = pre.toList ++ t := by
  obtain ⟨t, ht⟩ := List.isPrefixOf_iff_prefix.mp h
  exact ⟨t, ht.symm⟩

/-- C4: a sigil at the head of a single path sets the rendered modifier
(overriding whatever modifier the node carried) and is stripped from the
path, with `~*` taking precedence over `~` and `^~` recognised as a
two-character sigil; the rendered header is
`location <sigil> <path-without-sigil> {`. -/
theorem c4_theorem (env : GenEnv) (fuel : Nat) (st : GenState) (m : LocationModifier)
    (p : String) (children : List ASTNode) (pos : Position) (out : String) (st' : GenState)
    (hok : generateSingleLocation env fuel st m [p] children pos = (.ok out, st')) :
    (strStartsWith p "=" = true →
      ∃ tail, out = getIndentStr st ++ "location " ++ LocationModifier.exact.str ++ " " ++
        quoteIfNeeded (strDrop p 1) ++ " \x7b" ++ tail) ∧
    (strStartsWith p "~*" = true →
      ∃ tail, out = getIndentStr st ++ "location " ++
        LocationModifier.regexCaseInsensitive.str ++ " " ++
        quoteIfNeeded (strDrop p 2) ++ " \x7b" ++ tail) ∧
    (strStartsWith p "~" = true → strStartsWith p "~*" = false →
      ∃ tail, out = getIndentStr st ++ "location " ++ LocationModifier.regex.str ++ " " ++
        quoteIfNeeded (strDrop p 1) ++ " \x7b" ++ tail) ∧
    (strStartsWith p "^~" = true →
      ∃ tail, out = getIndentStr st ++ "location " ++ LocationModifier.priorityPrefix.str ++
        " " ++ quoteIfNeeded (strDrop p 2) ++ " \x7b" ++ tail) := by
  cases fuel with
  | zero => simp [generateSingleLocation] at hok
  | succ fuel =>
    rcases hg : genChildLines env fuel { st with indentLevel := st.indentLevel + 1 }
        children [] with ⟨exc, st2⟩
    have main : ∀ (md : LocationModifier) (path : String),
        extractPathModifier m p = (md, path) → md.str ≠ "" →
        ∃ tail, out = getIndentStr st ++ "location " ++ md.str ++ " " ++
          quoteIfNeeded path ++ " \x7b" ++ tail := by
      intro md path hm hne
      simp only [generateSingleLocation, hm, hg] at hok
      cases exc with
      | error e => simp at hok
      | ok lines =>
        injection hok with h1 h2
        injection h1 with h1
        obtain ⟨t, ht⟩ := joinSep_cons_exists "\n"
          (getIndentStr st ++ "location " ++ (md.str ++ " ") ++ quoteIfNeeded path ++ " \x7b")
          (lines ++ [getIndentStr st ++ "\x7d"])
        refine ⟨t, ?_⟩
        rw [← h1]
        simpa [if_neg hne, String.append_assoc] using ht
    refine ⟨?_, ?_, ?_, ?_⟩
    · intro h1
      exact main .exact (strDrop p 1) (by simp [extractPathModifier, h1]) (by decide)
    · intro h1
      obtain ⟨t, ht⟩ := strStartsWith_cons h1
      have hne : strStartsWith p "=" = false := by
        simp only [strStartsWith]
        rw [show p.toList = '~' :: '*' :: t from ht]
        rfl
      exact main .regexCaseInsensitive (strDrop p 2)
        (by simp [extractPathModifier, h1, hne]) (by decide)
    · intro h1 h2
      obtain ⟨t, ht⟩ := strStartsWith_cons h1
      have hne : strStartsWith p "=" = false := by
        simp only [strStartsWith]
        rw [show p.toList = '~' :: t from ht]
        rfl
      exact main .regex (strDrop p 1)
        (by simp [extractPathModifier, h1, h2, hne]) (by decide)
    · intro h1
      obtain ⟨t, ht⟩ := strStartsWith_cons h1
      have hne : strStartsWith p "=" = false := by
        simp only [strStartsWith]
        rw [show p.toList = '^' :: '~' :: t from ht]
        rfl
      have hne2 : strStartsWith p "~*" = false := by
        simp only [strStartsWith]
        rw [show p.toList = '^' :: '~' :: t from ht]
        rfl
      have hne3 : strStartsWith p "~" = false := by
        simp only [strStartsWith]
        rw [show p.toList = '^' :: '~' :: t from ht]
        rfl
      exact main .priorityPrefix (strDrop p 2)
        (by simp [extractPathModifier, h1, hne, hne2, hne3]) (by decide)

/-- C4 witness: the theorem at the node
`location ~ "=/exact" {}` (node modifier regex, path sigil `=`): the
rendered header carries `=` and the stripped path. -/
theorem c4_witness :
    ∃ tail, "location = /exact \x7b\n\x7d" = getIndentStr (initState {}) ++ "location " ++
      LocationModifier.exact.str ++ " " ++ quoteIfNeeded (strDrop "=/exact" 1) ++
      " \x7b" ++ tail :=
  (c4_theorem emptyEnv 10 (initState {}) LocationModifier.regex "=/exact" [] ⟨1, 1⟩
    "location = /exact \x7b\n\x7d" (initState {}) rfl).1 rfl

/-! ## C5 -/

/-- C5: opening an import whose resolved path is already on the active
stack fails immediately — the state, the file system and the
cache are untouched — and the message lists the entire chain
`stack ++ [resolved]`, so every path of the closed cycle occurs in it. -/
theorem c5_theorem (env : GenEnv) (fuel : Nat) (st : GenState) (p : String)
    (h : resolveImportPath env st p ∈ st.importStack) :
    generateImport env (fuel + 1) st p =
      (.error ("Circular dependency detected: " ++
        joinSep " -> " (st.importStack ++ [resolveImportPath env st p])), st) ∧
    ∀ q ∈ st.importStack ++ [resolveImportPath env st p],
      ∃ pre post, "Circular dependency detected: " ++
        joinSep " -> " (st.importStack ++ [resolveImportPath env st p]) =
          pre ++ (q ++ post) := by
  have hc : st.importStack.contains (resolveImportPath env st p) = true := by
    simpa using h
  constructor
  · simp only [generateImport, hc]
    rfl
  · intro q hq
    obtain ⟨pre, post, hp⟩ := joinSep_mem_split " -> " _ q hq
    exact ⟨"Circular dependency detected: " ++ pre, post,
      by rw [hp, String.append_assoc]⟩

/-- C5 witness: the theorem at a state whose stack holds `/b.ncl` and
an import of that same absolute path. -/
theorem c5_witness :
    generateImport emptyEnv (4 + 1) c5st "/b.ncl" =
      (.error ("Circular dependency detected: " ++
        joinSep " -> " (c5st.importStack ++ [resolveImportPath emptyEnv c5st "/b.ncl"])),
        c5st) ∧
    ∀ q ∈ c5st.importStack ++ [resolveImportPath emptyEnv c5st "/b.ncl"],
      ∃ pre post, "Circular dependency detected: " ++
        joinSep " -> " (c5st.importStack ++ [resolveImportPath emptyEnv c5st "/b.ncl"]) =
          pre ++ (q ++ post) :=
  c5_theorem emptyEnv 4 c5st "/b.ncl" (by decide)

/-! ## C7 -/

/-- C7 counterexample: the unterminated multi-line string of `c7input`
opens at line 1, column 1, but the thrown message reports line 2 (the
line reached at end of input) with the opening column. -/
theorem c7_counterexample :
    tokenize c7input = .error (untermMsg 2 1) ∧ untermMsg 2 1 ≠ untermMsg 1 1 :=
  ⟨rfl, by decide⟩

theorem readStrLoop_err_aux (q : Char) (startCol : Nat) :
    ∀ (n : Nat) (cs : List Char), cs.length ≤ n → ∀ (line col : Nat) (acc e : String),
      readStrLoop q startCol cs line col acc = .error e →
      ∃ l, line ≤ l ∧ e = untermMsg l startCol := by
  intro n
  induction n with
  | zero =>
    intro cs hlen line col acc e h
    have : cs = [] := List.length_eq_zero.mp (Nat.le_zero.mp hlen)
    subst this
    simp only [readStrLoop] at h
    injection h with h1
    exact ⟨line, Nat.le_refl _, h1.symm⟩
  | succ n ih =>
    intro cs hlen line col acc e h
    cases cs with
    | nil =>
      simp only [readStrLoop] at h
      injection h with h1
      exact ⟨line, Nat.le_refl _, h1.symm⟩
    | cons c rest =>
      cases rest with
      | nil =>
        by_cases hq : c = q
        · simp [readStrLoop, hq] at h
        · by_cases hbs : c = bsChar
          · simp only [readStrLoop, if_neg hq, if_pos hbs] at h
            injection h with h1
            exact ⟨line, Nat.le_refl _, h1.symm⟩
          · by_cases hnl : c = nlChar
            · simp only [readStrLoop, if_neg hq, if_neg hbs, if_pos hnl] at h
              injection h with h1
              exact ⟨line + 1, Nat.le_succ _, h1.symm⟩
            · simp only [readStrLoop, if_neg hq, if_neg hbs, if_neg hnl] at h
              injection h with h1
              exact ⟨line, Nat.le_refl _, h1.symm⟩
      | cons ech rest2 =>
        by_cases hq : c = q
        · simp [readStrLoop, hq] at h
        · by_cases hbs : c = bsChar
          · by_cases hnl : ech = nlChar
            · simp only [readStrLoop, if_neg hq, if_pos hbs, if_pos hnl] at h
              obtain ⟨l, hl, he⟩ := ih rest2 (by simp at hlen; omega) _ _ _ _ h
              exact ⟨l, Nat.le_of_succ_le hl, he⟩
            · simp only [readStrLoop, if_neg hq, if_pos hbs, if_neg hnl] at h
              obtain ⟨l, hl, he⟩ := ih rest2 (by simp at hlen; omega) _ _ _ _ h
              exact ⟨l, hl, he⟩
          · by_cases hnl : c = nlChar
            · simp only [readStrLoop, if_neg hq, if_neg hbs, if_pos hnl] at h
              obtain ⟨l, hl, he⟩ := ih (ech :: rest2) (by simp at hlen ⊢; omega) _ _ _ _ h
              exact ⟨l, Nat.le_of_succ_le hl, he⟩
            · simp only [readStrLoop, if_neg hq, if_neg hbs, if_neg hnl] at h
              obtain ⟨l, hl, he⟩ := ih (ech :: rest2) (by simp at hlen ⊢; omega) _ _ _ _ h
              exact ⟨l, hl, he⟩

/-- C7 (amended): whenever string scanning fails, the error is the
unterminated-string message carrying the *column* of the opening quote
and a line that is the line reached at end of input — at least the
opening quote's line, and strictly greater when the unterminated string
spans a newline (see the counterexample). -/
theorem c7_amended (q : Char) (cs : List Char) (line col : Nat) (e : String)
    (h : readString q cs line col = .error e) :
    ∃ l, line ≤ l ∧ e = untermMsg l col := by
  rcases hr : readStrLoop q col cs line (col + 1) "" with e2 | v
  · simp only [readString, hr] at h
    injection h with h1
    subst h1
    exact readStrLoop_err_aux q col cs.length cs (Nat.le_refl _) line (col + 1) "" e2 hr
  · simp [readString, hr] at h

/-- C7 witness: the amended statement at the single-line unterminated
string `"a`. -/
theorem c7_witness : ∃ l, 1 ≤ l ∧ untermMsg 1 1 = untermMsg l 1 :=
  c7_amended dqChar ['a'] 1 1 (untermMsg 1 1) rfl

/-! ## C8 -/

/-- C8 counterexample: rendering a block whose child throws (an
undefined template reference with expansion enabled) leaves the depth
counter at 1, not its pre-call value 0 — the decrement has no
`try`/`finally` protection. -/
theorem c8_counterexample :
    (generateNode emptyEnv 10 (initState { expandInline := some true })
      (.block "server" [] [.inlineDirective "$m" ⟨2, 3⟩] ⟨1, 1⟩)).1 =
        .error "Undefined variable: $m" ∧
    (generateNode emptyEnv 10 (initState { expandInline := some true })
      (.block "server" [] [.inlineDirective "$m" ⟨2, 3⟩] ⟨1, 1⟩)).2.indentLevel = 1 ∧
    (initState { expandInline := some true }).indentLevel = 0 :=
  ⟨rfl, rfl, rfl⟩

/-- C8 (amended): the depth counter is restored on every *successful*
exit of every node render; when a child's rendering throws, the
decrement is skipped and the counter stays elevated (harmless, because
the error aborts the whole render and each render uses a fresh
`Generator`). -/
theorem c8_amended (env : GenEnv) (fuel : Nat) (st : GenState) (node : ASTNode)
    (out : String) (st' : GenState)
    (h : generateNode env fuel st node = (.ok out, st')) :
    st'.indentLevel = st.indentLevel :=
  ((genPreserveAll fuel).1 env st node).2.2 out st' h

/-- C8 witness: the amended statement at a successful nested render. -/
theorem c8_witness :
    ((generateNode emptyEnv 10 (initState {})
      (.block "http" [] [.directive "a" [] ⟨2, 3⟩] ⟨1, 1⟩)).2).indentLevel =
      (initState {}).indentLevel :=
  c8_amended emptyEnv 10 (initState {})
    (.block "http" [] [.directive "a" [] ⟨2, 3⟩] ⟨1, 1⟩) "http \x7b\n  a;\n\x7d"
    ((generateNode emptyEnv 10 (initState {})
      (.block "http" [] [.directive "a" [] ⟨2, 3⟩] ⟨1, 1⟩)).2) rfl

/-! ## C9 -/

/-- C9: the parser accepts `location in [] { }` and yields a Location
node with an *empty* path list, violating the non-empty invariant the
claim states; the generator itself then assumes `paths[0]` exists and
crashes (the modelled TypeError) when rendering that node. -/
theorem c9_bug :
    parse noEnv "location in [] \x7b \x7d" =
      .ok (.config [.location LocationModifier.none [] [] ⟨1, 1⟩] ⟨1, 1⟩) ∧
    (generateNode emptyEnv 5 (initState {})
      (.location LocationModifier.none [] [] ⟨1, 1⟩)).1 =
      .error "TypeError: Cannot read properties of undefined (reading startsWith)" :=
  ⟨rfl, rfl⟩

/-! ## C10 -/

/-- C10: in the shared child loop of `generateConfig` and
`generateBlock`, the joined line list is exactly the filter of the
(ordered) child renders by non-emptiness — a child rendering `""`
contributes no element, hence no blank line at its position — and every
`TemplateDefinition` (variable assignment) child renders to `""` without
touching the state. -/
theorem c10_theorem :
    (∀ env fuel (st : GenState) children acc out st',
      genChildLines env fuel st children acc = (.ok out, st') →
      ∃ gs, RendersAll env fuel st children gs st' ∧
        out = acc ++ gs.filter (fun g => g ≠ "")) ∧
    (∀ env fuel (st : GenState) name value pos,
      generateNode env (fuel + 1) st (.variableAssignment name value pos) = (.ok "", st)) :=
  ⟨fun env fuel st children acc out st' h =>
      genChildLines_ok env fuel st children acc out st' h,
    fun _ _ _ _ _ _ => rfl⟩

/-- C10 witness: a config child list containing a template definition
between two directives renders to the two directive lines only. -/
theorem c10_witness :
    ∃ gs, RendersAll emptyEnv 4 (initState {})
        [.directive "a" [] ⟨1, 1⟩,
          .variableAssignment "$h" (.block "" [] [] ⟨2, 6⟩) ⟨2, 1⟩,
          .directive "b" [] ⟨3, 1⟩] gs (initState {}) ∧
      ["a;", "b;"] = [] ++ gs.filter (fun g => g ≠ "") :=
  c10_theorem.1 emptyEnv 4 (initState {})
    [.directive "a" [] ⟨1, 1⟩,
      .variableAssignment "$h" (.block "" [] [] ⟨2, 6⟩) ⟨2, 1⟩,
      .directive "b" [] ⟨3, 1⟩] [] ["a;", "b;"] (initState {}) rfl

/-! ## C6 (counterexample) -/

/-- C6 counterexample: the tree `c6tree` renders (with default options)
to `foo 'a b';` — a plain directive in target-format syntax — but
re-lexing, re-parsing and re-rendering that text yields `foo "a b";`
(the re-parse strips the single quotes from the argument and the
re-render re-quotes it with double quotes), which is not byte-identical. -/
theorem c6_counterexample :
    generateStr emptyEnv 10 c6tree {} "" = .ok c6text ∧
    renderAgain 10 c6text = .ok "foo \"a b\";" ∧
    c6text ≠ "foo \"a b\";" :=
  ⟨rfl, rfl, by decide⟩

/-! ### Character-class facts for simple words -/

theorem digit_not_identStop {c : Char} (h : isDigitCh c = true) : identStop c = false := by
  simp only [isDigitCh, Bool.and_eq_true, decide_eq_true_eq] at h
  obtain ⟨h1, h2⟩ := h
  simp only [identStop, jsWs, nlChar, dqChar, sqChar, Bool.or_eq_false_iff,
    decide_eq_false_iff_not]
  repeat' apply And.intro
  all_goals
    intro he
    subst he
    simp [Char.le_def] at h1 h2
    try omega

theorem needsQuote_char_identStop {c : Char}
    (h : (jsWs c || c = '{' || c = '}' || c = '(' || c = ')' || c = ';' || c = ',') = true) :
    identStop c = true := by
  simp only [identStop]
  simp only [Bool.or_eq_true] at h ⊢
  rcases h with ((((((h | h) | h) | h) | h) | h) | h) <;> simp [h]

theorem simple_ne_empty {a : String} (h : simpleWordB a = true) : a ≠ "" := by
  intro he
  subst he
  simp [simpleWordB] at h

theorem string_eq_of_data {s t : String} (h : s.data = t.data) : s = t := by
  cases s
  cases t
  exact congrArg String.mk h

/-- Every character of a simple word is outside the delimiter set. -/
theorem simple_chars {a : String} (h : simpleWordB a = true) :
    ∀ c ∈ a.toList, identStop c = false := by
  simp only [simpleWordB, Bool.and_eq_true] at h
  obtain ⟨⟨hw, _⟩, _⟩ := h
  intro c hc
  rcases ha : a.toList with _ | ⟨hd, rest⟩
  · rw [ha] at hc; cases hc
  · rw [ha] at hw hc
    simp only [Bool.or_eq_true, Bool.and_eq_true] at hw
    rcases hw with ⟨hh, hr⟩ | hd2
    · rcases List.mem_cons.mp hc with he | hc2
      · subst he
        simp only [goodHeadChar, Bool.and_eq_true, Bool.not_eq_true'] at hh
        exact hh.1.1.1.1.1.1.1
      · have := List.all_eq_true.mp hr c hc2
        simpa using this
    · exact digit_not_identStop (List.all_eq_true.mp hd2 c hc)

/-- A simple word needs no quoting and is not already quote-wrapped, so
`quoteIfNeeded` leaves it unchanged. -/
theorem quoteIfNeeded_simple {a : String} (h : simpleWordB a = true) :
    quoteIfNeeded a = a := by
  have hchars := simple_chars h
  have hne : needsQuote a = false := by
    simp only [needsQuote, List.any_eq_false]
    intro c hc
    intro hyes
    have := needsQuote_char_identStop (by simpa [Bool.or_assoc] using hyes)
    rw [hchars c hc] at this
    cases this
  have hhead : ∀ q : Char, identStop q = true → strStartsWith a (String.mk [q]) = false := by
    intro q hq
    rcases ha : a.toList with _ | ⟨hd, rest⟩
    · exact absurd (string_eq_of_data (by simp only [← ha]; rfl)) (simple_ne_empty h)
    · have hhd := hchars hd (by rw [ha]; exact List.mem_cons_self _ _)
      simp only [strStartsWith, ha]
      have hne2 : ¬(q = hd) := by
        intro he
        rw [he] at hq
        rw [hq] at hhd
        cases hhd
      simp [List.isPrefixOf, hne2]
  have hnq1 : strStartsWith a "\"" = false := hhead dqChar (by simp [identStop])
  have hnq2 : strStartsWith a sqStr = false := hhead sqChar (by simp [identStop])
  simp only [quoteIfNeeded, sqStr] at *
  simp [hnq1, hnq2, hne]

theorem map_quote_simple {args : List String} (h : ∀ a ∈ args, simpleWordB a = true) :
    args.map quoteIfNeeded = args := by
  induction args with
  | nil => rfl
  | cons a as ih =>
    simp only [List.map_cons, quoteIfNeeded_simple (h a (List.mem_cons_self a as)),
      ih (fun x hx => h x (List.mem_cons_of_mem a hx))]

/-! ### Rendering lemmas for atoms -/

theorem renderAtoms_append : ∀ xs ys : List Atom,
    renderAtoms (xs ++ ys) = renderAtoms xs ++ renderAtoms ys := by
  intro xs ys
  induction xs with
  | nil => rfl
  | cons a rest ih =>
    cases a <;> simp [renderAtoms, ih]

theorem renderAtoms_indent (lvl : Nat) :
    renderAtoms (indentAtoms lvl) = List.replicate (2 * lvl) ' ' := by
  simp only [indentAtoms]
  induction (2 * lvl) with
  | zero => rfl
  | succ n ih => simp [List.replicate_succ, renderAtoms, ih]

theorem repeatStr_indent : ∀ lvl : Nat, (repeatStr "  " lvl).data = List.replicate (2 * lvl) ' ' := by
  intro lvl
  induction lvl with
  | zero => rfl
  | succ n ih =>
    simp only [repeatStr, String.data_append, ih]
    rw [show 2 * (n + 1) = 2 * n + 2 by omega, List.replicate_add]
    rfl

theorem joinSep_cons_ne (sep a : String) {l : List String} (h : l ≠ []) :
    joinSep sep (a :: l) = a ++ sep ++ joinSep sep l := by
  cases l with
  | nil => cases h rfl
  | cons b t => rfl

theorem joinSep_head_ne (a : String) (as : List String) (ha : a ≠ "") :
    joinSep " " (a :: as) ≠ "" := by
  cases as with
  | nil => simpa [joinSep]
  | cons b bs =>
    rw [joinSep_cons_ne _ _ (by simp)]
    intro he
    have hd : (a ++ " " ++ joinSep " " (b :: bs)).data = [] := by rw [he]
    simp only [String.data_append] at hd
    rcases List.append_eq_nil.mp hd with ⟨h1, _⟩
    rcases List.append_eq_nil.mp h1 with ⟨had, _⟩
    exact ha (string_eq_of_data had)

theorem argAtoms_chars : ∀ args : List String, args ≠ [] →
    renderAtoms (argAtoms args) = ' ' :: (joinSep " " args).data := by
  intro args
  induction args with
  | nil => intro h; cases h rfl
  | cons a as ih =>
    intro _
    cases as with
    | nil => simp [argAtoms, renderAtoms, joinSep]
    | cons b bs =>
      rw [joinSep_cons_ne " " a (show b :: bs ≠ [] from by simp)]
      have h1 : renderAtoms (argAtoms (a :: b :: bs)) =
          ' ' :: (a.toList ++ renderAtoms (argAtoms (b :: bs))) := rfl
      rw [h1, ih (by simp)]
      simp [String.data_append]

/-- The argument part of a rendered directive/block header, at the
character level. -/
theorem args_chars (args : List String) (h : ∀ a ∈ args, simpleWordB a = true) :
    (if joinSep " " args = "" then ("" : String) else " " ++ joinSep " " args).data =
      renderAtoms (argAtoms args) := by
  cases args with
  | nil => rfl
  | cons a as =>
    have hane := simple_ne_empty (h a (List.mem_cons_self a as))
    rw [if_neg (joinSep_head_ne a as hane)]
    rw [argAtoms_chars (a :: as) (by simp)]
    rfl

theorem jsWs_identStop {c : Char} (h : jsWs c = true) : identStop c = true := by
  simp [identStop, h]

/-- A plain node's render ends in `;` or `}`. -/
theorem atomsNode_last {t : ASTNode} (hp : Plain t) (lvl : Nat) :
    ∃ front c, renderAtoms (atomsOfNode lvl t) = front ++ [c] ∧ (c = ';' ∨ c = '}') := by
  cases hp with
  | directive name args pos hn ha =>
    refine ⟨renderAtoms (indentAtoms lvl ++ (.word name :: argAtoms args)), ';', ?_, Or.inl rfl⟩
    rw [show atomsOfNode lvl (.directive name args pos) =
      (indentAtoms lvl ++ (.word name :: argAtoms args)) ++ [Atom.semi] from rfl]
    rw [renderAtoms_append]
    rfl
  | block name args children pos hn ha hc =>
    refine ⟨renderAtoms (indentAtoms lvl ++ (.word name :: argAtoms args) ++ [.ws ' ', .lbrace] ++
      atomsOfChildren (lvl + 1) children ++ [.ws nlChar] ++ indentAtoms lvl), '}', ?_, Or.inr rfl⟩
    rw [show atomsOfNode lvl (.block name args children pos) =
      (indentAtoms lvl ++ (.word name :: argAtoms args) ++ [.ws ' ', .lbrace] ++
        atomsOfChildren (lvl + 1) children ++ [.ws nlChar] ++ indentAtoms lvl) ++ [Atom.rbrace]
      from by simp [atomsOfNode, List.append_assoc]]
    rw [renderAtoms_append]
    rfl

/-- A plain node's render is a non-empty string. -/
theorem render_node_ne_empty {t : ASTNode} (hp : Plain t) (lvl : Nat) :
    String.mk (renderAtoms (atomsOfNode lvl t)) ≠ "" := by
  obtain ⟨front, c, he, _⟩ := atomsNode_last hp lvl
  intro h0
  have : renderAtoms (atomsOfNode lvl t) = [] := by
    have := congrArg String.data h0
    simpa using this
  rw [he] at this
  simp at this

/-- At depth 0 a plain node's render starts with a non-whitespace
character. -/
theorem atomsNode_head0 {t : ASTNode} (hp : Plain t) :
    ∃ c rest, renderAtoms (atomsOfNode 0 t) = c :: rest ∧ jsWs c = false := by
  have hstart : ∀ name args (tail : List Atom), simpleNameB name = true →
      ∃ c rest, renderAtoms (indentAtoms 0 ++ (.word name :: argAtoms args) ++ tail) = c :: rest ∧
        jsWs c = false := by
    intro name args tail hn
    have hw : simpleWordB name = true := by
      simp only [simpleNameB, Bool.and_eq_true] at hn
      exact hn.1.1
    rcases hd : name.toList with _ | ⟨c0, r0⟩
    · exact absurd (string_eq_of_data (by simp only [← hd]; rfl)) (simple_ne_empty hw)
    · have hstop := simple_chars hw c0 (by rw [hd]; exact List.mem_cons_self _ _)
      refine ⟨c0, r0 ++ renderAtoms (argAtoms args ++ tail), ?_, ?_⟩
      · rw [show indentAtoms 0 ++ (.word name :: argAtoms args) ++ tail =
          .word name :: (argAtoms args ++ tail) from by simp [indentAtoms]]
        have hd2 : name.data = c0 :: r0 := hd
        simp [renderAtoms, hd2]
      · rcases hws : jsWs c0 with _ | _
        · rfl
        · rw [jsWs_identStop hws] at hstop; cases hstop
  cases hp with
  | directive name args pos hn ha =>
    exact hstart name args [.semi] hn
  | block name args children pos hn ha hc =>
    have := hstart name args ([.ws ' ', .lbrace] ++ atomsOfChildren 1 children ++
      [.ws nlChar] ++ indentAtoms 0 ++ [.rbrace]) hn
    simpa [atomsOfNode, List.append_assoc] using this

/-- The rendered directive, at the character level. -/
theorem genDirectiveStr_plain (st : GenState) (name : String) (args : List String)
    (pos : Position) (hind : st.options.indent = "  ")
    (ha : ∀ a ∈ args, simpleWordB a = true) :
    genDirectiveStr st name args =
      String.mk (renderAtoms (atomsOfNode st.indentLevel (.directive name args pos))) := by
  apply string_eq_of_data
  simp only [genDirectiveStr, map_quote_simple ha, String.data_append]
  rw [show atomsOfNode st.indentLevel (.directive name args pos) =
    indentAtoms st.indentLevel ++ (.word name :: argAtoms args) ++ [Atom.semi] from rfl]
  simp only [renderAtoms_append, renderAtoms_indent]
  rw [show renderAtoms (Atom.word name :: argAtoms args) =
    name.data ++ renderAtoms (argAtoms args) from rfl]
  rw [← args_chars args ha]
  simp only [getIndentStr, hind, repeatStr_indent]
  simp [renderAtoms, String.data_append]

/-- The rendered block header, at the character level. -/
theorem blockHeader_plain (st : GenState) (name : String) (args : List String)
    (hind : st.options.indent = "  ") (ha : ∀ a ∈ args, simpleWordB a = true) :
    (getIndentStr st ++ name ++
        (if joinSep " " (List.map quoteIfNeeded args) = "" then ""
          else " " ++ joinSep " " (List.map quoteIfNeeded args)) ++ " \x7b").data =
      renderAtoms (indentAtoms st.indentLevel ++ (.word name :: argAtoms args) ++
        [.ws ' ', .lbrace]) := by
  simp only [map_quote_simple ha, String.data_append]
  simp only [renderAtoms_append, renderAtoms_indent]
  rw [show renderAtoms (Atom.word name :: argAtoms args) =
    name.data ++ renderAtoms (argAtoms args) from rfl]
  rw [← args_chars args ha]
  simp only [getIndentStr, hind, repeatStr_indent]
  simp [renderAtoms, String.data_append]

/-- The middle part of a rendered block: newline-joined child renders
followed by the footer. -/
theorem middle_chars (lvl : Nat) (footer : String) : ∀ cs : List ASTNode,
    ('\n' :: (joinSep "\n" ((cs.map fun c => String.mk (renderAtoms (atomsOfNode lvl c))) ++
      [footer])).data) = renderAtoms (atomsOfChildren lvl cs) ++ '\n' :: footer.data := by
  intro cs
  induction cs with
  | nil => simp [atomsOfChildren, joinSep, renderAtoms]
  | cons c cs2 ih =>
    rw [List.map_cons, List.cons_append, joinSep_cons_ne _ _ (by simp)]
    rw [show renderAtoms (atomsOfChildren lvl (c :: cs2)) =
      '\n' :: (renderAtoms (atomsOfNode lvl c) ++ renderAtoms (atomsOfChildren lvl cs2)) from by
        simp [atomsOfChildren, renderAtoms_append, renderAtoms, nlChar]]
    simp only [String.data_append]
    simp only [List.append_assoc, List.cons_append, List.singleton_append, List.nil_append]
    rw [ih]

/-- The top-level join, at the character level. -/
theorem top_chars : ∀ cs : List ASTNode,
    (joinSep "\n" (cs.map fun c => String.mk (renderAtoms (atomsOfNode 0 c)))).data =
      renderAtoms (atomsOfTop cs) := by
  intro cs
  induction cs with
  | nil => rfl
  | cons c cs2 ih =>
    cases cs2 with
    | nil => simp [joinSep, atomsOfTop]
    | cons c2 cs3 =>
      rw [List.map_cons, joinSep_cons_ne _ _ (by simp)]
      rw [show atomsOfTop (c :: c2 :: cs3) =
        atomsOfNode 0 c ++ (.ws nlChar :: atomsOfTop (c2 :: cs3)) from rfl]
      rw [renderAtoms_append]
      rw [show renderAtoms (Atom.ws nlChar :: atomsOfTop (c2 :: cs3)) =
        nlChar :: renderAtoms (atomsOfTop (c2 :: cs3)) from rfl]
      rw [← ih]
      simp only [String.data_append]
      simp only [List.append_assoc, List.cons_append, List.singleton_append]
      rfl

/-- The full rendered block equals the block's atom rendering. -/
theorem blockJoin_plain (st : GenState) (name : String) (args : List String)
    (children : List ASTNode) (pos : Position) (hind : st.options.indent = "  ")
    (ha : ∀ a ∈ args, simpleWordB a = true) :
    joinSep "\n"
        ((getIndentStr st ++ name ++
            (if joinSep " " (List.map quoteIfNeeded args) = "" then ""
              else " " ++ joinSep " " (List.map quoteIfNeeded args)) ++ " \x7b") ::
          ((children.map fun c => String.mk (renderAtoms (atomsOfNode (st.indentLevel + 1) c))) ++
            [getIndentStr st ++ "\x7d"])) =
      String.mk (renderAtoms (atomsOfNode st.indentLevel (.block name args children pos))) := by
  apply string_eq_of_data
  show _ = renderAtoms (atomsOfNode st.indentLevel (.block name args children pos))
  have hm := middle_chars (st.indentLevel + 1) (getIndentStr st ++ "\x7d") children
  rw [joinSep_cons_ne _ _ (by simp)]
  rw [show ∀ a b c : String, ((a ++ b) ++ c).data = a.data ++ (b.data ++ c.data) from by
    intro a b c; simp [String.data_append]]
  rw [show ("\n" : String).data ++
      (joinSep "\n" ((children.map fun c =>
        String.mk (renderAtoms (atomsOfNode (st.indentLevel + 1) c))) ++
          [getIndentStr st ++ "\x7d"])).data =
      renderAtoms (atomsOfChildren (st.indentLevel + 1) children) ++
        '\n' :: (getIndentStr st ++ "\x7d").data from hm]
  rw [blockHeader_plain st name args hind ha]
  have hfoot : (getIndentStr st ++ "\x7d").data =
      List.replicate (2 * st.indentLevel) ' ' ++ ['}'] := by
    simp [String.data_append, getIndentStr, hind, repeatStr_indent]
  rw [hfoot]
  rw [show renderAtoms (atomsOfNode st.indentLevel (.block name args children pos)) =
      renderAtoms (indentAtoms st.indentLevel ++ (.word name :: argAtoms args) ++
          [.ws ' ', .lbrace]) ++
        (renderAtoms (atomsOfChildren (st.indentLevel + 1) children) ++
          '\n' :: (List.replicate (2 * st.indentLevel) ' ' ++ ['}'])) from by
    rw [show atomsOfNode st.indentLevel (.block name args children pos) =
        (indentAtoms st.indentLevel ++ (.word name :: argAtoms args) ++ [.ws ' ', .lbrace]) ++
          (atomsOfChildren (st.indentLevel + 1) children ++
            ([.ws nlChar] ++ (indentAtoms st.indentLevel ++ [.rbrace]))) from by
      simp [atomsOfNode, List.append_assoc]]
    simp [renderAtoms_append, renderAtoms, renderAtoms_indent, nlChar]]

/-- Rendering a plain node from any state with the default indent unit
returns the atom rendering at the state's depth and leaves the state
unchanged, for all sufficiently large fuels. -/
theorem gen_plain : ∀ (t : ASTNode), Plain t → ∀ (st : GenState),
    st.options.indent = "  " →
    ∃ f0, ∀ fuel, f0 ≤ fuel → ∀ env,
      generateNode env fuel st t =
        (.ok (String.mk (renderAtoms (atomsOfNode st.indentLevel t))), st) := by
  intro t hp
  induction hp with
  | directive name args pos hn ha =>
    intro st hind
    refine ⟨1, ?_⟩
    intro fuel hf env
    cases fuel with
    | zero => omega
    | succ k =>
      rw [show generateNode env (k + 1) st (.directive name args pos) =
        (.ok (genDirectiveStr st name args), st) from rfl]
      rw [genDirectiveStr_plain st name args pos hind ha]
  | block name args children pos hn ha hc ih =>
    intro st hind
    have inner : ∀ cs, (∀ c ∈ cs, c ∈ children) → ∀ st2 : GenState,
        st2.options.indent = "  " →
        ∃ f0, ∀ fuel, f0 ≤ fuel → ∀ env (acc : List String),
          genChildLines env fuel st2 cs acc =
            (.ok (acc ++ cs.map fun c => String.mk (renderAtoms (atomsOfNode st2.indentLevel c))),
              st2) := by
      intro cs
      induction cs with
      | nil =>
        intro _ st2 _
        refine ⟨1, ?_⟩
        intro fuel hf env acc
        cases fuel with
        | zero => omega
        | succ k => simp [genChildLines]
      | cons c cs2 ihl =>
        intro hsub st2 hind2
        obtain ⟨f1, hf1⟩ := ih c (hsub c (List.mem_cons_self c cs2)) st2 hind2
        obtain ⟨f2, hf2⟩ := ihl (fun x hx => hsub x (List.mem_cons_of_mem c hx)) st2 hind2
        refine ⟨max f1 f2 + 1, ?_⟩
        intro fuel hf env acc
        cases fuel with
        | zero => omega
        | succ k =>
          have hm : max f1 f2 ≤ k := Nat.le_of_succ_le_succ hf
          have hk1 : f1 ≤ k := le_trans (Nat.le_max_left f1 f2) hm
          have hk2 : f2 ≤ k := le_trans (Nat.le_max_right f1 f2) hm
          simp only [genChildLines, hf1 k hk1 env]
          rw [if_neg (render_node_ne_empty (hc c (hsub c (List.mem_cons_self c cs2)))
            st2.indentLevel)]
          rw [hf2 k hk2 env (acc ++ [String.mk (renderAtoms (atomsOfNode st2.indentLevel c))])]
          simp
    obtain ⟨fc, hfc⟩ := inner children (fun c h => h) { st with indentLevel := st.indentLevel + 1 }
      hind
    refine ⟨fc + 2, ?_⟩
    intro fuel hf env
    cases fuel with
    | zero => omega
    | succ k =>
      cases k with
      | zero => omega
      | succ k2 =>
        rw [show generateNode env (k2 + 1 + 1) st (.block name args children pos) =
          generateBlock env (k2 + 1) st name args children from rfl]
        simp only [generateBlock, hfc k2 (by omega) env [], List.nil_append]
        rw [blockJoin_plain st name args children pos hind ha]
        rw [show GenState.mk st.options (st.indentLevel + 1 - 1) st.vars st.importStack
            st.processedFiles st.currentFile = st
          from by rcases st with ⟨o, i, v, is, pf, cf⟩; simp]

/-- The shared child loop on plain children succeeds and returns each
child's atom rendering, leaving the state unchanged. -/
theorem genChildLines_plain : ∀ (cs : List ASTNode), (∀ c ∈ cs, Plain c) →
    ∀ (st : GenState), st.options.indent = "  " →
    ∃ f0, ∀ fuel, f0 ≤ fuel → ∀ env (acc : List String),
      genChildLines env fuel st cs acc =
        (.ok (acc ++ cs.map fun c => String.mk (renderAtoms (atomsOfNode st.indentLevel c))),
          st) := by
  intro cs
  induction cs with
  | nil =>
    intro _ st _
    refine ⟨1, ?_⟩
    intro fuel hf env acc
    cases fuel with
    | zero => omega
    | succ k => simp [genChildLines]
  | cons c cs2 ihl =>
    intro hp st hind
    obtain ⟨f1, hf1⟩ := gen_plain c (hp c (List.mem_cons_self c cs2)) st hind
    obtain ⟨f2, hf2⟩ := ihl (fun x hx => hp x (List.mem_cons_of_mem c hx)) st hind
    refine ⟨max f1 f2 + 1, ?_⟩
    intro fuel hf env acc
    cases fuel with
    | zero => omega
    | succ k =>
      have hm : max f1 f2 ≤ k := Nat.le_of_succ_le_succ hf
      have hk1 : f1 ≤ k := le_trans (Nat.le_max_left f1 f2) hm
      have hk2 : f2 ≤ k := le_trans (Nat.le_max_right f1 f2) hm
      simp only [genChildLines, hf1 k hk1 env]
      rw [if_neg (render_node_ne_empty (hp c (List.mem_cons_self c cs2)) st.indentLevel)]
      rw [hf2 k hk2 env (acc ++ [String.mk (renderAtoms (atomsOfNode st.indentLevel c))])]
      simp

/-- The top-level render of a plain forest starts with a non-whitespace
character (or is empty), so the leading trim removes nothing. -/
theorem atomsTop_head (cs : List ASTNode) (hp : ∀ c ∈ cs, Plain c) :
    (renderAtoms (atomsOfTop cs)).dropWhile jsWs = renderAtoms (atomsOfTop cs) := by
  cases cs with
  | nil => rfl
  | cons c cs2 =>
    obtain ⟨c0, rest0, he, hw⟩ := atomsNode_head0 (hp c (List.mem_cons_self c cs2))
    cases cs2 with
    | nil =>
      rw [show atomsOfTop [c] = atomsOfNode 0 c from rfl, he]
      simp [List.dropWhile_cons, hw]
    | cons c2 cs3 =>
      rw [show atomsOfTop (c :: c2 :: cs3) =
        atomsOfNode 0 c ++ (.ws nlChar :: atomsOfTop (c2 :: cs3)) from rfl]
      rw [renderAtoms_append, he]
      simp [List.dropWhile_cons, hw]

/-- The top-level render of a non-empty plain forest ends in a
non-whitespace character. -/
theorem atomsTop_last_char : ∀ cs : List ASTNode, cs ≠ [] → (∀ c ∈ cs, Plain c) →
    ∃ front cl, renderAtoms (atomsOfTop cs) = front ++ [cl] ∧ jsWs cl = false := by
  intro cs
  induction cs with
  | nil => intro h; cases h rfl
  | cons c cs2 ih =>
    intro _ hp
    cases cs2 with
    | nil =>
      obtain ⟨front, cl, he, hcl⟩ := atomsNode_last (hp c (List.mem_cons_self c [])) 0
      refine ⟨front, cl, ?_, ?_⟩
      · rw [show atomsOfTop [c] = atomsOfNode 0 c from rfl]; exact he
      · rcases hcl with h | h <;> subst h <;> rfl
    | cons c2 cs3 =>
      obtain ⟨front2, cl, he2, hcl⟩ := ih (by simp) (fun x hx => hp x (List.mem_cons_of_mem c hx))
      refine ⟨renderAtoms (atomsOfNode 0 c) ++ nlChar :: front2, cl, ?_, hcl⟩
      rw [show atomsOfTop (c :: c2 :: cs3) =
        atomsOfNode 0 c ++ (.ws nlChar :: atomsOfTop (c2 :: cs3)) from rfl]
      rw [renderAtoms_append]
      rw [show renderAtoms (Atom.ws nlChar :: atomsOfTop (c2 :: cs3)) =
        nlChar :: renderAtoms (atomsOfTop (c2 :: cs3)) from rfl]
      rw [he2]
      simp

/-- The final `trim()` is the identity on the render of a plain forest. -/
theorem jsTrim_atomsTop (cs : List ASTNode) (hp : ∀ c ∈ cs, Plain c) :
    jsTrim (String.mk (renderAtoms (atomsOfTop cs))) =
      String.mk (renderAtoms (atomsOfTop cs)) := by
  have h1 := atomsTop_head cs hp
  have h2 : (renderAtoms (atomsOfTop cs)).reverse.dropWhile jsWs =
      (renderAtoms (atomsOfTop cs)).reverse := by
    cases hcs : cs with
    | nil => subst hcs; rfl
    | cons c cs2 =>
      subst hcs
      obtain ⟨front, cl, he, hcl⟩ := atomsTop_last_char (c :: cs2) (by simp) hp
      rw [he, List.reverse_append]
      simp [List.dropWhile_cons, hcl]
  simp only [jsTrim]
  rw [show (String.mk (renderAtoms (atomsOfTop cs))).toList = renderAtoms (atomsOfTop cs)
    from rfl]
  rw [h1, h2, List.reverse_reverse]

/-- Rendering a config of plain children from a depth-0 state yields the
forest's atom rendering (before the final trim). -/
theorem gen_config_plain (children : List ASTNode) (hp : ∀ c ∈ children, Plain c)
    (pos : Position) (st : GenState) (hind : st.options.indent = "  ")
    (hlvl : st.indentLevel = 0) :
    ∃ f0, ∀ fuel, f0 ≤ fuel → ∀ env,
      generateNode env fuel st (.config children pos) =
        (.ok (String.mk (renderAtoms (atomsOfTop children))), st) := by
  obtain ⟨fc, hfc⟩ := genChildLines_plain children hp st hind
  refine ⟨fc + 2, ?_⟩
  intro fuel hf env
  cases fuel with
  | zero => omega
  | succ k =>
    cases k with
    | zero => omega
    | succ k2 =>
      rw [show generateNode env (k2 + 1 + 1) st (.config children pos) =
        generateConfig env (k2 + 1) st children from rfl]
      simp only [generateConfig, hfc k2 (by omega) env [], List.nil_append]
      rw [hlvl]
      rw [show joinSep "\n" (children.map fun c => String.mk (renderAtoms (atomsOfNode 0 c))) =
        String.mk (renderAtoms (atomsOfTop children)) from string_eq_of_data (top_chars children)]

/-- The exported `generate` in terms of `generateNode` on the fresh
state, for a successful render. -/
theorem generate_eq (env : GenEnv) (fuel : Nat) (ast : ASTNode)
    (opts : GeneratorOptions) (fp : String) (s : String) (st2 : GenState)
    (h : generateNode env fuel
        (GenState.mk (mkOptions opts) 0 (collectVariables ast (fun _ => Option.none)) []
          (fun _ => Option.none) fp) ast = (.ok s, st2)) :
    generateStr env fuel ast opts fp = .ok (jsTrim s) := by
  simp only [generateStr, generate, initState, h]

/-- A full render of a config of plain children succeeds and returns
exactly the forest's atom rendering (the final trim is the identity). -/
theorem generate_plain_top (children : List ASTNode) (hp : ∀ c ∈ children, Plain c)
    (opts : GeneratorOptions) (hind : (mkOptions opts).indent = "  ")
    (pos : Position) (fp : String) :
    ∃ f0, ∀ fuel, f0 ≤ fuel → ∀ env,
      generateStr env fuel (.config children pos) opts fp =
        .ok (String.mk (renderAtoms (atomsOfTop children))) := by
  obtain ⟨fc, hfc⟩ := gen_config_plain children hp pos
    (GenState.mk (mkOptions opts) 0
      (collectVariables (.config children pos) (fun _ => Option.none)) []
      (fun _ => Option.none) fp) hind rfl
  refine ⟨fc, ?_⟩
  intro fuel hf env
  rw [generate_eq env fuel (.config children pos) opts fp _ _ (hfc fuel hf env)]
  rw [jsTrim_atomsTop children hp]

/-- A digit is none of the dispatch characters the tokenizer treats
specially outside the delimiter set. -/
theorem digit_no_special {c : Char} (h : isDigitCh c = true) :
    c ≠ Char.ofNat 36 ∧ c ≠ Char.ofNat 64 ∧ c ≠ Char.ofNat 37 ∧ c ≠ Char.ofNat 126 ∧
      c ≠ Char.ofNat 94 ∧ c ≠ Char.ofNat 35 := by
  simp only [isDigitCh, Bool.and_eq_true, decide_eq_true_eq] at h
  obtain ⟨h1, h2⟩ := h
  repeat' apply And.intro
  all_goals
    intro he
    subst he
    simp [Char.le_def] at h1 h2
    try omega

/-- A character outside the delimiter set is none of the delimiters. -/
theorem identStop_false_ne {c : Char} (h : identStop c = false) :
    c ≠ Char.ofNat 123 ∧ c ≠ Char.ofNat 125 ∧ c ≠ Char.ofNat 91 ∧ c ≠ Char.ofNat 93 ∧
      c ≠ Char.ofNat 59 ∧ c ≠ Char.ofNat 44 ∧ c ≠ Char.ofNat 61 ∧ c ≠ dqChar ∧
      c ≠ sqChar ∧ c ≠ Char.ofNat 40 ∧ c ≠ Char.ofNat 41 ∧ jsWs c = false := by
  simp only [identStop, Bool.or_eq_false_iff, decide_eq_false_iff_not] at h
  obtain ⟨⟨⟨⟨⟨⟨⟨⟨⟨⟨⟨hws, hlb⟩, hrb⟩, hlk⟩, hrk⟩, hsc⟩, hcm⟩, heq⟩, hdq⟩, hsq⟩, hlp⟩, hrp⟩ := h
  exact ⟨hlb, hrb, hlk, hrk, hsc, hcm, heq, hdq, hsq, hlp, hrp, hws⟩

/-- The head character of a simple word, with the facts the tokenizer's
dispatch needs. -/
theorem simple_head (w : String) (hw : simpleWordB w = true) :
    ∃ c0 r0, w.toList = c0 :: r0 ∧ identStop c0 = false ∧ jsWs c0 = false ∧
      c0 ≠ Char.ofNat 35 ∧ c0 ≠ Char.ofNat 36 ∧ c0 ≠ Char.ofNat 64 ∧ c0 ≠ Char.ofNat 37 ∧
      c0 ≠ Char.ofNat 126 ∧ c0 ≠ Char.ofNat 94 := by
  rcases hd : w.toList with _ | ⟨c0, r0⟩
  · exact absurd (string_eq_of_data (by simp only [← hd]; rfl)) (simple_ne_empty hw)
  · have hstop : identStop c0 = false :=
      simple_chars hw c0 (by rw [hd]; exact List.mem_cons_self _ _)
    have hws : jsWs c0 = false := by
      cases hx : jsWs c0
      · rfl
      · rw [jsWs_identStop hx] at hstop; cases hstop
    have hw2 := hw
    simp only [simpleWordB, hd, Bool.and_eq_true] at hw2
    rcases hw2 with ⟨hm, _⟩
    rw [Bool.or_eq_true] at hm
    rcases hm with hm | hm
    · rw [Bool.and_eq_true] at hm
      have hh := hm.1
      simp only [goodHeadChar, Bool.and_eq_true, Bool.not_eq_true',
        decide_eq_false_iff_not] at hh
      exact ⟨c0, r0, rfl, hstop, hws, hh.1.1.1.1.1.1.2, hh.1.1.1.1.1.2, hh.1.1.1.1.2,
        hh.1.1.1.2, hh.1.1.2, hh.1.2⟩
    · have hd0 : isDigitCh c0 = true := by
        have := List.all_eq_true.mp hm c0 (List.mem_cons_self _ _)
        simpa using this
      obtain ⟨a1, a2, a3, a4, a5, a6⟩ := digit_no_special hd0
      exact ⟨c0, r0, rfl, hstop, hws, a6, a1, a2, a3, a4, a5⟩

/-- `takeWhile`/`dropWhile` on a run of the predicate followed by a
stopping suffix. -/
theorem takeDrop_run {p : Char → Bool} : ∀ (l1 l2 : List Char), (∀ a ∈ l1, p a = true) →
    (l2 = [] ∨ ∃ d t2, l2 = d :: t2 ∧ p d = false) →
    (l1 ++ l2).takeWhile p = l1 ∧ (l1 ++ l2).dropWhile p = l2 := by
  intro l1
  induction l1 with
  | nil =>
    intro l2 _ h2
    rcases h2 with h2 | ⟨d, t2, he, hd⟩
    · subst h2; exact ⟨rfl, rfl⟩
    · subst he
      exact ⟨by simp [List.takeWhile_cons, hd], by simp [List.dropWhile_cons, hd]⟩
  | cons a l1t ih =>
    intro l2 h1 h2
    have ha : p a = true := h1 a (List.mem_cons_self _ _)
    have hih := ih l2 (fun x hx => h1 x (List.mem_cons_of_mem a hx)) h2
    constructor
    · simp [List.takeWhile_cons, ha, hih.1]
    · simp [List.dropWhile_cons, ha, hih.2]

/-- A list does not start a location-modifier token when its head is
neither a tilde nor a caret. -/
theorem isLocMod_false {c0 : Char} (rest : List Char) (h1 : c0 ≠ Char.ofNat 126)
    (h2 : c0 ≠ Char.ofNat 94) : isLocationModifierAt (c0 :: rest) = false := by
  unfold isLocationModifierAt
  split
  · rename_i x heq
    injection heq with h hr
    exact absurd h h1
  · rename_i x heq
    injection heq with h hr
    exact absurd h h2
  · rfl

/-- `readToken` on a simple word followed by a stopping suffix reads
exactly the word, as one identifier or number token. -/
theorem readToken_word (w : String) (hw : simpleWordB w = true) (tail : List Char)
    (htail : WordStop tail) (line col : Nat) :
    readToken (w.toList ++ tail) line col =
      .ok (⟨if w.toList.all isDigitCh then .number else .identifier, w, line, col⟩,
        tail, line, col + w.length) := by
  obtain ⟨c0, r0, hd, hstop, hws, hhash, hdol, hat, hpct, htil, hcar⟩ := simple_head w hw
  obtain ⟨hlb, hrb, hlk, hrk, hsc, hcm, heq, hdq, hsq, hlp, hrp, _⟩ := identStop_false_ne hstop
  have hself : String.mk w.toList = w := by cases w; rfl
  have hlen : w.toList.length = w.length := rfl
  have hmk : w.toList ++ tail = c0 :: (r0 ++ tail) := by rw [hd]; rfl
  have hwordchars : ∀ a ∈ w.toList, (!identStop a) = true := by
    intro a ha
    simp [simple_chars hw a ha]
  have htail2 : tail = [] ∨ ∃ d t2, tail = d :: t2 ∧ (!identStop d) = false := by
    rcases htail with h | ⟨d, t2, he, hd2, _⟩
    · exact Or.inl h
    · exact Or.inr ⟨d, t2, he, by simp [hd2]⟩
  have htd := takeDrop_run w.toList tail hwordchars htail2
  rw [hmk]
  simp only [readToken]
  rw [if_neg hlb, if_neg hrb, if_neg hlk, if_neg hrk, if_neg hsc, if_neg hcm, if_neg heq,
    if_neg hlp, if_neg hrp, if_neg (by simp [hdq, hsq]), if_neg hdol, if_neg hat, if_neg hpct,
    if_neg (by rw [isLocMod_false (r0 ++ tail) htil hcar]; exact Bool.false_ne_true)]
  have hw2 := hw
  simp only [simpleWordB, hd, Bool.and_eq_true] at hw2
  rcases hw2 with ⟨hm, _⟩
  rw [Bool.or_eq_true] at hm
  rcases hm with hm | hm
  · rw [Bool.and_eq_true] at hm
    have hnd : isDigitCh c0 = false := by
      have := hm.1
      simp only [goodHeadChar, Bool.and_eq_true, Bool.not_eq_true'] at this
      exact this.2
    rw [if_neg (by rw [hnd]; exact Bool.false_ne_true)]
    have hall : w.toList.all isDigitCh = false := by
      rw [hd]
      simp [hnd]
    simp only [readIdentifier, ← hmk, hd]
    rw [show (c0 :: r0 : List Char) = w.toList from hd.symm]
    rw [htd.1, htd.2, hself]
    have hnl : ¬(w = "location") := by
      have := hw
      simp only [simpleWordB, Bool.and_eq_true, Bool.not_eq_true', decide_eq_false_iff_not]
        at this
      exact this.1.2
    have hni : ¬(w = "in") := by
      have := hw
      simp only [simpleWordB, Bool.and_eq_true, Bool.not_eq_true', decide_eq_false_iff_not]
        at this
      exact this.2
    rw [if_neg hnl, if_neg hni, hall]
    simp [hlen]
  · have hd0 : isDigitCh c0 = true := by
      have := List.all_eq_true.mp hm c0 (by rw [← hd]; rw [hd]; exact List.mem_cons_self _ _)
      simpa using this
    rw [if_pos (by rw [hd0])]
    have hall : w.toList.all isDigitCh = true := by rw [hd]; exact hm
    have hdigchars : ∀ a ∈ w.toList, isDigitCh a = true := by
      intro a ha
      have := List.all_eq_true.mp hall a ha
      simpa using this
    have htail3 : tail = [] ∨ ∃ d t2, tail = d :: t2 ∧ isDigitCh d = false := by
      rcases htail with h | ⟨d, t2, he, _, hd3⟩
      · exact Or.inl h
      · exact Or.inr ⟨d, t2, he, hd3⟩
    have htd2 := takeDrop_run w.toList tail hdigchars htail3
    simp only [readNumber, ← hmk]
    rw [htd2.1, htd2.2, hself, hall]
    simp [hlen]

/-- One `atomLex` step over a space. -/
theorem atomLex_ws_sp (rest : List Atom) (line col : Nat) :
    atomLex (.ws ' ' :: rest) line col = atomLex rest line (col + 1) := by
  simp only [atomLex]
  rw [if_neg (by decide)]

/-- One `atomLex` step over a newline. -/
theorem atomLex_ws_nl (rest : List Atom) (line col : Nat) :
    atomLex (.ws nlChar :: rest) line col = atomLex rest (line + 1) 1 := by
  simp [atomLex]

/-- One `atomLex` step over a word. -/
theorem atomLex_word (w : String) (rest : List Atom) (line col : Nat) :
    atomLex (.word w :: rest) line col =
      (⟨if w.toList.all isDigitCh then .number else .identifier, w, line, col⟩ ::
        (atomLex rest line (col + w.length)).1, (atomLex rest line (col + w.length)).2) := by
  simp only [atomLex]

/-- One `atomLex` step over a semicolon. -/
theorem atomLex_semi (rest : List Atom) (line col : Nat) :
    atomLex (.semi :: rest) line col =
      (⟨.semicolon, ";", line, col⟩ :: (atomLex rest line (col + 1)).1,
        (atomLex rest line (col + 1)).2) := by
  simp only [atomLex]

/-- One `atomLex` step over an opening brace. -/
theorem atomLex_lbrace (rest : List Atom) (line col : Nat) :
    atomLex (.lbrace :: rest) line col =
      (⟨.leftBrace, "\x7b", line, col⟩ :: (atomLex rest line (col + 1)).1,
        (atomLex rest line (col + 1)).2) := by
  simp only [atomLex]

/-- One `atomLex` step over a closing brace. -/
theorem atomLex_rbrace (rest : List Atom) (line col : Nat) :
    atomLex (.rbrace :: rest) line col =
      (⟨.rightBrace, "\x7d", line, col⟩ :: (atomLex rest line (col + 1)).1,
        (atomLex rest line (col + 1)).2) := by
  simp only [atomLex]

/-- `atomLex` over an append: tokens concatenate, positions thread. -/
theorem atomLex_append : ∀ (xs ys : List Atom) (line col : Nat),
    atomLex (xs ++ ys) line col =
      ((atomLex xs line col).1 ++
          (atomLex ys (atomLex xs line col).2.1 (atomLex xs line col).2.2).1,
        (atomLex ys (atomLex xs line col).2.1 (atomLex xs line col).2.2).2) := by
  intro xs
  induction xs with
  | nil => intro ys line col; simp [atomLex]
  | cons a xs ih =>
    intro ys line col
    cases a with
    | word w =>
      rw [List.cons_append, atomLex_word, atomLex_word, ih]
      rfl
    | semi =>
      rw [List.cons_append, atomLex_semi, atomLex_semi, ih]
      rfl
    | lbrace =>
      rw [List.cons_append, atomLex_lbrace, atomLex_lbrace, ih]
      rfl
    | rbrace =>
      rw [List.cons_append, atomLex_rbrace, atomLex_rbrace, ih]
      rfl
    | ws c =>
      by_cases hc : c = nlChar
      · subst hc
        rw [List.cons_append, atomLex_ws_nl, atomLex_ws_nl, ih]
      · rw [List.cons_append,
          show atomLex (Atom.ws c :: (xs ++ ys)) line col =
            atomLex (xs ++ ys) line (col + 1) from by
              simp only [atomLex]; rw [if_neg hc],
          show atomLex (Atom.ws c :: xs) line col = atomLex xs line (col + 1) from by
            simp only [atomLex]; rw [if_neg hc],
          ih]

/-- Indentation atoms lex to no tokens, advancing the column. -/
theorem atomLex_indent : ∀ (n : Nat) (line col : Nat),
    atomLex (List.replicate n (.ws ' ')) line col = ([], line, col + n) := by
  intro n
  induction n with
  | zero => intro line col; rfl
  | succ k ih =>
    intro line col
    rw [show List.replicate (k + 1) (Atom.ws ' ') = .ws ' ' :: List.replicate k (.ws ' ')
      from rfl]
    rw [atomLex_ws_sp, ih]
    have : col + 1 + k = col + (k + 1) := by omega
    rw [this]

/-- Lexing the argument atoms yields argument-shaped tokens on the same
line. -/
theorem atomLex_args : ∀ (args : List String) (line col : Nat),
    ∃ toks col2, atomLex (argAtoms args) line col = (toks, line, col2) ∧
      argToksP line args toks := by
  intro args
  induction args with
  | nil => intro line col; exact ⟨[], col, rfl, trivial⟩
  | cons a as ih =>
    intro line col
    obtain ⟨toks, col2, he, hp⟩ := ih line (col + 1 + a.length)
    refine ⟨⟨if a.toList.all isDigitCh then .number else .identifier, a, line, col + 1⟩ :: toks,
      col2, ?_, ?_⟩
    · rw [show argAtoms (a :: as) = .ws ' ' :: .word a :: argAtoms as from rfl]
      rw [atomLex_ws_sp, atomLex_word, he]
    · refine ⟨?_, rfl, rfl, hp⟩
      rcases hx : a.toList.all isDigitCh with _ | _
      · exact Or.inl (by simp)
      · exact Or.inr (by simp)

/-- Each token atom renders at least one character, so the token count is
bounded by the character count. -/
theorem tokenCount_le_len : ∀ atoms, WFAtoms atoms →
    tokenCountAtoms atoms ≤ (renderAtoms atoms).length := by
  intro atoms
  induction atoms with
  | nil => intro _; simp [tokenCountAtoms, renderAtoms]
  | cons a rest ih =>
    intro hwf
    cases a with
    | word w =>
      have h2 : simpleWordB w = true ∧ headNotWord rest ∧ WFAtoms rest := hwf
      obtain ⟨c0, r0, hd, _⟩ := simple_head w h2.1
      have hr := ih h2.2.2
      rw [show renderAtoms (.word w :: rest) = w.toList ++ renderAtoms rest from rfl,
        show tokenCountAtoms (.word w :: rest) = tokenCountAtoms rest + 1 from rfl, hd]
      simp only [List.length_append, List.length_cons]
      omega
    | semi =>
      have h2 : WFAtoms rest := hwf
      have hr := ih h2
      rw [show renderAtoms (.semi :: rest) = Char.ofNat 59 :: renderAtoms rest from rfl,
        show tokenCountAtoms (.semi :: rest) = tokenCountAtoms rest + 1 from rfl]
      simp only [List.length_cons]
      omega
    | lbrace =>
      have h2 : WFAtoms rest := hwf
      have hr := ih h2
      rw [show renderAtoms (.lbrace :: rest) = Char.ofNat 123 :: renderAtoms rest from rfl,
        show tokenCountAtoms (.lbrace :: rest) = tokenCountAtoms rest + 1 from rfl]
      simp only [List.length_cons]
      omega
    | rbrace =>
      have h2 : WFAtoms rest := hwf
      have hr := ih h2
      rw [show renderAtoms (.rbrace :: rest) = Char.ofNat 125 :: renderAtoms rest from rfl,
        show tokenCountAtoms (.rbrace :: rest) = tokenCountAtoms rest + 1 from rfl]
      simp only [List.length_cons]
      omega
    | ws c =>
      have h2 : (c = ' ' ∨ c = nlChar) ∧ WFAtoms rest := hwf
      have hr := ih h2.2
      rw [show renderAtoms (.ws c :: rest) = c :: renderAtoms rest from rfl,
        show tokenCountAtoms (.ws c :: rest) = tokenCountAtoms rest from rfl]
      simp only [List.length_cons]
      omega

/-- `skipWhitespaceAndComments` stops at once on a non-whitespace,
non-comment character. -/
theorem skip_stop {c0 : Char} (hws : jsWs c0 = false) (hh : c0 ≠ Char.ofNat 35) :
    ∀ (fuel : Nat) (Y : List Char) (line col : Nat), 0 < fuel →
      skipWsComments fuel (c0 :: Y) line col = (c0 :: Y, line, col) := by
  intro fuel Y line col h
  cases fuel with
  | zero => omega
  | succ f =>
    simp only [skipWsComments]
    rw [if_neg (by rw [hws]; exact Bool.false_ne_true), if_neg hh]

/-- The rendering of a well-formed atom list that does not begin with a
word atom is a valid stopping suffix for a word read. -/
theorem render_word_stop : ∀ (rest : List Atom), WFAtoms rest → headNotWord rest →
    WordStop (renderAtoms rest) := by
  intro rest hwf hnw
  cases rest with
  | nil => exact Or.inl rfl
  | cons a r =>
    cases a with
    | word w => exact absurd hnw (by simp [headNotWord])
    | semi =>
      exact Or.inr ⟨';', renderAtoms r, rfl, by decide, by decide⟩
    | lbrace =>
      exact Or.inr ⟨'{', renderAtoms r, rfl, by decide, by decide⟩
    | rbrace =>
      exact Or.inr ⟨'}', renderAtoms r, rfl, by decide, by decide⟩
    | ws c =>
      have h2 : (c = ' ' ∨ c = nlChar) ∧ WFAtoms r := hwf
      rcases h2.1 with hc | hc
      · subst hc
        exact Or.inr ⟨' ', renderAtoms r, rfl, by decide, by decide⟩
      · subst hc
        exact Or.inr ⟨nlChar, renderAtoms r, rfl, by decide, by decide⟩

/-- The tokenizer loop on the rendering of a well-formed atom sequence
produces exactly the lexed atom tokens followed by the end-of-file
token at the final position. -/
theorem lexAtoms : ∀ (atoms : List Atom), WFAtoms atoms →
    ∀ (fuel line col : Nat) (acc : List Token), tokenCountAtoms atoms < fuel →
    tokenizeLoop fuel (renderAtoms atoms) line col acc =
      .ok (acc ++ (atomLex atoms line col).1 ++
        [⟨.eof, "", (atomLex atoms line col).2.1, (atomLex atoms line col).2.2⟩]) := by
  intro atoms
  induction atoms with
  | nil =>
    intro _ fuel line col acc hf
    cases fuel with
    | zero => omega
    | succ f => simp [tokenizeLoop, skipWsComments, atomLex]
  | cons a rest ih =>
    cases a with
    | ws c =>
      intro hwf fuel line col acc hf
      have h2 : (c = ' ' ∨ c = nlChar) ∧ WFAtoms rest := hwf
      have hf2 : tokenCountAtoms rest < fuel := by
        have : tokenCountAtoms (Atom.ws c :: rest) = tokenCountAtoms rest := rfl
        omega
      cases fuel with
      | zero => omega
      | succ f =>
        rcases h2.1 with hc | hc
        · subst hc
          rw [show renderAtoms (Atom.ws ' ' :: rest) = ' ' :: renderAtoms rest from rfl]
          rw [show tokenizeLoop (f + 1) (' ' :: renderAtoms rest) line col acc =
              tokenizeLoop (f + 1) (renderAtoms rest) line (col + 1) acc from by
            simp only [tokenizeLoop]
            rw [show (' ' :: renderAtoms rest).length + 1 =
              ((renderAtoms rest).length + 1) + 1 from by simp]
            rw [show skipWsComments (((renderAtoms rest).length + 1) + 1)
                (' ' :: renderAtoms rest) line col =
                skipWsComments ((renderAtoms rest).length + 1) (renderAtoms rest) line (col + 1)
                from by
              simp only [skipWsComments]
              rw [if_pos (by decide), if_neg (by decide)]]]
          rw [ih h2.2 (f + 1) line (col + 1) acc hf2, atomLex_ws_sp]
        · subst hc
          rw [show renderAtoms (Atom.ws nlChar :: rest) = nlChar :: renderAtoms rest from rfl]
          rw [show tokenizeLoop (f + 1) (nlChar :: renderAtoms rest) line col acc =
              tokenizeLoop (f + 1) (renderAtoms rest) (line + 1) 1 acc from by
            simp only [tokenizeLoop]
            rw [show (nlChar :: renderAtoms rest).length + 1 =
              ((renderAtoms rest).length + 1) + 1 from by simp]
            rw [show skipWsComments (((renderAtoms rest).length + 1) + 1)
                (nlChar :: renderAtoms rest) line col =
                skipWsComments ((renderAtoms rest).length + 1) (renderAtoms rest) (line + 1) 1
                from by
              simp only [skipWsComments]
              rw [if_pos (by decide)]
              simp]]
          rw [ih h2.2 (f + 1) (line + 1) 1 acc hf2, atomLex_ws_nl]
    | word w =>
      intro hwf fuel line col acc hf
      have h2 : simpleWordB w = true ∧ headNotWord rest ∧ WFAtoms rest := hwf
      cases fuel with
      | zero => omega
      | succ f =>
        obtain ⟨c0, r0, hd, hstop, hws, hhash, _⟩ := simple_head w h2.1
        rw [show renderAtoms (Atom.word w :: rest) = w.toList ++ renderAtoms rest from rfl]
        have hmk : w.toList ++ renderAtoms rest = c0 :: (r0 ++ renderAtoms rest) := by
          rw [hd]; rfl
        rw [hmk]
        have hskip := skip_stop hws hhash ((c0 :: (r0 ++ renderAtoms rest)).length + 1)
          (r0 ++ renderAtoms rest) line col (by omega)
        have hrt := readToken_word w h2.1 (renderAtoms rest)
          (render_word_stop rest h2.2.2 h2.2.1) line col
        rw [hmk] at hrt
        simp only [tokenizeLoop, hskip, hrt]
        have hf2 : tokenCountAtoms rest < f := by
          have : tokenCountAtoms (Atom.word w :: rest) = tokenCountAtoms rest + 1 := rfl
          omega
        rw [ih h2.2.2 f line (col + w.length) _ hf2, atomLex_word]
        simp [List.append_assoc]
    | semi =>
      intro hwf fuel line col acc hf
      have h2 : WFAtoms rest := hwf
      cases fuel with
      | zero => omega
      | succ f =>
        rw [show renderAtoms (Atom.semi :: rest) = ';' :: renderAtoms rest from rfl]
        have hskip := @skip_stop ';' (by decide) (by decide)
          ((';' :: renderAtoms rest).length + 1) (renderAtoms rest) line col (by omega)
        have hrt : readToken (';' :: renderAtoms rest) line col =
            .ok (⟨.semicolon, ";", line, col⟩, renderAtoms rest, line, col + 1) := rfl
        simp only [tokenizeLoop, hskip, hrt]
        have hf2 : tokenCountAtoms rest < f := by
          have : tokenCountAtoms (Atom.semi :: rest) = tokenCountAtoms rest + 1 := rfl
          omega
        rw [ih h2 f line (col + 1) _ hf2, atomLex_semi]
        simp [List.append_assoc]
    | lbrace =>
      intro hwf fuel line col acc hf
      have h2 : WFAtoms rest := hwf
      cases fuel with
      | zero => omega
      | succ f =>
        rw [show renderAtoms (Atom.lbrace :: rest) = '{' :: renderAtoms rest from rfl]
        have hskip := @skip_stop '{' (by decide) (by decide)
          (('{' :: renderAtoms rest).length + 1) (renderAtoms rest) line col (by omega)
        have hrt : readToken ('{' :: renderAtoms rest) line col =
            .ok (⟨.leftBrace, "\x7b", line, col⟩, renderAtoms rest, line, col + 1) := rfl
        simp only [tokenizeLoop, hskip, hrt]
        have hf2 : tokenCountAtoms rest < f := by
          have : tokenCountAtoms (Atom.lbrace :: rest) = tokenCountAtoms rest + 1 := rfl
          omega
        rw [ih h2 f line (col + 1) _ hf2, atomLex_lbrace]
        simp [List.append_assoc]
    | rbrace =>
      intro hwf fuel line col acc hf
      have h2 : WFAtoms rest := hwf
      cases fuel with
      | zero => omega
      | succ f =>
        rw [show renderAtoms (Atom.rbrace :: rest) = '}' :: renderAtoms rest from rfl]
        have hskip := @skip_stop '}' (by decide) (by decide)
          (('}' :: renderAtoms rest).length + 1) (renderAtoms rest) line col (by omega)
        have hrt : readToken ('}' :: renderAtoms rest) line col =
            .ok (⟨.rightBrace, "\x7d", line, col⟩, renderAtoms rest, line, col + 1) := rfl
        simp only [tokenizeLoop, hskip, hrt]
        have hf2 : tokenCountAtoms rest < f := by
          have : tokenCountAtoms (Atom.rbrace :: rest) = tokenCountAtoms rest + 1 := rfl
          omega
        rw [ih h2 f line (col + 1) _ hf2, atomLex_rbrace]
        simp [List.append_assoc]

/-- `tokenize` on the rendering of a well-formed atom sequence. -/
theorem tokenize_render (atoms : List Atom) (hwf : WFAtoms atoms) :
    tokenize (String.mk (renderAtoms atoms)) =
      .ok ((atomLex atoms 1 1).1 ++
        [⟨.eof, "", (atomLex atoms 1 1).2.1, (atomLex atoms 1 1).2.2⟩]) := by
  have hlen := tokenCount_le_len atoms hwf
  have h := lexAtoms atoms hwf ((renderAtoms atoms).length + 1) 1 1 [] (by omega)
  simpa [tokenize, String.length] using h

/-- A plain node lexes to at least two tokens. -/
theorem tcount_ge2 {t : ASTNode} (hp : Plain t) : 2 ≤ tcount t := by
  cases hp with
  | directive name args pos => simp [tcount]
  | block name args children pos => simp [tcount]; omega

/-- The scan for a left brace stops at a semicolon after skipping the
argument tokens. -/
theorem go_args_semi : ∀ (args : List String) (toks : List Token) (line : Nat),
    argToksP line args toks → ∀ (t2 : Token), t2.type = .semicolon → ∀ (r : List Token),
    hasLeftBraceAhead.go (toks ++ t2 :: r) = false := by
  intro args
  induction args with
  | nil =>
    intro toks line hp t2 h2 r
    cases toks with
    | nil =>
      simp only [List.nil_append, hasLeftBraceAhead.go]
      rw [if_neg (by rw [h2]; intro hx; cases hx), if_pos (by rw [h2]; simp)]
    | cons t ts => exact absurd hp (by simp [argToksP])
  | cons a as ih =>
    intro toks line hp t2 h2 r
    cases toks with
    | nil => exact absurd hp (by simp [argToksP])
    | cons t ts =>
      have hp2 : (t.type = TokenType.identifier ∨ t.type = TokenType.number) ∧
          t.value = a ∧ t.line = line ∧ argToksP line as ts := hp
      have hnl : ¬(t.type = TokenType.leftBrace) := by
        rcases hp2.1 with h | h <;> rw [h] <;> intro hx <;> cases hx
      have hns : (t.type = TokenType.semicolon || t.type = TokenType.eof) = false := by
        rcases hp2.1 with h | h <;> rw [h] <;> rfl
      simp only [List.cons_append, hasLeftBraceAhead.go]
      rw [if_neg hnl, if_neg (by rw [hns]; exact Bool.false_ne_true)]
      exact ih ts line hp2.2.2.2 t2 h2 r

/-- The scan for a left brace finds one after skipping the argument
tokens. -/
theorem go_args_lbrace : ∀ (args : List String) (toks : List Token) (line : Nat),
    argToksP line args toks → ∀ (t2 : Token), t2.type = .leftBrace → ∀ (r : List Token),
    hasLeftBraceAhead.go (toks ++ t2 :: r) = true := by
  intro args
  induction args with
  | nil =>
    intro toks line hp t2 h2 r
    cases toks with
    | nil =>
      simp only [List.nil_append, hasLeftBraceAhead.go]
      rw [if_pos h2]
    | cons t ts => exact absurd hp (by simp [argToksP])
  | cons a as ih =>
    intro toks line hp t2 h2 r
    cases toks with
    | nil => exact absurd hp (by simp [argToksP])
    | cons t ts =>
      have hp2 : (t.type = TokenType.identifier ∨ t.type = TokenType.number) ∧
          t.value = a ∧ t.line = line ∧ argToksP line as ts := hp
      have hnl : ¬(t.type = TokenType.leftBrace) := by
        rcases hp2.1 with h | h <;> rw [h] <;> intro hx <;> cases hx
      have hns : (t.type = TokenType.semicolon || t.type = TokenType.eof) = false := by
        rcases hp2.1 with h | h <;> rw [h] <;> rfl
      simp only [List.cons_append, hasLeftBraceAhead.go]
      rw [if_neg hnl, if_neg (by rw [hns]; exact Bool.false_ne_true)]
      exact ih ts line hp2.2.2.2 t2 h2 r

/-- The directive argument loop consumes exactly the argument tokens and
stops at the semicolon (all tokens sit on the directive's line, so the
line-break heuristic never fires). -/
theorem parseDirectiveArgs_plain : ∀ (args : List String) (argtoks : List Token) (dline : Nat),
    argToksP dline args argtoks →
    ∀ (fuel : Nat), args.length + 1 ≤ fuel →
    ∀ (rest : List Token), checkTok .semicolon rest = true →
    ∀ (acc : List String),
      parseDirectiveArgs noEnv fuel dline (argtoks ++ rest) acc = .ok (acc ++ args, rest) := by
  intro args
  induction args with
  | nil =>
    intro argtoks dline hp fuel hf rest hsemi acc
    have he : argtoks = [] := by
      cases argtoks with
      | nil => rfl
      | cons t ts => exact absurd hp (by simp [argToksP])
    subst he
    cases fuel with
    | zero => omega
    | succ f =>
      simp only [List.nil_append, parseDirectiveArgs]
      rw [if_neg (by rw [hsemi]; simp)]
      simp
  | cons a as ih =>
    intro argtoks dline hp fuel hf rest hsemi acc
    cases argtoks with
    | nil => exact absurd hp (by simp [argToksP])
    | cons t ts =>
      have hp2 : (t.type = TokenType.identifier ∨ t.type = TokenType.number) ∧
          t.value = a ∧ t.line = dline ∧ argToksP dline as ts := hp
      cases fuel with
      | zero => omega
      | succ f =>
        have hcsemi : checkTok .semicolon (t :: (ts ++ rest)) = false := by
          rcases hp2.1 with h | h <;> simp [checkTok, peekTok, h]
        have hcend : atEnd (t :: (ts ++ rest)) = false := by
          rcases hp2.1 with h | h <;> simp [atEnd, checkTok, peekTok, h]
        have hline : (peekTok (t :: (ts ++ rest))).line = dline := by
          simp [peekTok, hp2.2.2.1]
        have hcid : (checkTok .identifier (t :: (ts ++ rest)) ||
            checkTok .string (t :: (ts ++ rest)) || checkTok .number (t :: (ts ++ rest)) ||
            checkTok .variable (t :: (ts ++ rest))) = true := by
          rcases hp2.1 with h | h <;> simp [checkTok, peekTok, h]
        simp only [List.cons_append, parseDirectiveArgs]
        rw [if_pos (by rw [hcsemi, hcend]; rfl)]
        rw [if_neg (by simp [hline])]
        rw [if_pos hcid]
        rw [show (peekTok (t :: (ts ++ rest))).value = a from by simp [peekTok, hp2.2.1]]
        rw [show (t :: (ts ++ rest)).drop 1 = ts ++ rest from rfl]
        have hf2 : as.length + 1 ≤ f := by
          simp only [List.length_cons] at hf
          omega
        rw [ih ts dline hp2.2.2.2 f hf2 rest hsemi (acc ++ [a])]
        simp

/-- The block argument loop consumes exactly the argument tokens and
stops at the opening brace. -/
theorem parseBlockArgs_plain : ∀ (args : List String) (argtoks : List Token) (line : Nat),
    argToksP line args argtoks →
    ∀ (fuel : Nat), args.length + 1 ≤ fuel →
    ∀ (rest : List Token), checkTok .leftBrace rest = true →
    ∀ (acc : List String),
      parseBlockArgs noEnv fuel (argtoks ++ rest) acc = .ok (acc ++ args, rest) := by
  intro args
  induction args with
  | nil =>
    intro argtoks line hp fuel hf rest hlb acc
    have he : argtoks = [] := by
      cases argtoks with
      | nil => rfl
      | cons t ts => exact absurd hp (by simp [argToksP])
    subst he
    cases fuel with
    | zero => omega
    | succ f =>
      simp only [List.nil_append, parseBlockArgs]
      rw [if_neg (by rw [hlb]; simp)]
      simp
  | cons a as ih =>
    intro argtoks line hp fuel hf rest hlb acc
    cases argtoks with
    | nil => exact absurd hp (by simp [argToksP])
    | cons t ts =>
      have hp2 : (t.type = TokenType.identifier ∨ t.type = TokenType.number) ∧
          t.value = a ∧ t.line = line ∧ argToksP line as ts := hp
      cases fuel with
      | zero => omega
      | succ f =>
        have hclb : checkTok .leftBrace (t :: (ts ++ rest)) = false := by
          rcases hp2.1 with h | h <;> simp [checkTok, peekTok, h]
        have hcend : atEnd (t :: (ts ++ rest)) = false := by
          rcases hp2.1 with h | h <;> simp [atEnd, checkTok, peekTok, h]
        have hcid : (checkTok .identifier (t :: (ts ++ rest)) ||
            checkTok .string (t :: (ts ++ rest)) || checkTok .number (t :: (ts ++ rest)) ||
            checkTok .variable (t :: (ts ++ rest))) = true := by
          rcases hp2.1 with h | h <;> simp [checkTok, peekTok, h]
        simp only [List.cons_append, parseBlockArgs]
        rw [if_pos (by rw [hclb, hcend]; rfl)]
        rw [if_pos hcid]
        rw [show (peekTok (t :: (ts ++ rest))).value = a from by simp [peekTok, hp2.2.1]]
        rw [show (t :: (ts ++ rest)).drop 1 = ts ++ rest from rfl]
        have hf2 : as.length + 1 ≤ f := by
          simp only [List.length_cons] at hf
          omega
        rw [ih ts line hp2.2.2.2 f hf2 rest hlb (acc ++ [a])]
        simp

/-- Lexing indentation followed by a non-numeric word: one identifier
token at the indented column. -/
theorem atomLex_indent_word (name : String) (X : List Atom) (lvl line col : Nat)
    (hall : name.toList.all isDigitCh = false) :
    atomLex (indentAtoms lvl ++ (.word name :: X)) line col =
      (⟨.identifier, name, line, col + 2 * lvl⟩ ::
          (atomLex X line (col + 2 * lvl + name.length)).1,
        (atomLex X line (col + 2 * lvl + name.length)).2) := by
  rw [show indentAtoms lvl = List.replicate (2 * lvl) (Atom.ws ' ') from rfl]
  rw [atomLex_append, atomLex_indent]
  dsimp only
  rw [atomLex_word, hall]
  rfl

/-- The token list of a plain directive: one identifier, the argument
tokens, one semicolon, all on one line. -/
theorem atomLex_directive (name : String) (args : List String) (pos : Position)
    (lvl line col : Nat) (hall : name.toList.all isDigitCh = false) :
    ∃ argtoks col2,
      atomLex (atomsOfNode lvl (.directive name args pos)) line col =
        (⟨.identifier, name, line, col + 2 * lvl⟩ ::
            (argtoks ++ [⟨.semicolon, ";", line, col2⟩]), line, col2 + 1) ∧
        argToksP line args argtoks := by
  obtain ⟨argtoks, col2, he, hp⟩ := atomLex_args args line (col + 2 * lvl + name.length)
  refine ⟨argtoks, col2, ?_, hp⟩
  rw [show atomsOfNode lvl (.directive name args pos) =
    indentAtoms lvl ++ (.word name :: (argAtoms args ++ [.semi])) from by
      simp [atomsOfNode, List.append_assoc]]
  rw [atomLex_indent_word name _ lvl line col hall]
  rw [atomLex_append, he]
  dsimp only
  rw [atomLex_semi]
  rfl

/-- The token list of a plain block: identifier, argument tokens, left
brace, the children's tokens, right brace. -/
theorem atomLex_block (name : String) (args : List String) (children : List ASTNode)
    (pos : Position) (lvl line col : Nat) (hall : name.toList.all isDigitCh = false) :
    ∃ argtoks col2 ctoks lineE colE,
      atomLex (atomsOfNode lvl (.block name args children pos)) line col =
        (⟨.identifier, name, line, col + 2 * lvl⟩ ::
            (argtoks ++ ⟨.leftBrace, "\x7b", line, col2 + 1⟩ ::
              (ctoks ++ [⟨.rightBrace, "\x7d", lineE, colE⟩])),
          lineE, colE + 1) ∧
        argToksP line args argtoks ∧
        ∃ linec colc, ctoks = (atomLex (atomsOfChildren (lvl + 1) children) linec colc).1 := by
  obtain ⟨argtoks, col2, he, hp⟩ := atomLex_args args line (col + 2 * lvl + name.length)
  rcases hc : atomLex (atomsOfChildren (lvl + 1) children) line (col2 + 1 + 1)
    with ⟨ctoks, lc, cc⟩
  refine ⟨argtoks, col2, ctoks, lc + 1, 1 + 2 * lvl, ?_, hp, line, col2 + 1 + 1, by rw [hc]⟩
  rw [show atomsOfNode lvl (.block name args children pos) =
    indentAtoms lvl ++ (.word name :: (argAtoms args ++ (.ws ' ' :: .lbrace ::
      (atomsOfChildren (lvl + 1) children ++
        (.ws nlChar :: (indentAtoms lvl ++ [.rbrace])))))) from by
      simp [atomsOfNode, List.append_assoc]]
  rw [atomLex_indent_word name _ lvl line col hall]
  rw [atomLex_append, he]
  dsimp only
  rw [atomLex_ws_sp, atomLex_lbrace]
  dsimp only
  rw [atomLex_append, hc]
  dsimp only
  rw [atomLex_ws_nl]
  rw [show indentAtoms lvl = List.replicate (2 * lvl) (Atom.ws ' ') from rfl]
  rw [atomLex_append, atomLex_indent]
  dsimp only
  rw [atomLex_rbrace]
  rfl

/-- `parseDirective` on a plain directive's tokens consumes exactly them
and rebuilds the directive. -/
theorem parseDirective_plain (name : String) (args : List String) (argtoks : List Token)
    (line0 col0 col2 : Nat) (hargs : argToksP line0 args argtoks) (rest : List Token)
    (fuel : Nat) (hfuel : args.length + 2 ≤ fuel) :
    parseDirective noEnv fuel
        (⟨.identifier, name, line0, col0⟩ ::
          (argtoks ++ ⟨.semicolon, ";", line0, col2⟩ :: rest)) =
      .ok (.directive name args ⟨line0, col0⟩, rest) := by
  cases fuel with
  | zero => omega
  | succ f =>
    simp only [parseDirective]
    rw [show ((⟨.identifier, name, line0, col0⟩ ::
        (argtoks ++ ⟨.semicolon, ";", line0, col2⟩ :: rest) : List Token)).drop 1 =
      argtoks ++ ⟨.semicolon, ";", line0, col2⟩ :: rest from rfl]
    rw [show (tokPos ((⟨.identifier, name, line0, col0⟩ : Token) ::
      (argtoks ++ ⟨.semicolon, ";", line0, col2⟩ :: rest))).line = line0 from rfl]
    rw [parseDirectiveArgs_plain args argtoks line0 hargs f (by omega)
      (⟨.semicolon, ";", line0, col2⟩ :: rest) (by simp [checkTok, peekTok]) []]
    dsimp only
    rw [if_neg (by simp [checkTok, peekTok])]
    simp [tokPos, peekTok]

/-- A plain node's token stream begins with an identifier token at the
indented column. -/
theorem node_toks_head (t : ASTNode) (hp : Plain t) (lvl line col : Nat) :
    ∃ v more, (atomLex (atomsOfNode lvl t) line col).1 =
      (⟨.identifier, v, line, col + 2 * lvl⟩ : Token) :: more := by
  cases hp with
  | directive name args pos hn ha =>
    have hall : name.toList.all isDigitCh = false := by
      simp only [simpleNameB, Bool.and_eq_true, Bool.not_eq_true'] at hn
      exact hn.1.2
    obtain ⟨argtoks, col2, he, _⟩ := atomLex_directive name args pos lvl line col hall
    exact ⟨name, _, by rw [he]⟩
  | block name args children pos hn ha hc =>
    have hall : name.toList.all isDigitCh = false := by
      simp only [simpleNameB, Bool.and_eq_true, Bool.not_eq_true'] at hn
      exact hn.1.2
    obtain ⟨argtoks, col2, ctoks, lineE, colE, he, _, _⟩ :=
      atomLex_block name args children pos lvl line col hall
    exact ⟨name, _, by rw [he]⟩

/-- Pointwise atom-equal lists have equal child-atom renderings. -/
theorem forall2_children_atoms : ∀ {cs cs2 : List ASTNode},
    List.Forall₂ (fun c c2 => Plain c2 ∧ ∀ l2, atomsOfNode l2 c2 = atomsOfNode l2 c) cs cs2 →
    ∀ lvl, atomsOfChildren lvl cs2 = atomsOfChildren lvl cs := by
  intro cs cs2 h
  induction h with
  | nil => intro lvl; rfl
  | cons h1 h2 ih =>
    intro lvl
    simp [atomsOfChildren, h1.2, ih]

/-- Pointwise atom-equal lists have equal top-level atom renderings. -/
theorem forall2_top_atoms : ∀ {cs cs2 : List ASTNode},
    List.Forall₂ (fun c c2 => Plain c2 ∧ ∀ l2, atomsOfNode l2 c2 = atomsOfNode l2 c) cs cs2 →
    atomsOfTop cs2 = atomsOfTop cs := by
  intro cs cs2 h
  induction h with
  | nil => rfl
  | cons h1 h2 ih =>
    cases h2 with
    | nil => exact h1.2 0
    | cons h3 h4 =>
      simp only [atomsOfTop]
      rw [h1.2 0, ih]

/-- The second list of a pointwise witness is plain throughout. -/
theorem forall2_children_plain : ∀ {cs cs2 : List ASTNode},
    List.Forall₂ (fun c c2 => Plain c2 ∧ ∀ l2, atomsOfNode l2 c2 = atomsOfNode l2 c) cs cs2 →
    ∀ c2 ∈ cs2, Plain c2 := by
  intro cs cs2 h
  induction h with
  | nil => intro c2 hc2; cases hc2
  | cons h1 h2 ih =>
    intro c2 hc2
    rcases List.mem_cons.mp hc2 with he | hm
    · subst he; exact h1.1
    · exact ih c2 hm

/-- Re-parsing a plain node's token stream yields a plain node with the
same atoms at every depth, consuming exactly the node's tokens. -/
theorem parse_plain_node : ∀ (t : ASTNode), Plain t →
    ∀ (lvl line col : Nat) (rest : List Token) (fuel : Nat), 2 * tcount t ≤ fuel →
    ∃ t2, parseStatement noEnv fuel ((atomLex (atomsOfNode lvl t) line col).1 ++ rest) =
        .ok (some t2, rest) ∧ Plain t2 ∧
        ∀ lvl2, atomsOfNode lvl2 t2 = atomsOfNode lvl2 t := by
  intro t hp
  induction hp with
  | directive name args pos hn ha =>
    intro lvl line col rest fuel hfuel
    have htc : tcount (ASTNode.directive name args pos) = args.length + 2 := rfl
    have hn2 : simpleWordB name = true ∧ name.toList.all isDigitCh = false ∧
        ¬(name = "if") := by
      have h3 := hn
      simp only [simpleNameB, Bool.and_eq_true, Bool.not_eq_true',
        decide_eq_false_iff_not] at h3
      exact ⟨h3.1.1, h3.1.2, h3.2⟩
    obtain ⟨argtoks, col2, he, hpargs⟩ := atomLex_directive name args pos lvl line col hn2.2.1
    rw [he]
    dsimp only
    cases fuel with
    | zero => omega
    | succ f =>
      refine ⟨.directive name args ⟨line, col + 2 * lvl⟩, ?_,
        Plain.directive _ _ _ hn ha, fun lvl2 => rfl⟩
      rw [show ((⟨.identifier, name, line, col + 2 * lvl⟩ ::
          (argtoks ++ [⟨.semicolon, ";", line, col2⟩]) : List Token)) ++ rest =
        ⟨.identifier, name, line, col + 2 * lvl⟩ ::
          (argtoks ++ ⟨.semicolon, ";", line, col2⟩ :: rest) from by simp]
      simp only [parseStatement]
      rw [if_neg (by simp [checkTok, peekTok])]
      rw [if_neg (by simp [checkTok, peekTok])]
      rw [if_neg (by simp [checkTok, peekTok])]
      rw [if_neg (by simp [checkTok, peekTok])]
      rw [if_neg (by simp [checkTok, peekTok])]
      rw [if_neg (by simp [checkTok, peekTok])]
      rw [if_pos (by simp [checkTok, peekTok])]
      rw [if_neg (by simp [peekTok]; exact hn2.2.2)]
      rw [if_neg (by
        rw [show hasLeftBraceAhead (⟨.identifier, name, line, col + 2 * lvl⟩ ::
          (argtoks ++ ⟨.semicolon, ";", line, col2⟩ :: rest)) =
          hasLeftBraceAhead.go (argtoks ++ ⟨.semicolon, ";", line, col2⟩ :: rest) from rfl]
        rw [go_args_semi args argtoks line hpargs _ rfl rest]
        exact Bool.false_ne_true)]
      rw [parseDirective_plain name args argtoks line (col + 2 * lvl) col2 hpargs rest f
        (by omega)]
  | block name args children pos hn ha hc ih =>
    intro lvl line col rest fuel hfuel
    have htc : tcount (ASTNode.block name args children pos) =
      args.length + 3 + tcountList children := rfl
    have hn2 : simpleWordB name = true ∧ name.toList.all isDigitCh = false ∧
        ¬(name = "if") := by
      have h3 := hn
      simp only [simpleNameB, Bool.and_eq_true, Bool.not_eq_true',
        decide_eq_false_iff_not] at h3
      exact ⟨h3.1.1, h3.1.2, h3.2⟩
    obtain ⟨argtoks, col2, ctoks, lineE, colE, he, hpargs, linec, colc, hctoks⟩ :=
      atomLex_block name args children pos lvl line col hn2.2.1
    have inner : ∀ (cs : List ASTNode), (∀ c ∈ cs, c ∈ children) →
        ∀ (lvlc linec2 colc2 : Nat) (rest2 : List Token) (fuel2 : Nat) (acc : List ASTNode),
        2 * tcountList cs + 1 ≤ fuel2 → checkTok .rightBrace rest2 = true →
        ∃ cs2, parseBlockChildrenLoop noEnv fuel2
            ((atomLex (atomsOfChildren lvlc cs) linec2 colc2).1 ++ rest2) acc =
            .ok (acc ++ cs2, rest2) ∧
          List.Forall₂ (fun c c2 => Plain c2 ∧ ∀ l2, atomsOfNode l2 c2 = atomsOfNode l2 c)
            cs cs2 := by
      intro cs
      induction cs with
      | nil =>
        intro _ lvlc linec2 colc2 rest2 fuel2 acc hf2 hrb
        cases fuel2 with
        | zero => omega
        | succ g =>
          refine ⟨[], ?_, List.Forall₂.nil⟩
          rw [show (atomLex (atomsOfChildren lvlc ([] : List ASTNode)) linec2 colc2).1 =
            ([] : List Token) from rfl]
          rw [List.nil_append]
          simp only [parseBlockChildrenLoop]
          rw [if_neg (by rw [hrb]; simp)]
          simp
      | cons c cs9 ihl =>
        intro hsub lvlc linec2 colc2 rest2 fuel2 acc hf2 hrb
        cases fuel2 with
        | zero => omega
        | succ g =>
          have hplc : Plain c := hc c (hsub c (List.mem_cons_self c cs9))
          obtain ⟨v, more, hhead⟩ := node_toks_head c hplc lvlc (linec2 + 1) 1
          have h2c := tcount_ge2 hplc
          have htcl : tcountList (c :: cs9) = tcount c + tcountList cs9 := rfl
          obtain ⟨t2, hps, hpl2, hatoms⟩ := ih c (hsub c (List.mem_cons_self c cs9)) lvlc
            (linec2 + 1) 1 ((atomLex (atomsOfChildren lvlc cs9)
              (atomLex (atomsOfNode lvlc c) (linec2 + 1) 1).2.1
              (atomLex (atomsOfNode lvlc c) (linec2 + 1) 1).2.2).1 ++ rest2) g (by omega)
          obtain ⟨cs2, hloop, hfa⟩ := ihl (fun x hx => hsub x (List.mem_cons_of_mem c hx))
            lvlc (atomLex (atomsOfNode lvlc c) (linec2 + 1) 1).2.1
            (atomLex (atomsOfNode lvlc c) (linec2 + 1) 1).2.2 rest2 g (acc ++ [t2])
            (by omega) hrb
          refine ⟨t2 :: cs2, ?_, List.Forall₂.cons ⟨hpl2, hatoms⟩ hfa⟩
          rw [show atomsOfChildren lvlc (c :: cs9) =
            Atom.ws nlChar :: (atomsOfNode lvlc c ++ atomsOfChildren lvlc cs9) from by
              simp [atomsOfChildren]]
          rw [atomLex_ws_nl, atomLex_append]
          dsimp only
          rw [List.append_assoc]
          rw [hhead] at hps ⊢
          simp only [List.cons_append] at hps ⊢
          simp only [parseBlockChildrenLoop]
          rw [if_pos (by simp [checkTok, atEnd, peekTok])]
          rw [hps]
          dsimp only
          rw [hloop]
          simp
    cases fuel with
    | zero => omega
    | succ f =>
      cases f with
      | zero => omega
      | succ f2 =>
        cases f2 with
        | zero => omega
        | succ f3 =>
          obtain ⟨cs2, hloop, hfa⟩ := inner children (fun c h => h) (lvl + 1) linec colc
            ([(⟨.rightBrace, "\x7d", lineE, colE⟩ : Token)] ++ rest) f3 [] (by omega)
            (by simp [checkTok, peekTok])
          refine ⟨.block name args cs2 ⟨line, col + 2 * lvl⟩, ?_,
            Plain.block _ _ _ _ hn ha (forall2_children_plain hfa), ?_⟩
          · rw [he]
            dsimp only
            rw [show ((⟨.identifier, name, line, col + 2 * lvl⟩ ::
                (argtoks ++ ⟨.leftBrace, "\x7b", line, col2 + 1⟩ ::
                  (ctoks ++ [⟨.rightBrace, "\x7d", lineE, colE⟩])) : List Token)) ++ rest =
              ⟨.identifier, name, line, col + 2 * lvl⟩ ::
                (argtoks ++ ⟨.leftBrace, "\x7b", line, col2 + 1⟩ ::
                  (ctoks ++ (⟨.rightBrace, "\x7d", lineE, colE⟩ :: rest))) from by simp]
            simp only [parseStatement]
            rw [if_neg (by simp [checkTok, peekTok])]
            rw [if_neg (by simp [checkTok, peekTok])]
            rw [if_neg (by simp [checkTok, peekTok])]
            rw [if_neg (by simp [checkTok, peekTok])]
            rw [if_neg (by simp [checkTok, peekTok])]
            rw [if_neg (by simp [checkTok, peekTok])]
            rw [if_pos (by simp [checkTok, peekTok])]
            rw [if_neg (by simp [peekTok]; exact hn2.2.2)]
            rw [if_pos (by
              rw [show hasLeftBraceAhead (⟨.identifier, name, line, col + 2 * lvl⟩ ::
                (argtoks ++ ⟨.leftBrace, "\x7b", line, col2 + 1⟩ ::
                  (ctoks ++ (⟨.rightBrace, "\x7d", lineE, colE⟩ :: rest)))) =
                hasLeftBraceAhead.go (argtoks ++ ⟨.leftBrace, "\x7b", line, col2 + 1⟩ ::
                  (ctoks ++ (⟨.rightBrace, "\x7d", lineE, colE⟩ :: rest))) from rfl]
              rw [go_args_lbrace args argtoks line hpargs _ rfl _])]
            simp only [parseBlock]
            rw [show ((⟨.identifier, name, line, col + 2 * lvl⟩ ::
                (argtoks ++ ⟨.leftBrace, "\x7b", line, col2 + 1⟩ ::
                  (ctoks ++ (⟨.rightBrace, "\x7d", lineE, colE⟩ :: rest))) : List Token)).drop 1 =
              argtoks ++ ⟨.leftBrace, "\x7b", line, col2 + 1⟩ ::
                (ctoks ++ (⟨.rightBrace, "\x7d", lineE, colE⟩ :: rest)) from rfl]
            rw [parseBlockArgs_plain args argtoks line hpargs (f3 + 1) (by omega)
              (⟨.leftBrace, "\x7b", line, col2 + 1⟩ ::
                (ctoks ++ (⟨.rightBrace, "\x7d", lineE, colE⟩ :: rest)))
              (by simp [checkTok, peekTok]) []]
            dsimp only
            rw [if_neg (by simp [checkTok, peekTok])]
            simp only [parseBlockChildren]
            rw [if_neg (by simp [checkTok, peekTok])]
            rw [show ((⟨.leftBrace, "\x7b", line, col2 + 1⟩ ::
                (ctoks ++ (⟨.rightBrace, "\x7d", lineE, colE⟩ :: rest)) : List Token)).drop 1 =
              ctoks ++ (⟨.rightBrace, "\x7d", lineE, colE⟩ :: rest) from rfl]
            rw [hctoks]
            rw [show ((⟨.rightBrace, "\x7d", lineE, colE⟩ : Token) :: rest) =
              [(⟨.rightBrace, "\x7d", lineE, colE⟩ : Token)] ++ rest from rfl]
            rw [hloop]
            dsimp only
            rw [if_neg (by simp [checkTok, peekTok])]
            simp [tokPos, peekTok]
          · intro lvl2
            rw [show atomsOfNode lvl2 (.block name args cs2 ⟨line, col + 2 * lvl⟩) =
              indentAtoms lvl2 ++ (.word name :: argAtoms args) ++ [.ws ' ', .lbrace] ++
                atomsOfChildren (lvl2 + 1) cs2 ++ [.ws nlChar] ++ indentAtoms lvl2 ++
                [.rbrace] from rfl]
            rw [show atomsOfNode lvl2 (.block name args children pos) =
              indentAtoms lvl2 ++ (.word name :: argAtoms args) ++ [.ws ' ', .lbrace] ++
                atomsOfChildren (lvl2 + 1) children ++ [.ws nlChar] ++ indentAtoms lvl2 ++
                [.rbrace] from rfl]
            rw [forall2_children_atoms hfa]

/-- `headNotWord` over an append. -/
theorem headNotWord_append {xs ys : List Atom} (hx : headNotWord xs) (hy : headNotWord ys) :
    headNotWord (xs ++ ys) := by
  cases xs with
  | nil => exact hy
  | cons a r =>
    cases a with
    | word w => exact absurd hx (by simp [headNotWord])
    | semi => trivial
    | lbrace => trivial
    | rbrace => trivial
    | ws c => trivial

/-- Well-formedness is preserved by appending, provided the right part
does not begin with a word. -/
theorem WF_append : ∀ {xs ys : List Atom}, WFAtoms xs → WFAtoms ys → headNotWord ys →
    WFAtoms (xs ++ ys) := by
  intro xs
  induction xs with
  | nil => intro ys _ hy _; simpa
  | cons a r ih =>
    intro ys hx hy hny
    cases a with
    | word w =>
      have h2 : simpleWordB w = true ∧ headNotWord r ∧ WFAtoms r := hx
      exact ⟨h2.1, headNotWord_append h2.2.1 hny, ih h2.2.2 hy hny⟩
    | semi =>
      have h2 : WFAtoms r := hx
      exact ih h2 hy hny
    | lbrace =>
      have h2 : WFAtoms r := hx
      exact ih h2 hy hny
    | rbrace =>
      have h2 : WFAtoms r := hx
      exact ih h2 hy hny
    | ws c =>
      have h2 : (c = ' ' ∨ c = nlChar) ∧ WFAtoms r := hx
      exact ⟨h2.1, ih h2.2 hy hny⟩

/-- Indentation atoms prefixed to a well-formed tail stay well-formed. -/
theorem WF_indent : ∀ (n : Nat) {tail : List Atom}, WFAtoms tail →
    WFAtoms (List.replicate n (.ws ' ') ++ tail) := by
  intro n
  induction n with
  | zero => intro tail h; simpa
  | succ k ih =>
    intro tail h
    exact ⟨Or.inl rfl, ih h⟩

/-- Argument atoms prefixed to a well-formed, non-word-headed tail stay
well-formed. -/
theorem WF_args : ∀ (args : List String) {tail : List Atom},
    (∀ a ∈ args, simpleWordB a = true) → WFAtoms tail → headNotWord tail →
    WFAtoms (argAtoms args ++ tail) := by
  intro args
  induction args with
  | nil => intro tail _ h _; simpa
  | cons a as ih =>
    intro tail ha h hn
    refine ⟨Or.inl rfl, ha a (List.mem_cons_self a as), ?_, ?_⟩
    · cases as with
      | nil => simpa using hn
      | cons a2 as2 => trivial
    · exact ih (fun x hx => ha x (List.mem_cons_of_mem a hx)) h hn

/-- The atoms of a plain node are well-formed. -/
theorem WF_node : ∀ (t : ASTNode), Plain t → ∀ lvl, WFAtoms (atomsOfNode lvl t) := by
  intro t hp
  induction hp with
  | directive name args pos hn ha =>
    intro lvl
    have hw : simpleWordB name = true := by
      simp only [simpleNameB, Bool.and_eq_true] at hn
      exact hn.1.1
    rw [show atomsOfNode lvl (.directive name args pos) =
      List.replicate (2 * lvl) (.ws ' ') ++ (.word name :: (argAtoms args ++ [.semi]))
      from by simp [atomsOfNode, indentAtoms, List.append_assoc]]
    refine WF_indent (2 * lvl) ⟨hw, ?_, WF_args args ha trivial trivial⟩
    cases args with
    | nil => trivial
    | cons a as => trivial
  | block name args children pos hn ha hc ih =>
    intro lvl
    have hw : simpleWordB name = true := by
      simp only [simpleNameB, Bool.and_eq_true] at hn
      exact hn.1.1
    have hfoot : WFAtoms (Atom.ws nlChar ::
        (List.replicate (2 * lvl) (.ws ' ') ++ [Atom.rbrace])) :=
      ⟨Or.inr rfl, WF_indent (2 * lvl) trivial⟩
    have hchildren : ∀ (cs : List ASTNode), (∀ c ∈ cs, c ∈ children) → ∀ (lvlc : Nat)
        (tail : List Atom), WFAtoms tail → headNotWord tail →
        WFAtoms (atomsOfChildren lvlc cs ++ tail) := by
      intro cs
      induction cs with
      | nil => intro _ lvlc tail h _; simpa [atomsOfChildren]
      | cons c cs9 ihc =>
        intro hsub lvlc tail h hn
        rw [show atomsOfChildren lvlc (c :: cs9) =
          Atom.ws nlChar :: (atomsOfNode lvlc c ++ atomsOfChildren lvlc cs9) from by
            simp [atomsOfChildren]]
        rw [List.cons_append, List.append_assoc]
        refine ⟨Or.inr rfl, ?_⟩
        refine WF_append (ih c (hsub c (List.mem_cons_self c cs9)) lvlc)
          (ihc (fun x hx => hsub x (List.mem_cons_of_mem c hx)) lvlc tail h hn) ?_
        cases cs9 with
        | nil => simpa [atomsOfChildren]
        | cons c2 cs2 => trivial
    rw [show atomsOfNode lvl (.block name args children pos) =
      List.replicate (2 * lvl) (.ws ' ') ++ (.word name :: (argAtoms args ++
        (.ws ' ' :: .lbrace :: (atomsOfChildren (lvl + 1) children ++
          (.ws nlChar :: (List.replicate (2 * lvl) (.ws ' ') ++ [.rbrace]))))))
      from by simp [atomsOfNode, indentAtoms, List.append_assoc]]
    refine WF_indent (2 * lvl) ⟨hw, ?_, WF_args args ha
      ⟨Or.inl rfl, hchildren children (fun c h => h) (lvl + 1) _ hfoot trivial⟩ trivial⟩
    cases args with
    | nil => trivial
    | cons a as => trivial

/-- The atoms of a plain top-level statement list are well-formed. -/
theorem WF_top : ∀ (cs : List ASTNode), (∀ c ∈ cs, Plain c) → WFAtoms (atomsOfTop cs) := by
  intro cs
  induction cs with
  | nil => intro _; trivial
  | cons c cs9 ih =>
    intro hp
    cases cs9 with
    | nil => exact WF_node c (hp c (List.mem_cons_self c [])) 0
    | cons c2 cs2 =>
      rw [show atomsOfTop (c :: c2 :: cs2) =
        atomsOfNode 0 c ++ (.ws nlChar :: atomsOfTop (c2 :: cs2)) from rfl]
      exact WF_append (WF_node c (hp c (List.mem_cons_self c _)) 0)
        ⟨Or.inr rfl, ih (fun x hx => hp x (List.mem_cons_of_mem c hx))⟩ trivial

/-- Token counts add over appends. -/
theorem tokenCount_append : ∀ (xs ys : List Atom),
    tokenCountAtoms (xs ++ ys) = tokenCountAtoms xs + tokenCountAtoms ys := by
  intro xs
  induction xs with
  | nil => intro ys; simp [tokenCountAtoms]
  | cons a r ih =>
    intro ys
    cases a with
    | word w => simp [tokenCountAtoms, ih]; omega
    | semi => simp [tokenCountAtoms, ih]; omega
    | lbrace => simp [tokenCountAtoms, ih]; omega
    | rbrace => simp [tokenCountAtoms, ih]; omega
    | ws c => simp [tokenCountAtoms, ih]

/-- Indentation atoms contribute no tokens. -/
theorem tokenCount_indent : ∀ (n : Nat), tokenCountAtoms (List.replicate n (.ws ' ')) = 0 := by
  intro n
  induction n with
  | zero => rfl
  | succ k ih => simpa [tokenCountAtoms]

/-- Argument atoms contribute one token per argument. -/
theorem tokenCount_args : ∀ (args : List String),
    tokenCountAtoms (argAtoms args) = args.length := by
  intro args
  induction args with
  | nil => rfl
  | cons a as ih => simp [argAtoms, tokenCountAtoms, ih]

/-- A plain node's atoms lex to exactly `tcount` tokens. -/
theorem tokenCount_node : ∀ (t : ASTNode), Plain t → ∀ lvl,
    tokenCountAtoms (atomsOfNode lvl t) = tcount t := by
  intro t hp
  induction hp with
  | directive name args pos hn ha =>
    intro lvl
    rw [show atomsOfNode lvl (.directive name args pos) =
      indentAtoms lvl ++ (.word name :: argAtoms args) ++ [.semi] from rfl]
    rw [tokenCount_append, tokenCount_append]
    rw [show indentAtoms lvl = List.replicate (2 * lvl) (Atom.ws ' ') from rfl]
    rw [show tokenCountAtoms (Atom.word name :: argAtoms args) =
      tokenCountAtoms (argAtoms args) + 1 from rfl]
    simp only [tokenCount_indent, tokenCount_args]
    rw [show tokenCountAtoms [Atom.semi] = 1 from rfl]
    rw [show tcount (ASTNode.directive name args pos) = args.length + 2 from rfl]
    omega
  | block name args children pos hn ha hc ih =>
    have hch : ∀ (cs : List ASTNode), (∀ c ∈ cs, c ∈ children) → ∀ lvlc,
        tokenCountAtoms (atomsOfChildren lvlc cs) = tcountList cs := by
      intro cs
      induction cs with
      | nil => intro _ lvlc; rfl
      | cons c cs9 ihc =>
        intro hsub lvlc
        rw [show atomsOfChildren lvlc (c :: cs9) =
          (Atom.ws nlChar :: atomsOfNode lvlc c) ++ atomsOfChildren lvlc cs9 from rfl]
        rw [tokenCount_append]
        rw [show tokenCountAtoms (Atom.ws nlChar :: atomsOfNode lvlc c) =
          tokenCountAtoms (atomsOfNode lvlc c) from rfl]
        rw [ih c (hsub c (List.mem_cons_self c cs9)) lvlc,
          ihc (fun x hx => hsub x (List.mem_cons_of_mem c hx)) lvlc]
        rfl
    intro lvl
    rw [show atomsOfNode lvl (.block name args children pos) =
      indentAtoms lvl ++ (.word name :: argAtoms args) ++ [.ws ' ', .lbrace] ++
        atomsOfChildren (lvl + 1) children ++ [.ws nlChar] ++ indentAtoms lvl ++ [.rbrace]
      from rfl]
    rw [tokenCount_append, tokenCount_append, tokenCount_append, tokenCount_append,
      tokenCount_append, tokenCount_append]
    rw [show indentAtoms lvl = List.replicate (2 * lvl) (Atom.ws ' ') from rfl]
    rw [show tokenCountAtoms (Atom.word name :: argAtoms args) =
      tokenCountAtoms (argAtoms args) + 1 from rfl]
    simp only [tokenCount_indent, tokenCount_args]
    rw [hch children (fun c h => h) (lvl + 1)]
    rw [show tokenCountAtoms [Atom.ws ' ', Atom.lbrace] = 1 from rfl]
    rw [show tokenCountAtoms [Atom.ws nlChar] = 0 from rfl]
    rw [show tokenCountAtoms [Atom.rbrace] = 1 from rfl]
    rw [show tcount (ASTNode.block name args children pos) =
      args.length + 3 + tcountList children from rfl]
    omega

/-- A plain top-level list's atoms lex to exactly `tcountList` tokens. -/
theorem tokenCount_top : ∀ (cs : List ASTNode), (∀ c ∈ cs, Plain c) →
    tokenCountAtoms (atomsOfTop cs) = tcountList cs := by
  intro cs
  induction cs with
  | nil => intro _; rfl
  | cons c cs9 ih =>
    intro hp
    cases cs9 with
    | nil =>
      rw [show atomsOfTop [c] = atomsOfNode 0 c from rfl,
        tokenCount_node c (hp c (List.mem_cons_self c [])) 0]
      simp [tcountList]
    | cons c2 cs2 =>
      rw [show atomsOfTop (c :: c2 :: cs2) =
        atomsOfNode 0 c ++ (.ws nlChar :: atomsOfTop (c2 :: cs2)) from rfl]
      rw [tokenCount_append,
        show tokenCountAtoms (Atom.ws nlChar :: atomsOfTop (c2 :: cs2)) =
          tokenCountAtoms (atomsOfTop (c2 :: cs2)) from rfl,
        tokenCount_node c (hp c (List.mem_cons_self c _)) 0,
        ih (fun x hx => hp x (List.mem_cons_of_mem c hx))]
      rfl

/-- The number of tokens `atomLex` emits is the atom token count. -/
theorem atomLex_length : ∀ (atoms : List Atom) (line col : Nat),
    (atomLex atoms line col).1.length = tokenCountAtoms atoms := by
  intro atoms
  induction atoms with
  | nil => intro line col; rfl
  | cons a rest ih =>
    intro line col
    cases a with
    | word w =>
      rw [atomLex_word]
      simp only [List.length_cons, ih]
      rfl
    | semi =>
      rw [atomLex_semi]
      simp only [List.length_cons, ih]
      rfl
    | lbrace =>
      rw [atomLex_lbrace]
      simp only [List.length_cons, ih]
      rfl
    | rbrace =>
      rw [atomLex_rbrace]
      simp only [List.length_cons, ih]
      rfl
    | ws c =>
      by_cases hc : c = nlChar
      · subst hc
        rw [atomLex_ws_nl, ih]
        rfl
      · rw [show atomLex (Atom.ws c :: rest) line col = atomLex rest line (col + 1) from by
          simp only [atomLex]; rw [if_neg hc], ih]
        rfl

/-- The top-level statement loop over a plain forest's tokens rebuilds a
pointwise atom-equal plain forest and stops at the end-of-file token. -/
theorem parseTop_plain : ∀ (cs : List ASTNode), (∀ c ∈ cs, Plain c) →
    ∀ (line col : Nat) (fuel : Nat) (acc : List ASTNode) (eofTok : Token),
    eofTok.type = .eof → 2 * tcountList cs + 1 ≤ fuel →
    ∃ cs2, parseTopLoop noEnv fuel ((atomLex (atomsOfTop cs) line col).1 ++ [eofTok]) acc =
        .ok (acc ++ cs2) ∧
      List.Forall₂ (fun c c2 => Plain c2 ∧ ∀ l2, atomsOfNode l2 c2 = atomsOfNode l2 c)
        cs cs2 := by
  intro cs
  induction cs with
  | nil =>
    intro _ line col fuel acc eofTok heof hf
    cases fuel with
    | zero => omega
    | succ g =>
      refine ⟨[], ?_, List.Forall₂.nil⟩
      rw [show (atomLex (atomsOfTop ([] : List ASTNode)) line col).1 = ([] : List Token)
        from rfl]
      rw [List.nil_append]
      simp only [parseTopLoop]
      rw [if_neg (by simp [atEnd, checkTok, peekTok, heof])]
      simp
  | cons c cs9 ih =>
    intro hp line col fuel acc eofTok heof hf
    have hplc : Plain c := hp c (List.mem_cons_self c cs9)
    have h2c := tcount_ge2 hplc
    cases fuel with
    | zero => omega
    | succ g =>
      cases cs9 with
      | nil =>
        have htcl : tcountList [c] = tcount c + 0 := rfl
        obtain ⟨v, more, hhead⟩ := node_toks_head c hplc 0 line col
        obtain ⟨t2, hps, hpl2, hatoms⟩ := parse_plain_node c hplc 0 line col [eofTok] g
          (by omega)
        refine ⟨[t2], ?_, List.Forall₂.cons ⟨hpl2, hatoms⟩ List.Forall₂.nil⟩
        rw [show atomsOfTop [c] = atomsOfNode 0 c from rfl]
        rw [hhead] at hps ⊢
        simp only [List.cons_append] at hps ⊢
        simp only [parseTopLoop]
        rw [if_pos (by simp [atEnd, checkTok, peekTok])]
        rw [hps]
        dsimp only
        cases g with
        | zero => omega
        | succ g2 =>
          simp only [parseTopLoop]
          rw [if_neg (by simp [atEnd, checkTok, peekTok, heof])]
      | cons c2 cs2 =>
        have htcl : tcountList (c :: c2 :: cs2) = tcount c + tcountList (c2 :: cs2) := rfl
        rw [show atomsOfTop (c :: c2 :: cs2) =
          atomsOfNode 0 c ++ (.ws nlChar :: atomsOfTop (c2 :: cs2)) from rfl]
        rw [atomLex_append]
        dsimp only
        rw [atomLex_ws_nl]
        rw [List.append_assoc]
        obtain ⟨v, more, hhead⟩ := node_toks_head c hplc 0 line col
        obtain ⟨t2, hps, hpl2, hatoms⟩ := parse_plain_node c hplc 0 line col
          ((atomLex (atomsOfTop (c2 :: cs2))
            ((atomLex (atomsOfNode 0 c) line col).2.1 + 1) 1).1 ++ [eofTok]) g (by omega)
        obtain ⟨cs3, hloop, hfa⟩ := ih (fun x hx => hp x (List.mem_cons_of_mem c hx))
          ((atomLex (atomsOfNode 0 c) line col).2.1 + 1) 1 g (acc ++ [t2]) eofTok heof
          (by omega)
        refine ⟨t2 :: cs3, ?_, List.Forall₂.cons ⟨hpl2, hatoms⟩ hfa⟩
        rw [hhead] at hps ⊢
        simp only [List.cons_append] at hps ⊢
        simp only [parseTopLoop]
        rw [if_pos (by simp [atEnd, checkTok, peekTok])]
        rw [hps]
        dsimp only
        rw [hloop]
        simp

/-- Parsing the rendered text of a plain forest succeeds with a config
of a pointwise atom-equal plain forest. -/
theorem parse_render_plain (cs : List ASTNode) (hp : ∀ c ∈ cs, Plain c) :
    ∃ cs2 p, parse noEnv (String.mk (renderAtoms (atomsOfTop cs))) = .ok (.config cs2 p) ∧
      List.Forall₂ (fun c c2 => Plain c2 ∧ ∀ l2, atomsOfNode l2 c2 = atomsOfNode l2 c)
        cs cs2 := by
  have hwf := WF_top cs hp
  have htr := tokenize_render (atomsOfTop cs) hwf
  have hlen := atomLex_length (atomsOfTop cs) 1 1
  have hcount := tokenCount_top cs hp
  obtain ⟨cs2, hloop, hfa⟩ := parseTop_plain cs hp 1 1
    (parserFuel ((atomLex (atomsOfTop cs) 1 1).1 ++
      [⟨.eof, "", (atomLex (atomsOfTop cs) 1 1).2.1, (atomLex (atomsOfTop cs) 1 1).2.2⟩])) []
    ⟨.eof, "", (atomLex (atomsOfTop cs) 1 1).2.1, (atomLex (atomsOfTop cs) 1 1).2.2⟩ rfl
    (by
      simp only [parserFuel, List.length_append, List.length_cons, List.length_nil, hlen,
        hcount]
      omega)
  refine ⟨cs2, tokPos ((atomLex (atomsOfTop cs) 1 1).1 ++
    [⟨.eof, "", (atomLex (atomsOfTop cs) 1 1).2.1, (atomLex (atomsOfTop cs) 1 1).2.2⟩]),
    ?_, hfa⟩
  simp only [parse, htr, parseTokens, hloop]
  simp

/-- A successful `generateStr` comes from a successful `generateNode` on
the fresh state, with the output being its trimmed result. -/
theorem generateStr_ok_node {env : GenEnv} {fuel : Nat} {ast : ASTNode}
    {opts : GeneratorOptions} {fp out : String}
    (h : generateStr env fuel ast opts fp = .ok out) :
    ∃ s st2, generateNode env fuel
        (GenState.mk (mkOptions opts) 0 (collectVariables ast (fun _ => Option.none)) []
          (fun _ => Option.none) fp) ast = (.ok s, st2) ∧ out = jsTrim s := by
  rcases hg : generateNode env fuel
      (GenState.mk (mkOptions opts) 0 (collectVariables ast (fun _ => Option.none)) []
        (fun _ => Option.none) fp) ast with ⟨res, st2⟩
  cases res with
  | error e =>
    exfalso
    have h2 : generateStr env fuel ast opts fp = .error e := by
      simp only [generateStr, generate, initState, hg]
    rw [h2] at h
    exact Except.noConfusion h
  | ok s =>
    refine ⟨s, st2, rfl, ?_⟩
    have h2 : generateStr env fuel ast opts fp = .ok (jsTrim s) := by
      simp only [generateStr, generate, initState, hg]
    rw [h2] at h
    injection h with h3
    exact h3.symm

/-- C6 (amended): for a config of plain nodes — directives and non-`if`
blocks whose names and arguments are simple words — a successful render
with the default options is reproduced verbatim by re-lexing, re-parsing
and re-rendering with the same (default) options, for a large enough
second render fuel.  (The unamended claim is refuted by
`c6_counterexample`: a pre-quoted argument survives the first render
verbatim but is re-quoted with double quotes on the second.) -/
theorem c6_amended (children : List ASTNode) (hp : ∀ c ∈ children, Plain c)
    (pos : Position) (fp : String) (env : GenEnv) (fuel : Nat) (out : String)
    (hgen : generateStr env fuel (.config children pos) {} fp = .ok out) :
    ∃ fuel2, renderAgain fuel2 out = .ok out := by
  obtain ⟨f0, hf0⟩ := generate_plain_top children hp {} rfl pos fp
  have hout : out = String.mk (renderAtoms (atomsOfTop children)) := by
    obtain ⟨s, st2, hg, he⟩ := generateStr_ok_node hgen
    have hg2 := generateNode_mono (Nat.le_max_left fuel f0) hg
    have hcanon := hf0 (max fuel f0) (Nat.le_max_right fuel f0) env
    have h4 := generate_eq env (max fuel f0) (.config children pos) {} fp s st2 hg2
    rw [h4] at hcanon
    injection hcanon with h5
    rw [he, h5]
  subst hout
  obtain ⟨cs2, p2, hparse, hfa⟩ := parse_render_plain children hp
  obtain ⟨f2, hf2⟩ := generate_plain_top cs2 (forall2_children_plain hfa) {} rfl p2 ""
  refine ⟨f2, ?_⟩
  simp only [renderAgain, hparse]
  rw [hf2 f2 le_rfl emptyEnv]
  rw [forall2_top_atoms hfa]

/-- C6 witness: the amended round trip at the one-directive config
rendering to `foo bar;`. -/
theorem c6_witness : ∃ fuel2, renderAgain fuel2 "foo bar;" = .ok "foo bar;" := by
  have hplain : ∀ c ∈ [ASTNode.directive "foo" ["bar"] ⟨1, 1⟩], Plain c := by
    intro c hc
    rcases List.mem_cons.mp hc with he | hc2
    · subst he
      refine Plain.directive _ _ _ (by decide) ?_
      intro a ha
      rcases List.mem_cons.mp ha with he2 | h2
      · subst he2; decide
      · cases h2
    · cases hc2
  exact c6_amended [ASTNode.directive "foo" ["bar"] ⟨1, 1⟩] hplain ⟨1, 1⟩ "" emptyEnv 10
    "foo bar;" (by rfl)

end Ncl
